import Mathlib

/-!
# Verification of the PCDB v3 postcode database (encoder / reader)

Shallow embedding of the TypeScript sources of `postcode-db`:

* `VarintUtils.ts`   — unsigned LEB128 codec with delta sequences;
* `BitWriter.ts` / `BitReader.ts` — LSB-first bit streams;
* `PostcodeNormalizer` — postcode string parsing;
* `PostcodeEncoder`  — CSV records → binary buffer (PCDB v3);
* `PostcodeClient`   — binary buffer → lookup / enumeration.

Modelling conventions:

* JavaScript numbers that hold integers are modelled as `Nat`/`Int`.
  JavaScript bitwise operators (`&`, `|`, `<<`, `>>`, `>>>`) convert their
  operands to 32-bit integers first; this truncation is modelled explicitly
  (`jsToUint32`, `jsToInt32`, `jsAnd`, …) exactly where the source uses those
  operators.
* Latitude/longitude values (`f64` in the source) are modelled as rationals;
  `Math.round` is `round : ℚ → ℤ` (both round halves towards `+∞`).
* `Buffer` is `List Nat` (one `Nat` per byte; all writers only produce
  values `< 256`).
* Fallible reader code (Node `Buffer.read*` and the bit/varint decoders
  throw on out-of-range access, and `PostcodeClient` construction throws on
  a bad header) is modelled with `Except String`.  The encoder's Node
  `Buffer.write*` calls are bound-checked at run time; they are modelled as
  total little-endian writes of `value mod 2^width`, and every theorem about
  encoder output carries the in-range hypotheses under which this total
  model coincides with the source.
* JavaScript `Map` preserves insertion order; it is modelled as an
  association list where `set` of a fresh key appends at the end.
-/

namespace PostcodeDB

/-! ## JavaScript 32-bit integer primitives

`ToUint32` / `ToInt32` of ECMA-262, restricted to integral inputs, and the
bitwise operators built on them. -/

/-- ECMA `ToUint32` of an integral value. -/
def jsToUint32 (x : Int) : Nat := (x % (2 ^ 32 : Int)).toNat

/-- ECMA `ToInt32` of an integral value. -/
def jsToInt32 (x : Int) : Int :=
  if jsToUint32 x < 2 ^ 31 then (jsToUint32 x : Int) else (jsToUint32 x : Int) - 2 ^ 32

/-- JavaScript `a & b` on integral values. -/
def jsAnd (a b : Int) : Int := jsToInt32 (((jsToUint32 a &&& jsToUint32 b : Nat)) : Int)

/-- JavaScript `a | b` on integral values. -/
def jsOr (a b : Int) : Int := jsToInt32 (((jsToUint32 a ||| jsToUint32 b : Nat)) : Int)

/-- JavaScript `a << b` on integral values (shift count taken mod 32). -/
def jsShl (a b : Int) : Int :=
  jsToInt32 (((jsToUint32 a) <<< (jsToUint32 b % 32) : Nat) : Int)

/-- JavaScript arithmetic right shift `a >> b` (shift count taken mod 32). -/
def jsShr (a b : Int) : Int :=
  Int.fdiv (jsToInt32 a) ((2 : Int) ^ (jsToUint32 b % 32))

/-- JavaScript unsigned right shift `a >>> b` (shift count taken mod 32). -/
def jsShrU (a b : Int) : Nat := (jsToUint32 a) >>> (jsToUint32 b % 32)

/-! ## VarintUtils (unsigned LEB128)

Source: `src/VarintUtils.ts`.  `VarintUtils.encode` takes a nonnegative JS number
(negative input throws, so the Lean domain is `Nat`) and loops
`while (value >= 0x80) { bytes.push((value & 0x7f) | 0x80); value >>>= 7 }`
followed by `bytes.push(value & 0x7f)`.  The bitwise operators truncate to
32 bits, hence the explicit `% 2 ^ 32`. -/

/-- One peeled presentation of the `VarintUtils.encode` loop body, with an
explicit fuel so the definition is structurally recursive (and hence
kernel-evaluable).  The shifted value strictly decreases on every iteration,
so fuel `value` suffices; `VarintUtils.encode_cons`/`VarintUtils.encode_of_lt` prove that `VarintUtils.encode`
satisfies the source's loop equation. -/
def VarintUtils.encodeAux : Nat → Nat → List Nat
  | 0, value => [(value % 2 ^ 32) &&& 0x7f]
  | fuel + 1, value =>
    if 0x80 ≤ value then
      (((value % 2 ^ 32) &&& 0x7f) ||| 0x80) :: VarintUtils.encodeAux fuel ((value % 2 ^ 32) >>> 7)
    else
      [(value % 2 ^ 32) &&& 0x7f]

/-- `VarintUtils.encode` (the source first throws on a negative argument, so
the Lean domain is `Nat`).  The loop
`while (value >= 0x80) { bytes.push((value & 0x7f) | 0x80); value >>>= 7 }`
ends with `bytes.push(value & 0x7f)`; the JS bitwise operators truncate to
32 bits, hence the explicit `% 2 ^ 32`. -/
def VarintUtils.encode (value : Nat) : List Nat := VarintUtils.encodeAux value value

/-- `VarintUtils.getByteLength`.  The source computes
`1 + Math.floor(Math.log2(value) / 7)` for `value > 0`.  For an integer
`v > 0` the real number `⌊log₂ v / 7⌋` equals `⌊⌊log₂ v⌋ / 7⌋` (no multiple
of 7 lies strictly between `⌊log₂ v⌋` and `log₂ v`), and the floating-point
evaluation is exact for `v < 2 ^ 32` (the error of `Math.log2` is far below
the distance to the nearest integer multiple of 7); hence the `Nat.log2`
formulation. -/
def VarintUtils.getByteLength (value : Nat) : Nat :=
  if value = 0 then 1 else 1 + Nat.log2 value / 7

/-- The `VarintUtils.decode` loop, with fuel.  Each iteration reads
`buffer[offset + bytesRead]` (running off the end throws), accumulates
`value |= (byte & 0x7f) << shift` with the 32-bit JS operators, stops on a
clear continuation bit, and throws once `shift` would reach 32.  The shift
takes values 0, 7, 14, 21, 28 and then errors, so fuel 5 runs the loop to
completion. -/
def VarintUtils.decodeAux : Nat → List Nat → Nat → Int → Nat → Nat → Except String (Int × Nat)
  | 0, _, _, _, _, _ => .error "Varint too long"
  | fuel + 1, buffer, offset, value, shift, bytesRead =>
    match buffer[offset + bytesRead]? with
    | none => .error "Incomplete varint"
    | some byte =>
      let value' := jsOr value (jsShl (((byte &&& 0x7f : Nat)) : Int) (shift : Int))
      if byte &&& 0x80 = 0 then
        .ok (value', bytesRead + 1)
      else if 32 ≤ shift + 7 then
        .error "Varint too long"
      else
        VarintUtils.decodeAux fuel buffer offset value' (shift + 7) (bytesRead + 1)

/-- `VarintUtils.decode`. -/
def VarintUtils.decode (buffer : List Nat) (offset : Nat) : Except String (Int × Nat) :=
  VarintUtils.decodeAux 5 buffer offset 0 0 0

/-! ## BitWriter (`src/BitWriter.ts`)

LSB-first bit packing.  State: accumulated byte list, current partial byte,
and the bit position (0–7) inside it. -/

structure BitWriter where
  buffer : List Nat
  currentByte : Nat
  bitPosition : Nat

/-- A fresh `new BitWriter()`. -/
def BitWriter.init : BitWriter := ⟨[], 0, 0⟩

/-- The `BitWriter.writeBits` loop with fuel (each pass consumes
`min remainingBits (8 - bitPosition) ≥ 1` bits while `bitPosition < 8`, so
fuel `remainingBits` suffices).  `bitsValue = remainingValue & mask` with
`mask = (1 << bitsToWrite) - 1 < 2 ^ 31`, so the JS `&` is `Nat.land` on
`ToUint32 remainingValue`; `remainingValue >>= bitsToWrite` is the 32-bit
arithmetic shift `jsShr`. -/
def BitWriter.writeBitsLoop : Nat → BitWriter → Nat → Int → BitWriter
  | 0, w, _, _ => w
  | fuel + 1, w, remainingBits, remainingValue =>
    if remainingBits = 0 then w
    else
      let bitsToWrite := min remainingBits (8 - w.bitPosition)
      let bitsValue := jsToUint32 remainingValue &&& (2 ^ bitsToWrite - 1)
      let newByte := w.currentByte ||| (bitsValue <<< w.bitPosition)
      let w' :=
        if 8 ≤ w.bitPosition + bitsToWrite then
          { buffer := w.buffer ++ [newByte], currentByte := 0, bitPosition := 0 }
        else
          { w with currentByte := newByte, bitPosition := w.bitPosition + bitsToWrite }
      BitWriter.writeBitsLoop fuel w' (remainingBits - bitsToWrite) (jsShr remainingValue (bitsToWrite : Int))

/-- `BitWriter.writeBits value bitCount`.  The source throws for
`bitCount < 0 || bitCount > 32` and returns immediately for `bitCount = 0`;
theorems about it only ever instantiate `bitCount ≤ 32`. -/
def BitWriter.writeBits (w : BitWriter) (value : Int) (bitCount : Nat) : BitWriter :=
  if bitCount = 0 then w else BitWriter.writeBitsLoop bitCount w bitCount value

/-- `BitWriter.padToByte`. -/
def BitWriter.padToByte (w : BitWriter) : BitWriter :=
  if 0 < w.bitPosition then ⟨w.buffer ++ [w.currentByte], 0, 0⟩ else w

/-- `BitWriter.getBuffer` (pads to a byte boundary). -/
def BitWriter.getBuffer (w : BitWriter) : List Nat := (BitWriter.padToByte w).buffer

/-- `BitWriter.getBitOffset`. -/
def BitWriter.getBitOffset (w : BitWriter) : Nat := w.buffer.length * 8 + w.bitPosition

/-! ## BitReader (`src/BitReader.ts`) -/

/-- The `BitReader.readBits` loop with fuel (each pass consumes
`min (8 - bitOffset % 8) (numBits - bitsRead) ≥ 1` bits, so fuel `numBits`
suffices; the fuel-0 fallback is unreachable).  Reading past the buffer
throws.  `result |= bits << bitsRead` uses the 32-bit JS operators. -/
def BitReader.readBitsLoop : Nat → List Nat → Nat → Int → Nat → Nat → Except String (Int × Nat)
  | 0, _, bitOffset, result, _, _ => .ok (result, bitOffset)
  | fuel + 1, buffer, bitOffset, result, bitsRead, numBits =>
    if bitsRead < numBits then
      match buffer[bitOffset / 8]? with
      | none => .error "Attempted to read beyond buffer"
      | some byte =>
        let bitsInThisByte := min (8 - bitOffset % 8) (numBits - bitsRead)
        let bits := (byte >>> (bitOffset % 8)) &&& (2 ^ bitsInThisByte - 1)
        BitReader.readBitsLoop fuel buffer (bitOffset + bitsInThisByte)
          (jsOr result (jsShl (bits : Int) (bitsRead : Int))) (bitsRead + bitsInThisByte) numBits
    else .ok (result, bitOffset)

/-- `BitReader.readBits` on a reader positioned at `bitOffset`; returns the
value and the advanced bit offset.  The source throws for
`numBits < 0 || numBits > 32` and returns 0 (without moving) for 0. -/
def BitReader.readBits (buffer : List Nat) (bitOffset : Nat) (numBits : Nat) : Except String (Int × Nat) :=
  if 32 < numBits then .error "Can only read 0-32 bits at a time"
  else if numBits = 0 then .ok (0, bitOffset)
  else BitReader.readBitsLoop numBits buffer bitOffset 0 0 numBits

/-! ## Bit-stream semantics

`bitAt` reads one bit of a byte buffer under the LSB-first convention;
`natOfBits` assembles `n` consecutive bits into a value.  These are the
specification devices relating `BitWriter` and `BitReader`. -/

/-- Bit `k` of a byte buffer: bit `k % 8` of byte `k / 8` (out-of-range
bytes read as 0). -/
def bitAt (buffer : List Nat) (k : Nat) : Bool := (buffer.getD (k / 8) 0).testBit (k % 8)

/-- The `n`-bit LSB-first value starting at bit offset `off`. -/
def natOfBits (buffer : List Nat) (off : Nat) : Nat → Nat
  | 0 => 0
  | n + 1 => (bitAt buffer off).toNat + 2 * natOfBits buffer (off + 1) n

/-! ### Writer-side bit semantics -/

/-- The 8 bits of a byte, LSB first. -/
def byteBits (b : Nat) : List Bool := (List.range 8).map b.testBit

/-- All bits of a byte buffer, LSB-first per byte, bytes in order. -/
def bufferBits (buffer : List Nat) : List Bool := buffer.flatMap byteBits

/-- The bit stream a `BitWriter` state represents: the full bytes followed
by the low `bitPosition` bits of the partial byte. -/
def wbits (w : BitWriter) : List Bool :=
  bufferBits w.buffer ++ (List.range w.bitPosition).map w.currentByte.testBit

/-! ### Multi-value write/read round trip -/

/-- Writing a list of `(value, width)` pairs in order on a fresh writer. -/
def writeAll (pairs : List (Nat × Nat)) : BitWriter :=
  pairs.foldl (fun w p => BitWriter.writeBits w (p.1 : Int) p.2) BitWriter.init

/-- The bit offset at which the `i`-th pair begins. -/
def offsetBefore (pairs : List (Nat × Nat)) (i : Nat) : Nat :=
  ((pairs.take i).map Prod.snd).sum

/-- The concatenated bit segments of a pair list. -/
def pairsBits (pairs : List (Nat × Nat)) : List Bool :=
  pairs.flatMap (fun p => (List.range p.2).map (fun k => p.1.testBit k))

/-! ## PostcodeNormalizer (`PostcodeNormalizer.ts`)

JavaScript strings are modelled as `List Char` (`Str`); all strings in the
claims are ASCII, where one `Char` per UTF-16 code unit is exact. -/

/-- A JavaScript string. -/
abbrev Str := List Char

/-- The JavaScript `\s` class used by `replace(/\s+/g, "")`: ASCII
whitespace, NBSP, and the Unicode space separators, line/paragraph
separators, NEL omitted (not in `\s`), and the BOM. -/
def isJsWhitespace (c : Char) : Bool :=
  c.toNat == 9 || c.toNat == 10 || c.toNat == 11 || c.toNat == 12 || c.toNat == 13 ||
  c.toNat == 32 || c.toNat == 160 || c.toNat == 5760 ||
  (Nat.ble 8192 c.toNat && Nat.ble c.toNat 8202) ||
  c.toNat == 8232 || c.toNat == 8233 || c.toNat == 8239 || c.toNat == 8287 ||
  c.toNat == 12288 || c.toNat == 65279

/-- `String.prototype.toUpperCase`, restricted to ASCII (all strings in the
claims are ASCII; JS also maps non-ASCII letters). -/
def jsToUpper (c : Char) : Char := c.toUpper

/-- The result type of `PostcodeNormalizer.parsePostcode` (`types.ts` `ParsedPostcode`). -/
structure ParsedPostcode where
  outward : Str
  sector : Nat
  unitIndex : Nat
deriving DecidableEq

/-- `UNIT_CHARS.indexOf c` for `UNIT_CHARS = "ABCDEFGHIJKLMNOPQRSTUVWXYZ"`:
`c - 'A'` for ASCII uppercase letters, `-1` (modelled `none`) otherwise. -/
def PostcodeNormalizer.unitCharIndex (c : Char) : Option Nat :=
  if 65 ≤ c.toNat ∧ c.toNat ≤ 90 then some (c.toNat - 65) else none

/-- `PostcodeNormalizer.unitToIndex`: `-1` is modelled as `none`. -/
def PostcodeNormalizer.unitToIndex (unit : Str) : Option Nat :=
  match unit with
  | [c1, c2] =>
    match PostcodeNormalizer.unitCharIndex c1, PostcodeNormalizer.unitCharIndex c2 with
    | some firstIndex, some secondIndex => some (firstIndex * 26 + secondIndex)
    | _, _ => none
  | _ => none

/-- `PostcodeNormalizer.parseComponents`.  `parseInt(sectorChar, 10)` of a
single character yields its value exactly for ASCII digits and `NaN`
otherwise. -/
def PostcodeNormalizer.parseComponents (outward : Str) (inward : Str) : Option ParsedPostcode :=
  match inward with
  | sectorChar :: unit =>
    if 48 ≤ sectorChar.toNat ∧ sectorChar.toNat ≤ 57 then
      match PostcodeNormalizer.unitToIndex unit with
      | some unitIndex => some ⟨outward, sectorChar.toNat - 48, unitIndex⟩
      | none => none
    else none
  | [] => none

/-- `PostcodeNormalizer.parsePostcode`: reject empty input, uppercase and
strip whitespace, require at least 4 characters, split off the last three
characters as the inward. -/
def PostcodeNormalizer.parsePostcode (postcode : Str) : Option ParsedPostcode :=
  if postcode = [] then none
  else
    let normalized := (postcode.map jsToUpper).filter (fun c => !(isJsWhitespace c))
    if normalized.length < 4 then none
    else
      let inward := normalized.drop (normalized.length - 3)
      let outward := normalized.take (normalized.length - 3)
      if outward = [] ∨ inward.length ≠ 3 then none
      else PostcodeNormalizer.parseComponents outward inward

/-- `PostcodeNormalizer.indexToUnit`. -/
def PostcodeNormalizer.indexToUnit (index : Nat) : Str :=
  if index < 676 then
    [Char.ofNat (65 + index / 26), Char.ofNat (65 + index % 26)]
  else []

/-! ## Stable sort

`Array.prototype.sort` (ECMA-262) is a stable sort; any stable sorting
algorithm computes the same output list, so the JS sorts are modelled by a
stable insertion sort (kernel-evaluable, unlike `List.mergeSort`).
`lt a b` is "the comparator returned a negative number". -/

def insertSorted {α : Type} (lt : α → α → Bool) (x : α) : List α → List α
  | [] => [x]
  | y :: ys => if lt y x then y :: insertSorted lt x ys else x :: y :: ys

def sortBy {α : Type} (lt : α → α → Bool) : List α → List α
  | [] => []
  | x :: xs => insertSorted lt x (sortBy lt xs)

/-- Code-unit-wise `<` on JS strings (the default `Array.sort` string
comparator orders by UTF-16 code units; for the one-`Char`-per-code-unit
strings here this is `Char.toNat` lexicographic order). -/
def strLt : Str → Str → Bool
  | [], [] => false
  | [], _ :: _ => true
  | _ :: _, [] => false
  | a :: as, b :: bs =>
    if a.toNat < b.toNat then true
    else if b.toNat < a.toNat then false
    else strLt as bs

/-! ## PostcodeEncoder (`PostcodeEncoder.ts`)

JS `Map`s are modelled as insertion-ordered association lists
(`Map.prototype.set` of a fresh key appends; of a present key updates in
place).  Coordinates are rationals; `Math.round` is `round : ℚ → ℤ`. -/

structure PostcodeRecord where
  postcode : Str
  lat : ℚ
  lon : ℚ

structure UnitData where
  unitIndex : Nat
  latInt : Int
  lonInt : Int
deriving DecidableEq

structure SectorData where
  sectorNumber : Nat
  units : List UnitData
  latMin : Int
  latMax : Int
  lonMin : Int
  lonMax : Int
deriving DecidableEq

structure OutwardData where
  outward : Str
  sectors : List (Nat × SectorData)
deriving DecidableEq

/-- `Map.prototype.get`. -/
def assocGet {α β : Type} [BEq α] (m : List (α × β)) (k : α) : Option β :=
  (m.find? (fun e => e.1 == k)).map Prod.snd

/-- `Map.prototype.set`: update in place if present, else append. -/
def assocSet {α β : Type} [BEq α] (m : List (α × β)) (k : α) (v : β) : List (α × β) :=
  if (m.find? (fun e => e.1 == k)).isSome then
    m.map (fun e => if e.1 == k then (k, v) else e)
  else m ++ [(k, v)]

/-- One iteration of `PostcodeEncoder.processRecords`: parse, quantize,
get-or-create the outward and sector, drop duplicates (first wins), push
the unit and update the sector bounds. -/
def processRecord (m : List (Str × OutwardData)) (r : PostcodeRecord) :
    List (Str × OutwardData) :=
  match PostcodeNormalizer.parsePostcode r.postcode with
  | none => m
  | some parsed =>
    let latInt : Int := round (r.lat * 100000)
    let lonInt : Int := round (r.lon * 100000)
    let od := match assocGet m parsed.outward with
      | some od => od
      | none => { outward := parsed.outward, sectors := [] }
    let sd := match assocGet od.sectors parsed.sector with
      | some sd => sd
      | none => { sectorNumber := parsed.sector, units := [],
                  latMin := latInt, lonMin := lonInt, latMax := latInt, lonMax := lonInt }
    if (sd.units.find? (fun u => u.unitIndex == parsed.unitIndex)).isSome then
      -- duplicate unit: keep first occurrence (the freshly created outward and
      -- sector are already in the maps in the source, but a duplicate can only
      -- exist in a sector that is already present, so the state is unchanged)
      m
    else
      let sd1 : SectorData := { sd with
        units := sd.units ++ [⟨parsed.unitIndex, latInt, lonInt⟩],
        latMin := min sd.latMin latInt, latMax := max sd.latMax latInt,
        lonMin := min sd.lonMin lonInt, lonMax := max sd.lonMax lonInt }
      let od1 : OutwardData := { od with sectors := assocSet od.sectors parsed.sector sd1 }
      assocSet m parsed.outward od1

/-- `PostcodeEncoder.processRecords`. -/
def processRecords (records : List PostcodeRecord) : List (Str × OutwardData) :=
  records.foldl processRecord []

/-- All units of the map, in iteration order. -/
def allUnits (m : List (Str × OutwardData)) : List UnitData :=
  m.flatMap (fun o => o.2.sectors.flatMap (fun s => s.2.units))

/-- `PostcodeEncoder.calculateGlobalOffsets` (latitude): the minimum
quantized latitude, 0 when there are no units. -/
def globalLatOffsetOf (m : List (Str × OutwardData)) : Int :=
  match (allUnits m).map (fun u => u.latInt) with
  | [] => 0
  | x :: xs => xs.foldl min x

/-- `PostcodeEncoder.calculateGlobalOffsets` (longitude). -/
def globalLonOffsetOf (m : List (Str × OutwardData)) : Int :=
  match (allUnits m).map (fun u => u.lonInt) with
  | [] => 0
  | x :: xs => xs.foldl min x

/-- `PostcodeEncoder.processSectors`: sort each sector's units by
ascending unit index. -/
def processSectors (m : List (Str × OutwardData)) : List (Str × OutwardData) :=
  m.map (fun o => (o.1, { o.2 with sectors := o.2.sectors.map (fun s =>
    (s.1, { s.2 with units := sortBy (fun a b => a.unitIndex < b.unitIndex) s.2.units })) }))

/-- `PostcodeEncoder.calculateBitWidth`: `Math.ceil(Math.log2(max + 1))`
(exact in floats on this domain), 0 for 0.  Negative input (impossible at
the call sites, which take `Math.max(0, …)`) is clamped by `Int.toNat`. -/
def calculateBitWidth (maxValue : Int) : Nat :=
  if maxValue = 0 then 0 else Nat.clog 2 (maxValue.toNat + 1)

/-- Byte size of the delta list after the first value (`getByteLength` of
each difference).  The source throws on a negative difference; call sites
pass ascending lists, where `Nat` subtraction agrees. -/
def deltaSizes : Nat → List Nat → Nat
  | _, [] => 0
  | prev, i :: rest => VarintUtils.getByteLength (i - prev) + deltaSizes i rest

/-- `PostcodeEncoder.chooseSectorMode`: `(useList, listByteSize)`;
list mode iff the delta-varint byte size is strictly below the 85-byte
bitmap. -/
def chooseSectorMode (sd : SectorData) : Bool × Nat :=
  match sd.units.map (fun u => u.unitIndex) with
  | [] => (false, 0)
  | first :: rest =>
    let listByteSize := VarintUtils.getByteLength first + deltaSizes first rest
    (listByteSize < 85, listByteSize)

/-- `VarintUtils.encodeDeltaSequence` after the first (absolute) value.
The source throws on a negative delta; call sites pass ascending lists. -/
def VarintUtils.deltaSeqRest : Nat → List Nat → List Nat
  | _, [] => []
  | prev, v :: rest => VarintUtils.encode (v - prev) ++ VarintUtils.deltaSeqRest v rest

/-- `VarintUtils.encodeDeltaSequence`: first value absolute, the rest as
deltas. -/
def VarintUtils.encodeDeltaSequence (values : List Nat) : List Nat :=
  match values with
  | [] => []
  | first :: rest => VarintUtils.encode first ++ VarintUtils.deltaSeqRest first rest

/-- `VarintUtils.decodeDeltaSequence` loop: decode `count` varints,
cumulating from the second one on. -/
def VarintUtils.decodeDeltaSequenceAux (buffer : List Nat) :
    Nat → Nat → Option Int → Except String (List Int × Nat)
  | _, 0, _ => .ok ([], 0)
  | offset, c + 1, prev =>
    match VarintUtils.decode buffer offset with
    | .error e => .error e
    | .ok (value, bytesRead) =>
      let v := match prev with
        | none => value
        | some p => p + value
      match VarintUtils.decodeDeltaSequenceAux buffer (offset + bytesRead) c (some v) with
      | .error e => .error e
      | .ok (values, rest) => .ok (v :: values, bytesRead + rest)

/-- `VarintUtils.decodeDeltaSequence`. -/
def VarintUtils.decodeDeltaSequence (buffer : List Nat) (offset count : Nat) :
    Except String (List Int × Nat) :=
  VarintUtils.decodeDeltaSequenceAux buffer offset count none

/-! ### Little-endian byte writers/readers

Node `Buffer.write*` bound-checks its argument and throws when out of
range; the writers below are total and write `value mod 2^width`, and the
encoder theorems carry the in-range hypotheses under which the two
coincide.  The readers throw (`Except.error`) past the end of the buffer
as Node does. -/

def u8 (v : Nat) : List Nat := [v % 256]

def u16le (v : Nat) : List Nat := [v % 256, v / 2 ^ 8 % 256]

def u24le (v : Nat) : List Nat := [v % 256, v / 2 ^ 8 % 256, v / 2 ^ 16 % 256]

def u32le (v : Nat) : List Nat :=
  [v % 256, v / 2 ^ 8 % 256, v / 2 ^ 16 % 256, v / 2 ^ 24 % 256]

def i24le (v : Int) : List Nat := u24le (v % 2 ^ 24).toNat

def i32le (v : Int) : List Nat := u32le (v % 2 ^ 32).toNat

def readU8 (buf : List Nat) (off : Nat) : Except String Nat :=
  match buf[off]? with
  | some b => .ok b
  | none => .error "out of range"

def readU16LE (buf : List Nat) (off : Nat) : Except String Nat :=
  match buf[off]?, buf[off + 1]? with
  | some b0, some b1 => .ok (b0 + 2 ^ 8 * b1)
  | _, _ => .error "out of range"

def readU24LE (buf : List Nat) (off : Nat) : Except String Nat :=
  match buf[off]?, buf[off + 1]?, buf[off + 2]? with
  | some b0, some b1, some b2 => .ok (b0 + 2 ^ 8 * b1 + 2 ^ 16 * b2)
  | _, _, _ => .error "out of range"

def readU32LE (buf : List Nat) (off : Nat) : Except String Nat :=
  match buf[off]?, buf[off + 1]?, buf[off + 2]?, buf[off + 3]? with
  | some b0, some b1, some b2, some b3 => .ok (b0 + 2 ^ 8 * b1 + 2 ^ 16 * b2 + 2 ^ 24 * b3)
  | _, _, _, _ => .error "out of range"

def readI24LE (buf : List Nat) (off : Nat) : Except String Int :=
  match readU24LE buf off with
  | .error e => .error e
  | .ok u => .ok (if u < 2 ^ 23 then (u : Int) else (u : Int) - 2 ^ 24)

def readI32LE (buf : List Nat) (off : Nat) : Except String Int :=
  match readU32LE buf off with
  | .error e => .error e
  | .ok u => .ok (if u < 2 ^ 31 then (u : Int) else (u : Int) - 2 ^ 32)

/-- Node `'ascii'` encoding strips the high bit of each code unit. -/
def asciiBytes (s : Str) : List Nat := s.map (fun c => c.toNat % 128)

/-- `outwardKey.padEnd(4, "\0").slice(0, 4)`. -/
def padOutwardCode (outward : Str) : Str :=
  (outward ++ List.replicate (4 - outward.length) (Char.ofNat 0)).take 4

/-- `PostcodeEncoder.writeHeader` (32 bytes).  `"PCDB"` in ASCII is
`[80, 67, 68, 66]`. -/
def writeHeader (outwardCount totalUnitCount : Nat) (latOffset lonOffset : Int) : List Nat :=
  [80, 67, 68, 66] ++ u8 3 ++ u8 0 ++ u16le outwardCount ++ u32le totalUnitCount ++
    i32le latOffset ++ i32le lonOffset ++ List.replicate 12 0

/-- `PostcodeEncoder.writeOutwardIndexEntry` (9 bytes). -/
def writeOutwardIndexEntry (outward : Str) (sectorCount sectorIndexOffset : Nat) : List Nat :=
  asciiBytes (padOutwardCode outward) ++ u8 sectorCount ++ u32le sectorIndexOffset

/-- The per-sector layout parameters derived in `writeOutwardBlock` and in
the size pass of `generateBinaryBuffer`:  coordinate deltas against the
sector minima, their maxima clamped at 0 (`Math.max(0, ...deltas)`), and
the bit widths. -/
def sectorLatDeltas (sd : SectorData) : List Int := sd.units.map (fun u => u.latInt - sd.latMin)

def sectorLonDeltas (sd : SectorData) : List Int := sd.units.map (fun u => u.lonInt - sd.lonMin)

def maxLatDelta (sd : SectorData) : Int := (sectorLatDeltas sd).foldl max 0

def maxLonDelta (sd : SectorData) : Int := (sectorLonDeltas sd).foldl max 0

def sectorBitsLat (sd : SectorData) : Nat := calculateBitWidth (maxLatDelta sd)

def sectorBitsLon (sd : SectorData) : Nat := calculateBitWidth (maxLonDelta sd)

/-- The bit-packed coordinate stream of a sector: for each unit in order,
`lat_delta` at `bits_lat` then `lon_delta` at `bits_lon`, zero-padded to a
byte. -/
def coordStream (latDeltas lonDeltas : List Int) (bitsLat bitsLon : Nat) : List Nat :=
  BitWriter.getBuffer (((latDeltas.zip lonDeltas)).foldl
    (fun w p => BitWriter.writeBits (BitWriter.writeBits w p.1 bitsLat) p.2 bitsLon)
    BitWriter.init)

/-- The 85-byte presence bitmap (`writeUnitDataBlob`, bitmap branch). -/
def bitmapOf (indices : List Nat) : List Nat :=
  indices.foldl (fun bm idx =>
    if idx / 8 < 85 then
      bm.set (idx / 8) ((bm.getD (idx / 8) 0) ||| (1 <<< (idx % 8)))
    else bm) (List.replicate 85 0)

/-- `PostcodeEncoder.writeUnitDataBlob`: unit presence (varint delta list
or 85-byte bitmap) followed by the coordinate stream. -/
def writeUnitDataBlob (sd : SectorData) (useList : Bool) (bitsLat bitsLon : Nat) : List Nat :=
  (if useList then VarintUtils.encodeDeltaSequence (sd.units.map (fun u => u.unitIndex))
   else bitmapOf (sd.units.map (fun u => u.unitIndex))) ++
    coordStream (sectorLatDeltas sd) (sectorLonDeltas sd) bitsLat bitsLon

/-- `PostcodeEncoder.writeSectorEntry` (14 bytes). -/
def writeSectorEntry (sectorNumber unitCount unitsRelOff : Nat)
    (baseLatStored baseLonStored : Int) (packed : Nat) : List Nat :=
  u8 sectorNumber ++ u16le unitCount ++ u24le unitsRelOff ++
    i24le baseLatStored ++ i24le baseLonStored ++ u16le packed

/-- The packed 16-bit flags word: bit 0 set (bit-packed), bit 1 list mode,
bits 2–6 `bits_lat`, bits 7–… `bits_lon`. -/
def packedFlags (useList : Bool) (bitsLat bitsLon : Nat) : Nat :=
  (1 ||| (if useList then 2 else 0)) ||| (bitsLat <<< 2) ||| (bitsLon <<< 7)

/-- The sectors of an outward in the order they are written: map values in
insertion order, sorted by sector number. -/
def sortedSectorsOf (od : OutwardData) : List SectorData :=
  sortBy (fun a b => a.sectorNumber < b.sectorNumber) (od.sectors.map Prod.snd)

/-- Byte size of a sector blob, as computed by the size pass of
`generateBinaryBuffer`. -/
def sectorBlobSize (sd : SectorData) : Nat :=
  (if (chooseSectorMode sd).1 then (chooseSectorMode sd).2 else 85) +
    (sd.units.length * (sectorBitsLat sd + sectorBitsLon sd) + 7) / 8

/-- `PostcodeEncoder.writeOutwardBlock`: the 14-byte sector entries in
ascending sector order, then the unit-data blobs in the same order.
`currentRelativeOffset` starts at the sector-table size and advances by
each blob's length. -/
def writeOutwardBlock (od : OutwardData) (gLat gLon : Int) : List Nat :=
  let sortedSectors := sortedSectorsOf od
  let sectorTableSize := sortedSectors.length * 14
  let res := sortedSectors.foldl (fun (acc : List Nat × List Nat × Nat) sd =>
    let mode := chooseSectorMode sd
    let bitsLat := sectorBitsLat sd
    let bitsLon := sectorBitsLon sd
    let blob := writeUnitDataBlob sd mode.1 bitsLat bitsLon
    (acc.1 ++ writeSectorEntry sd.sectorNumber sd.units.length acc.2.2
        (sd.latMin - gLat) (sd.lonMin - gLon) (packedFlags mode.1 bitsLat bitsLon),
     acc.2.1 ++ blob,
     acc.2.2 + blob.length)) ([], [], sectorTableSize)
  res.1 ++ res.2.1

/-- Size of an outward block (sector table plus blobs), as accumulated by
the size pass of `generateBinaryBuffer`. -/
def outwardBlockSize (od : OutwardData) : Nat :=
  od.sectors.length * 14 + ((od.sectors.map (fun s => sectorBlobSize s.2)).sum)

/-- The sorted outward keys (`Array.from(keys).sort()`). -/
def sortedOutwardKeys (m : List (Str × OutwardData)) : List Str :=
  sortBy strLt (m.map Prod.fst)

/-- Absolute offset of the `i`-th outward block:
`32 + 9 ·#outwards + Σ_{j<i} blockSize_j`. -/
def outwardBlockOffset (m : List (Str × OutwardData)) (i : Nat) : Nat :=
  32 + 9 * m.length +
    (((sortedOutwardKeys m).take i).map (fun k =>
      match assocGet m k with
      | none => 0
      | some od => outwardBlockSize od)).sum

/-- `PostcodeEncoder.generateBinaryBuffer`: header, outward index, then
the outward blocks, outwards in sorted key order (keys absent from the map
are skipped by the source; they cannot occur). -/
def generateBinaryBuffer (m : List (Str × OutwardData)) (gLat gLon : Int) : List Nat :=
  let sortedOutwards := sortedOutwardKeys m
  let totalUnitCount := (sortedOutwards.map (fun k =>
    match assocGet m k with
    | none => 0
    | some od => (od.sectors.map (fun s => s.2.units.length)).sum)).sum
  let header := writeHeader sortedOutwards.length totalUnitCount gLat gLon
  let index := (List.range sortedOutwards.length).flatMap (fun i =>
    match (sortedOutwards.drop i).head? with
    | none => []
    | some k =>
      match assocGet m k with
      | none => []
      | some od => writeOutwardIndexEntry k od.sectors.length (outwardBlockOffset m i))
  let blocks := sortedOutwards.flatMap (fun k =>
    match assocGet m k with
    | none => []
    | some od => writeOutwardBlock od gLat gLon)
  header ++ index ++ blocks

/-- `PostcodeEncoder.encodeFromRecords`: group records, compute global
offsets, sort sector units, and serialize. -/
def PostcodeEncoder.encodeFromRecords (records : List PostcodeRecord) : List Nat :=
  let m0 := processRecords records
  generateBinaryBuffer (processSectors m0) (globalLatOffsetOf m0) (globalLonOffsetOf m0)

/-! ## PostcodeClient (`PostcodeClient.ts`) -/

structure ClientHeader where
  magic : List Nat
  version : Nat
  flags : Nat
  outwardCount : Nat
  totalUnitCount : Nat
  latOffset : Int
  lonOffset : Int
deriving DecidableEq

structure OutwardIndexEntry where
  outwardCode : Str
  sectorCount : Nat
  sectorIndexOffset : Nat
deriving DecidableEq

structure SectorEntry where
  sectorNumber : Nat
  unitCount : Nat
  unitsRelOff : Nat
  baseLatStored : Int
  baseLonStored : Int
  flags : Nat
  bitsLat : Nat
  bitsLon : Nat
deriving DecidableEq

structure PostcodeLookupResult where
  postcode : Str
  outward : Str
  lat : ℚ
  lon : ℚ
deriving DecidableEq

structure PostcodeClient where
  buffer : List Nat
  header : ClientHeader
  outwardIndex : List OutwardIndexEntry
deriving DecidableEq

/-- `String.prototype.localeCompare` as used by the binary search,
modelled as code-unit comparison (`.lt` for a negative return value).  On
the NUL-free uppercase alphanumeric outward codes of a well-formed
database, the default ICU collation and code-unit order rank equal. -/
def strCmp : Str → Str → Ordering
  | [], [] => .eq
  | [], _ :: _ => .lt
  | _ :: _, [] => .gt
  | a :: as, b :: bs =>
    if a.toNat < b.toNat then .lt
    else if b.toNat < a.toNat then .gt
    else strCmp as bs

/-- `PostcodeClient.parseHeader`: requires 32 bytes; the magic is
`buffer.toString('ascii', 0, 4)` (high bit stripped), kept as raw masked
bytes here. -/
def parseHeader (buffer : List Nat) : Except String ClientHeader :=
  if buffer.length < 32 then .error "Buffer too small to contain v3 header"
  else do
    let magic := (buffer.take 4).map (fun b => b % 128)
    let version ← readU8 buffer 4
    let flags ← readU8 buffer 5
    let outwardCount ← readU16LE buffer 6
    let totalUnitCount ← readU32LE buffer 8
    let latOffset ← readI32LE buffer 12
    let lonOffset ← readI32LE buffer 16
    pure ⟨magic, version, flags, outwardCount, totalUnitCount, latOffset, lonOffset⟩

/-- `PostcodeClient.validateHeader`.  `"PCDB"` in ASCII is
`[80, 67, 68, 66]`. -/
def validateHeader (h : ClientHeader) : Except String Unit :=
  if h.magic ≠ [80, 67, 68, 66] then .error "Invalid magic"
  else if h.version ≠ 3 then .error "Unsupported version"
  else if h.outwardCount = 0 ∨ 65535 < h.outwardCount then .error "Invalid outward count"
  else .ok ()

/-- Strip the trailing run of NULs (`replace(/\0+$/, "")`). -/
def dropTrailingNulls (s : Str) : Str :=
  (s.reverse.dropWhile (fun c => c.toNat == 0)).reverse

/-- `PostcodeClient.parseOutwardIndex` loop: 9-byte entries starting at
offset 32.  `buffer.toString('ascii', …)` truncates rather than throws, so
only the two numeric reads can fail. -/
def parseOutwardIndexAux (buffer : List Nat) : Nat → Nat → Except String (List OutwardIndexEntry)
  | 0, _ => .ok []
  | c + 1, offset => do
    let codeBytes := (buffer.drop offset).take 4
    let outwardCode := dropTrailingNulls (codeBytes.map (fun b => Char.ofNat (b % 128)))
    let sectorCount ← readU8 buffer (offset + 4)
    let sectorIndexOffset ← readU32LE buffer (offset + 5)
    let rest ← parseOutwardIndexAux buffer c (offset + 9)
    pure (⟨outwardCode, sectorCount, sectorIndexOffset⟩ :: rest)

/-- `PostcodeClient.parseOutwardIndex`. -/
def parseOutwardIndex (buffer : List Nat) (count : Nat) : Except String (List OutwardIndexEntry) :=
  parseOutwardIndexAux buffer count 32

/-- The `PostcodeClient` constructor: parse header, validate, parse the
outward index. -/
def mkClient (buffer : List Nat) : Except String PostcodeClient := do
  let header ← parseHeader buffer
  validateHeader header
  let index ← parseOutwardIndex buffer header.outwardCount
  pure ⟨buffer, header, index⟩

/-- `PostcodeClient.findOutwardEntry` binary search, with fuel (the
interval shrinks strictly, so `length + 1` iterations suffice; the
`!entry` branch, which loops forever in the source, cannot fire since
`0 ≤ left ≤ mid ≤ right < length`). -/
def findOutwardEntryAux (index : List OutwardIndexEntry) (outward : Str) :
    Nat → Int → Int → Option OutwardIndexEntry
  | 0, _, _ => none
  | fuel + 1, left, right =>
    if left ≤ right then
      let mid := Int.fdiv (left + right) 2
      match index[mid.toNat]? with
      | none => none
      | some entry =>
        match strCmp outward entry.outwardCode with
        | .eq => some entry
        | .lt => findOutwardEntryAux index outward fuel left (mid - 1)
        | .gt => findOutwardEntryAux index outward fuel (mid + 1) right
    else none

/-- `PostcodeClient.findOutwardEntry`. -/
def findOutwardEntry (index : List OutwardIndexEntry) (outward : Str) :
    Option OutwardIndexEntry :=
  findOutwardEntryAux index outward (index.length + 1) 0 ((index.length : Int) - 1)

/-- `PostcodeClient.readSectorTable` loop: 14-byte entries; the packed
word yields `flags = packed & 3`, `bitsLat = (packed >> 2) & 0x1f`,
`bitsLon = (packed >> 7) & 0x1f`. -/
def readSectorTableAux (buffer : List Nat) : Nat → Nat → Except String (List SectorEntry)
  | 0, _ => .ok []
  | c + 1, offset => do
    let sectorNumber ← readU8 buffer offset
    let unitCount ← readU16LE buffer (offset + 1)
    let unitsRelOff ← readU24LE buffer (offset + 3)
    let baseLatStored ← readI24LE buffer (offset + 6)
    let baseLonStored ← readI24LE buffer (offset + 9)
    let packed ← readU16LE buffer (offset + 12)
    let rest ← readSectorTableAux buffer c (offset + 14)
    pure (⟨sectorNumber, unitCount, unitsRelOff, baseLatStored, baseLonStored,
      packed &&& 0x3, (packed >>> 2) &&& 0x1f, (packed >>> 7) &&& 0x1f⟩ :: rest)

/-- `PostcodeClient.readSectorTable`. -/
def readSectorTable (buffer : List Nat) (entry : OutwardIndexEntry) :
    Except String (List SectorEntry) :=
  readSectorTableAux buffer entry.sectorCount entry.sectorIndexOffset

/-- The `popcount8` loop (`value &= value - 1` clears one set bit per
pass, so fuel `value` suffices). -/
def popcount8Aux : Nat → Nat → Nat
  | 0, _ => 0
  | fuel + 1, v => if v = 0 then 0 else 1 + popcount8Aux fuel (v &&& (v - 1))

/-- `PostcodeClient.popcount8`. -/
def popcount8 (v : Nat) : Nat := popcount8Aux v v

/-- `PostcodeClient.checkBitmapUnit`: test bit `unitIndex` of the 85-byte
bitmap (`subarray` clamps; a missing byte reads as unset / contributes no
rank) and return the popcount of all earlier bits. -/
def checkBitmapUnit (buffer : List Nat) (outwardEntry : OutwardIndexEntry)
    (sectorEntry : SectorEntry) (unitIndex : Nat) : Option Nat :=
  let unitsOffset := outwardEntry.sectorIndexOffset + sectorEntry.unitsRelOff
  let bitmap := (buffer.drop unitsOffset).take 85
  let byteIndex := unitIndex / 8
  let bitIndex := unitIndex % 8
  if 85 ≤ byteIndex then none
  else
    match bitmap[byteIndex]? with
    | none => none
    | some byte =>
      if byte &&& (1 <<< bitIndex) = 0 then none
      else
        let rank := ((List.range byteIndex).map (fun i =>
          match bitmap[i]? with
          | some b => popcount8 b
          | none => 0)).sum + popcount8 (byte &&& ((1 <<< bitIndex) - 1))
        some rank

/-- The binary search inside `findListUnit`, with fuel (same argument as
`findOutwardEntryAux`); returns the rank. -/
def findListUnitAux (values : List Int) (unitIndex : Nat) : Nat → Int → Int → Option Nat
  | 0, _, _ => none
  | fuel + 1, left, right =>
    if left ≤ right then
      let mid := Int.fdiv (left + right) 2
      match values[mid.toNat]? with
      | none => none
      | some value =>
        if value = (unitIndex : Int) then some mid.toNat
        else if value < (unitIndex : Int) then findListUnitAux values unitIndex fuel (mid + 1) right
        else findListUnitAux values unitIndex fuel left (mid - 1)
    else none

/-- `PostcodeClient.findListUnit`: decode the delta list, binary-search
it; on a hit the coordinate stream starts after the consumed bytes. -/
def findListUnit (buffer : List Nat) (outwardEntry : OutwardIndexEntry)
    (sectorEntry : SectorEntry) (unitIndex : Nat) : Except String (Option (Nat × Nat)) := do
  let unitsOffset := outwardEntry.sectorIndexOffset + sectorEntry.unitsRelOff
  -- `vb` is the `(values, bytesRead)` pair
  let vb ← VarintUtils.decodeDeltaSequence buffer unitsOffset sectorEntry.unitCount
  match findListUnitAux vb.1 unitIndex (vb.1.length + 1) 0 ((vb.1.length : Int) - 1) with
  | none => pure none
  | some rank => pure (some (rank, unitsOffset + vb.2))

/-- `PostcodeClient.readCoordinateRecord`. -/
def readCoordinateRecord (buffer : List Nat) (streamStart rank bitsLat bitsLon : Nat) :
    Except String (Int × Int) := do
  let bitOffset := rank * (bitsLat + bitsLon)
  let r1 ← BitReader.readBits buffer (streamStart * 8 + bitOffset) bitsLat
  let r2 ← BitReader.readBits buffer r1.2 bitsLon
  pure (r1.1, r2.1)

/-- `PostcodeClient.lookup`.  The `?? 8` defaults for the bit widths are
dead code: `readSectorTable` always sets them.  The returned `postcode`
field echoes the original argument. -/
def PostcodeClient.lookup (c : PostcodeClient) (postcode : Str) :
    Except String (Option PostcodeLookupResult) :=
  match PostcodeNormalizer.parsePostcode postcode with
  | none => .ok none
  | some parsed =>
    match findOutwardEntry c.outwardIndex parsed.outward with
    | none => .ok none
    | some outwardEntry => do
      let sectors ← readSectorTable c.buffer outwardEntry
      match sectors.find? (fun s => s.sectorNumber == parsed.sector) with
      | none => pure none
      | some sectorEntry => do
        let hit ← (if sectorEntry.flags &&& 0x2 ≠ 0 then
            findListUnit c.buffer outwardEntry sectorEntry parsed.unitIndex
          else
            pure ((checkBitmapUnit c.buffer outwardEntry sectorEntry parsed.unitIndex).map
              (fun rank =>
                (rank, outwardEntry.sectorIndexOffset + sectorEntry.unitsRelOff + 85))))
        match hit with
        | none => pure none
        | some rs => do
          -- `rs` is the `(rank, streamStart)` pair
          let deltas ← readCoordinateRecord c.buffer rs.2 rs.1
            sectorEntry.bitsLat sectorEntry.bitsLon
          let latStored := sectorEntry.baseLatStored + deltas.1
          let lonStored := sectorEntry.baseLonStored + deltas.2
          pure (some ⟨postcode, parsed.outward,
            ((latStored + c.header.latOffset : Int) : ℚ) / 100000,
            ((lonStored + c.header.lonOffset : Int) : ℚ) / 100000⟩)

/-- Decimal rendering of a `Nat` (for the reconstructed postcode
strings). -/
def natToStrAux : Nat → Nat → Str
  | 0, _ => []
  | fuel + 1, n =>
    if n < 10 then [Char.ofNat (48 + n)]
    else natToStrAux fuel (n / 10) ++ [Char.ofNat (48 + n % 10)]

def natToStr (n : Nat) : Str := natToStrAux (n + 1) n

/-- `PostcodeNormalizer.indexToUnit` (the reader passes decoded JS
numbers, which may be out of range, hence the `Int` domain). -/
def indexToUnit (index : Int) : Str :=
  if 0 ≤ index ∧ index < 676 then
    [Char.ofNat (65 + index.toNat / 26), Char.ofNat (65 + index.toNat % 26)]
  else []

/-- The reconstructed postcode of `enumerateSector`:
`` `${outwardCode} ${sectorNumber}${unit}` ``. -/
def renderPostcode (outwardCode : Str) (sectorNumber : Nat) (unit : Str) : Str :=
  outwardCode ++ [' '] ++ natToStr sectorNumber ++ unit

/-- List-mode half of `enumerateSector`: walk the decoded unit indices,
rank = position. -/
def enumerateListAux (buffer : List Nat) (c : PostcodeClient)
    (outwardEntry : OutwardIndexEntry) (sectorEntry : SectorEntry) (streamStart : Nat) :
    List Int → Nat → Except String (List PostcodeLookupResult)
  | [], _ => .ok []
  | unitIndex :: rest, rank => do
    let unit := indexToUnit unitIndex
    let pc := renderPostcode outwardEntry.outwardCode sectorEntry.sectorNumber unit
    let deltas ← readCoordinateRecord buffer streamStart rank
      sectorEntry.bitsLat sectorEntry.bitsLon
    let latStored := sectorEntry.baseLatStored + deltas.1
    let lonStored := sectorEntry.baseLonStored + deltas.2
    let tail ← enumerateListAux buffer c outwardEntry sectorEntry streamStart rest (rank + 1)
    pure (⟨pc, outwardEntry.outwardCode,
      ((latStored + c.header.latOffset : Int) : ℚ) / 100000,
      ((lonStored + c.header.lonOffset : Int) : ℚ) / 100000⟩ :: tail)

/-- Bitmap-mode half of `enumerateSector`: scan unit indices 0–675 in
order (the `byteIndex ≥ 85` break cannot fire below 680; a missing bitmap
byte is skipped), incrementing the rank on each set bit. -/
def enumerateBitmapAux (buffer : List Nat) (c : PostcodeClient)
    (outwardEntry : OutwardIndexEntry) (sectorEntry : SectorEntry)
    (bitmap : List Nat) (streamStart : Nat) :
    List Nat → Nat → Except String (List PostcodeLookupResult)
  | [], _ => .ok []
  | unitIndex :: rest, rank =>
    let byteIndex := unitIndex / 8
    if 85 ≤ byteIndex then .ok []
    else
      match bitmap[byteIndex]? with
      | none => enumerateBitmapAux buffer c outwardEntry sectorEntry bitmap streamStart rest rank
      | some byte =>
        if byte &&& (1 <<< (unitIndex % 8)) ≠ 0 then do
          let unit := indexToUnit (unitIndex : Int)
          let pc := renderPostcode outwardEntry.outwardCode sectorEntry.sectorNumber unit
          let deltas ← readCoordinateRecord buffer streamStart rank
            sectorEntry.bitsLat sectorEntry.bitsLon
          let latStored := sectorEntry.baseLatStored + deltas.1
          let lonStored := sectorEntry.baseLonStored + deltas.2
          let tail ← enumerateBitmapAux buffer c outwardEntry sectorEntry bitmap streamStart
            rest (rank + 1)
          pure (⟨pc, outwardEntry.outwardCode,
            ((latStored + c.header.latOffset : Int) : ℚ) / 100000,
            ((lonStored + c.header.lonOffset : Int) : ℚ) / 100000⟩ :: tail)
        else enumerateBitmapAux buffer c outwardEntry sectorEntry bitmap streamStart rest rank

/-- `PostcodeClient.enumerateSector`. -/
def enumerateSector (c : PostcodeClient) (outwardEntry : OutwardIndexEntry)
    (sectorEntry : SectorEntry) : Except String (List PostcodeLookupResult) :=
  let unitsOffset := outwardEntry.sectorIndexOffset + sectorEntry.unitsRelOff
  if sectorEntry.flags &&& 0x2 ≠ 0 then do
    -- `vb` is the `(values, bytesRead)` pair
    let vb ← VarintUtils.decodeDeltaSequence c.buffer unitsOffset
      sectorEntry.unitCount
    enumerateListAux c.buffer c outwardEntry sectorEntry (unitsOffset + vb.2) vb.1 0
  else
    let bitmap := (c.buffer.drop unitsOffset).take 85
    enumerateBitmapAux c.buffer c outwardEntry sectorEntry bitmap (unitsOffset + 85)
      (List.range 676) 0

/-- `PostcodeClient.enumerateOutward`. -/
def PostcodeClient.enumerateOutward (c : PostcodeClient) (outward : Str) :
    Except String (List PostcodeLookupResult) :=
  match findOutwardEntry c.outwardIndex (outward.map jsToUpper) with
  | none => .ok []
  | some outwardEntry => do
    let sectors ← readSectorTable c.buffer outwardEntry
    sectors.foldlM (fun acc sectorEntry => do
      let rs ← enumerateSector c outwardEntry sectorEntry
      pure (acc ++ rs)) []

/-- `PostcodeClient.getOutwardList`: the index codes, sorted again. -/
def PostcodeClient.getOutwardList (c : PostcodeClient) : List Str :=
  sortBy strLt (c.outwardIndex.map (fun e => e.outwardCode))

/-! ## A small concrete database (one record, `M1 1AA`) used by several
concrete theorems below -/

/-- One input record: postcode `M11AA`, coordinates `(1/100000, 2/100000)`
degrees (which quantize to the integers 1 and 2). -/
def exampleRecords : List PostcodeRecord :=
  [⟨("M11AA" : String).data, 1 / 100000, 2 / 100000⟩]

/-- The grouping map `processRecords exampleRecords` evaluates to. -/
def exampleMap : List (Str × OutwardData) :=
  [(("M1" : String).data,
    ⟨("M1" : String).data, [(1, ⟨1, [⟨0, 1, 2⟩], 1, 1, 2, 2⟩)]⟩)]

/-- The encoded database for `exampleRecords`: 32-byte header, one 9-byte
index entry (`M1`, 1 sector, block at 41), one 14-byte sector entry
(sector 1, 1 unit, list mode, 0-bit coordinates) and a 1-byte delta
list. -/
def exampleBuf : List Nat :=
  [80, 67, 68, 66, 3, 0, 1, 0, 1, 0, 0, 0, 1, 0, 0, 0, 2, 0, 0, 0, 0, 0, 0, 0,
   0, 0, 0, 0, 0, 0, 0, 0, 77, 49, 0, 0, 1, 41, 0, 0, 0, 1, 1, 0, 14, 0, 0, 0,
   0, 0, 0, 0, 0, 3, 0, 0]

/-- The parsed client for `exampleBuf`. -/
def exampleClient : PostcodeClient :=
  ⟨exampleBuf, ⟨[80, 67, 68, 66], 3, 0, 1, 1, 1, 2⟩, [⟨("M1" : String).data, 1, 41⟩]⟩

/-! ## Concrete databases with 5-character outwards (`ABCDE…`), exhibiting
the 4-byte index truncation -/

def truncRecords : List PostcodeRecord :=
  [⟨("ABCDE1AA" : String).data, 1 / 100000, 2 / 100000⟩]

def truncMap : List (Str × OutwardData) :=
  [(("ABCDE" : String).data,
    ⟨("ABCDE" : String).data, [(1, ⟨1, [⟨0, 1, 2⟩], 1, 1, 2, 2⟩)]⟩)]

/-- The encoded database for `truncRecords`: note bytes 32–35, the index
code `ABCD` — the 5-character outward was truncated by `padOutwardCode`. -/
def truncBuf : List Nat :=
  [80, 67, 68, 66, 3, 0, 1, 0, 1, 0, 0, 0, 1, 0, 0, 0, 2, 0, 0, 0, 0, 0, 0, 0,
   0, 0, 0, 0, 0, 0, 0, 0, 65, 66, 67, 68, 1, 41, 0, 0, 0, 1, 1, 0, 14, 0, 0, 0,
   0, 0, 0, 0, 0, 3, 0, 0]

def truncClient : PostcodeClient :=
  ⟨truncBuf, ⟨[80, 67, 68, 66], 3, 0, 1, 1, 1, 2⟩, [⟨("ABCD" : String).data, 1, 41⟩]⟩

/-- Two records with the same postcode (and so the same parse) but
different coordinates. -/
def dupRecords : List PostcodeRecord :=
  [⟨("ABCDE1AA" : String).data, 1 / 100000, 2 / 100000⟩,
   ⟨("ABCDE1AA" : String).data, 3 / 100000, 4 / 100000⟩]

/-- Two distinct 5-character outwards sharing their first four
characters. -/
def pairRecords : List PostcodeRecord :=
  [⟨("ABCDE1AA" : String).data, 1 / 100000, 2 / 100000⟩,
   ⟨("ABCDF1AA" : String).data, 3 / 100000, 4 / 100000⟩]

def pairMap : List (Str × OutwardData) :=
  [(("ABCDE" : String).data,
    ⟨("ABCDE" : String).data, [(1, ⟨1, [⟨0, 1, 2⟩], 1, 1, 2, 2⟩)]⟩),
   (("ABCDF" : String).data,
    ⟨("ABCDF" : String).data, [(1, ⟨1, [⟨0, 3, 4⟩], 3, 3, 4, 4⟩)]⟩)]

def pairBuf : List Nat :=
  [80, 67, 68, 66, 3, 0, 2, 0, 2, 0, 0, 0, 1, 0, 0, 0, 2, 0, 0, 0, 0, 0, 0, 0,
   0, 0, 0, 0, 0, 0, 0, 0, 65, 66, 67, 68, 1, 50, 0, 0, 0, 65, 66, 67, 68, 1,
   65, 0, 0, 0, 1, 1, 0, 14, 0, 0, 0, 0, 0, 0, 0, 0, 3, 0, 0, 1, 1, 0, 14, 0,
   0, 2, 0, 0, 2, 0, 0, 3, 0, 0]

def pairClient : PostcodeClient :=
  ⟨pairBuf, ⟨[80, 67, 68, 66], 3, 0, 2, 2, 1, 2⟩,
   [⟨("ABCD" : String).data, 1, 50⟩, ⟨("ABCD" : String).data, 1, 65⟩]⟩

/-! ### Layout views of an outward block (table prefix + blob suffix) -/

/-- The 14-byte table entry a sector contributes (at relative blob offset
`off`). -/
def sectorEntryBytes (gLat gLon : Int) (sd : SectorData) (off : Nat) : List Nat :=
  writeSectorEntry sd.sectorNumber sd.units.length off
    (sd.latMin - gLat) (sd.lonMin - gLon)
    (packedFlags (chooseSectorMode sd).1 (sectorBitsLat sd) (sectorBitsLon sd))

/-- The unit-data blob a sector contributes. -/
def sdBlob (sd : SectorData) : List Nat :=
  writeUnitDataBlob sd (chooseSectorMode sd).1 (sectorBitsLat sd) (sectorBitsLon sd)

/-- The sector table of a block, tracking the running relative offset. -/
def sectorTable (gLat gLon : Int) : List SectorData → Nat → List Nat
  | [], _ => []
  | sd :: rest, off =>
    sectorEntryBytes gLat gLon sd off ++
      sectorTable gLat gLon rest (off + (sdBlob sd).length)

/-- The concatenated blobs of a block. -/
def sectorBlobsOf : List SectorData → List Nat
  | [] => []
  | sd :: rest => sdBlob sd ++ sectorBlobsOf rest

/-- The parsed `SectorEntry` values the reader recovers from a sector
table (bit widths already unpacked). -/
def sectorEntriesOf (gLat gLon : Int) : List SectorData → Nat → List SectorEntry
  | [], _ => []
  | sd :: rest, off =>
    ⟨sd.sectorNumber, sd.units.length, off, sd.latMin - gLat, sd.lonMin - gLon,
      (if (chooseSectorMode sd).1 then 3 else 1), sectorBitsLat sd, sectorBitsLon sd⟩ ::
      sectorEntriesOf gLat gLon rest (off + (sdBlob sd).length)

/-- The outward index bytes, written recursively over the sorted keys
with their running position. -/
def indexBytesAux (m : List (Str × OutwardData)) : List Str → Nat → List Nat
  | [], _ => []
  | k :: rest, j =>
    (match assocGet m k with
     | none => []
     | some od => writeOutwardIndexEntry k od.sectors.length (outwardBlockOffset m j)) ++
      indexBytesAux m rest (j + 1)

/-- The `OutwardIndexEntry` values the reader recovers from the index. -/
def indexEntriesAux (m : List (Str × OutwardData)) : List Str → Nat → List OutwardIndexEntry
  | [], _ => []
  | k :: rest, j =>
    (match assocGet m k with
     | none => []
     | some od => [⟨k, od.sectors.length, outwardBlockOffset m j⟩]) ++
      indexEntriesAux m rest (j + 1)

/-- The total unit count of the size pass. -/
def totalUnitCountOf (m : List (Str × OutwardData)) : Nat :=
  ((sortedOutwardKeys m).map (fun k =>
    match assocGet m k with
    | none => 0
    | some od => (od.sectors.map (fun s => s.2.units.length)).sum)).sum

/-- The concatenated outward blocks, in sorted key order. -/
def blocksOf (m : List (Str × OutwardData)) (gLat gLon : Int) : List Nat :=
  (sortedOutwardKeys m).flatMap (fun k =>
    match assocGet m k with
    | none => []
    | some od => writeOutwardBlock od gLat gLon)

/-- The stored quantized coordinates of a `(outward, sector, unit_index)`
triple in the grouping map. -/
def unitOf (m : List (Str × OutwardData)) (o : Str) (s u : Nat) : Option (Int × Int) :=
  match assocGet m o with
  | none => none
  | some od =>
    match assocGet od.sectors s with
    | none => none
    | some sd =>
      (sd.units.find? (fun x => x.unitIndex == u)).map (fun x => (x.latInt, x.lonInt))

/-- The predicate selecting the input records that parse to a given
triple. -/
def recMatches (o : Str) (s u : Nat) (r : PostcodeRecord) : Bool :=
  match PostcodeNormalizer.parsePostcode r.postcode with
  | none => false
  | some p => p.outward == o && p.sector == s && p.unitIndex == u

/-- Well-formedness of a stored sector: key consistency, sector bound,
sorted-insertable unit list with in-range indices, and coordinate minima
that bound and are attained by the units. -/
def WFSector (s : Nat) (sd : SectorData) : Prop :=
  sd.sectorNumber = s ∧ s ≤ 9 ∧ sd.units ≠ [] ∧
  (sd.units.map (fun x => x.unitIndex)).Nodup ∧
  (∀ x ∈ sd.units, x.unitIndex ≤ 675 ∧ sd.latMin ≤ x.latInt ∧ sd.lonMin ≤ x.lonInt) ∧
  (∃ x ∈ sd.units, x.latInt = sd.latMin) ∧
  (∃ x ∈ sd.units, x.lonInt = sd.lonMin)

/-- Well-formedness of a stored outward entry. -/
def WFOutward (k : Str) (od : OutwardData) : Prop :=
  od.outward = k ∧ (od.sectors.map Prod.fst).Nodup ∧
  ∀ e ∈ od.sectors, WFSector e.1 e.2

/-- A unit's coordinates come from some parseable input record. -/
def UnitFromRecords (records : List PostcodeRecord) (x : UnitData) : Prop :=
  ∃ r ∈ records, (PostcodeNormalizer.parsePostcode r.postcode).isSome ∧
    x.latInt = round (r.lat * 100000) ∧ x.lonInt = round (r.lon * 100000)

/-- The invariant `processRecords` maintains: distinct keys, each entry
well-formed, keys and units sourced from parseable records. -/
def WFInv (records : List PostcodeRecord) (m : List (Str × OutwardData)) : Prop :=
  (m.map Prod.fst).Nodup ∧
  ∀ pr ∈ m,
    (∃ r ∈ records, ∃ pp, PostcodeNormalizer.parsePostcode r.postcode = some pp ∧
      pp.outward = pr.1) ∧
    WFOutward pr.1 pr.2 ∧
    ∀ e ∈ pr.2.sectors, ∀ x ∈ e.2.units, UnitFromRecords records x

/-- The per-outward transform applied by `processSectors`. -/
def sortOD (od : OutwardData) : OutwardData :=
  ⟨od.outward, od.sectors.map (fun s => (s.1, ⟨s.2.sectorNumber,
    sortBy (fun a b => a.unitIndex < b.unitIndex) s.2.units,
    s.2.latMin, s.2.latMax, s.2.lonMin, s.2.lonMax⟩))⟩

/-- Locate the sector with a given number in the written order, tracking
the accumulated relative blob offset. -/
def sectorFind : List SectorData → Nat → Nat → Option (SectorData × Nat)
  | [], _, _ => none
  | sd :: rest, off, t =>
    if sd.sectorNumber = t then some (sd, off)
    else sectorFind rest (off + (sdBlob sd).length) t

/-- The record-level hypotheses of the amended round-trip claims: outwards
are at most 4 uppercase-alphanumeric characters, quantized coordinates fit
in 32 bits signed, the quantized spread is below `2^23` per axis, and the
outward count fits in the 16-bit header field. -/
def WFRecords (records : List PostcodeRecord) : Prop :=
  (∀ r ∈ records, ∀ p : ParsedPostcode,
    PostcodeNormalizer.parsePostcode r.postcode = some p →
      p.outward.length ≤ 4 ∧
      ∀ c ∈ p.outward, (48 ≤ c.toNat ∧ c.toNat ≤ 57) ∨ (65 ≤ c.toNat ∧ c.toNat ≤ 90)) ∧
  (∀ r1 ∈ records, ∀ r2 ∈ records,
    (PostcodeNormalizer.parsePostcode r1.postcode).isSome →
    (PostcodeNormalizer.parsePostcode r2.postcode).isSome →
      round (r1.lat * 100000) - round (r2.lat * 100000) < 2 ^ 23 ∧
      round (r1.lon * 100000) - round (r2.lon * 100000) < 2 ^ 23) ∧
  (∀ r ∈ records, (PostcodeNormalizer.parsePostcode r.postcode).isSome →
      |round (r.lat * 100000)| < 2 ^ 31 ∧ |round (r.lon * 100000)| < 2 ^ 31) ∧
  (processRecords records).length ≤ 65535

theorem jsToUint32_ofNat (n : Nat) : jsToUint32 (n : Int) = n % 2 ^ 32 := by
  simp [jsToUint32]
  omega

theorem jsToUint32_of_lt {n : Nat} (h : n < 2 ^ 32) : jsToUint32 (n : Int) = n := by
  rw [jsToUint32_ofNat, Nat.mod_eq_of_lt h]

theorem jsToInt32_ofNat_of_lt {n : Nat} (h : n < 2 ^ 31) : jsToInt32 (n : Int) = n := by
  have h32 : n < 2 ^ 32 := by omega
  simp only [jsToInt32, jsToUint32_of_lt h32]
  rw [if_pos h]

theorem jsToUint32_lt (x : Int) : jsToUint32 x < 2 ^ 32 := by
  have h := Int.emod_lt_of_pos x (show (0:Int) < 2 ^ 32 by norm_num)
  have h2 := Int.emod_nonneg x (show (2:Int) ^ 32 ≠ 0 by norm_num)
  simp only [jsToUint32]
  omega

theorem jsToUint32_jsToInt32 (x : Int) : jsToUint32 (jsToInt32 x) = jsToUint32 x := by
  have hlt := jsToUint32_lt x
  simp only [jsToInt32]
  split
  · exact jsToUint32_of_lt hlt
  · simp only [jsToUint32] at hlt ⊢
    omega

/-- `jsOr` under `ToUint32` is `Nat.lor`. -/
theorem jsToUint32_jsOr (a b : Int) :
    jsToUint32 (jsOr a b) = jsToUint32 a ||| jsToUint32 b := by
  have hor : jsToUint32 a ||| jsToUint32 b < 2 ^ 32 :=
    Nat.or_lt_two_pow (jsToUint32_lt a) (jsToUint32_lt b)
  rw [jsOr, jsToUint32_jsToInt32, jsToUint32_of_lt hor]

/-- `jsShl` by a shift `s ≤ 31` under `ToUint32`. -/
theorem jsToUint32_jsShl (a : Int) (s : Nat) (hs : s ≤ 31) :
    jsToUint32 (jsShl a (s : Int)) = ((jsToUint32 a) <<< s) % 2 ^ 32 := by
  have hs32 : s < 2 ^ 32 := by omega
  rw [jsShl, jsToUint32_jsToInt32, jsToUint32_of_lt hs32, Nat.mod_eq_of_lt (by omega),
    jsToUint32_ofNat]

/-- Decomposing `testBit` over `2 ^ i * a + b` with `b < 2 ^ i`. -/
theorem testBit_mulAdd {a b i j : Nat} (hb : b < 2 ^ i) :
    (2 ^ i * a + b).testBit j = if j < i then b.testBit j else a.testBit (j - i) := by
  by_cases h : j < i
  · rw [if_pos h, Nat.testBit_to_div_mod, Nat.testBit_to_div_mod]
    obtain ⟨d, hd⟩ : ∃ d, i = j + (d + 1) := ⟨i - j - 1, by omega⟩
    have hrw : 2 ^ i * a + b = b + a * 2 ^ (d + 1) * 2 ^ j := by
      rw [hd, pow_add]; ring
    rw [hrw, Nat.add_mul_div_right _ _ (Nat.two_pow_pos j)]
    have h2 : a * 2 ^ (d + 1) % 2 = 0 := by
      rw [pow_succ, ← mul_assoc]
      exact Nat.mul_mod_left _ 2
    have h3 : (b / 2 ^ j + a * 2 ^ (d + 1)) % 2 = b / 2 ^ j % 2 := by omega
    rw [h3]
  · rw [if_neg h, Nat.testBit_to_div_mod, Nat.testBit_to_div_mod]
    obtain ⟨d, hd⟩ : ∃ d, j = i + d := ⟨j - i, by omega⟩
    have hij : j - i = d := by omega
    have hrw : (2 ^ i * a + b) / 2 ^ j = a / 2 ^ d := by
      rw [hd, pow_add, ← Nat.div_div_eq_div_mul]
      congr 1
      rw [mul_comm (2 ^ i) a, add_comm,
        Nat.add_mul_div_right _ _ (Nat.two_pow_pos i),
        Nat.div_eq_of_lt hb, zero_add]
    rw [hrw, hij]

/-- Disjoint `lor` is addition: `u ||| (a <<< br) = 2 ^ br * a + u` for `u < 2 ^ br`. -/
theorem lor_shiftLeft_eq_add {u a br : Nat} (h : u < 2 ^ br) :
    u ||| (a <<< br) = 2 ^ br * a + u := by
  apply Nat.eq_of_testBit_eq
  intro j
  rw [Nat.testBit_or, Nat.testBit_shiftLeft, testBit_mulAdd h]
  by_cases hj : j < br
  · rw [if_pos hj]
    simp [Nat.not_le.2 hj]
  · rw [if_neg hj]
    have : u.testBit j = false := Nat.testBit_lt_two_pow (by
      calc u < 2 ^ br := h
        _ ≤ 2 ^ j := Nat.pow_le_pow_right (by norm_num) (by omega))
    simp [this, Nat.le_of_not_lt hj]

/-- Bit `k ≤ 31` of `ToUint32 (a >> s)` (arithmetic shift with sign fill):
bit `min (k + s) 31` of `ToUint32 a`. -/
theorem testBit_jsToUint32_jsShr (a : Int) (s k : Nat) (hs : s ≤ 31) (hk : k ≤ 31) :
    (jsToUint32 (jsShr a (s : Int))).testBit k = (jsToUint32 a).testBit (min (k + s) 31) := by
  have hs32 : s < 2 ^ 32 := by omega
  set u := jsToUint32 a with hu
  have hult : u < 2 ^ 32 := jsToUint32_lt a
  have hfd : jsShr a (s : Int) = (jsToInt32 a) / ((2:Int) ^ s) := by
    rw [jsShr, jsToUint32_of_lt hs32, Nat.mod_eq_of_lt (by omega),
      Int.fdiv_eq_ediv _ (by positivity)]
  by_cases hcase : u < 2 ^ 31
  · -- non-negative int32: plain shift, upper bits vanish
    have hint : jsToInt32 a = (u : Int) := by
      simp only [jsToInt32, ← hu]
      rw [if_pos hcase]
    have hdiv : jsShr a (s : Int) = ((u / 2 ^ s : Nat) : Int) := by
      rw [hfd, hint]
      push_cast
      rfl
    rw [hdiv, jsToUint32_of_lt (lt_of_le_of_lt (Nat.div_le_self _ _) hult)]
    have hshift : u / 2 ^ s = u >>> s := (Nat.shiftRight_eq_div_pow u s).symm
    rw [hshift, Nat.testBit_shiftRight]
    rcases Nat.lt_or_ge (k + s) 32 with hlt | hge
    · have : min (k + s) 31 = k + s := by omega
      rw [this, Nat.add_comm s k]
    · have h1 : min (k + s) 31 = 31 := by omega
      have h2 : u.testBit (s + k) = false := Nat.testBit_lt_two_pow (by
        calc u < 2 ^ 32 := hult
          _ ≤ 2 ^ (s + k) := Nat.pow_le_pow_right (by norm_num) (by omega))
      have h3 : u.testBit 31 = false := Nat.testBit_lt_two_pow hcase
      rw [h1, h2, h3]
  · -- negative int32: sign bits fill from the top
    have hint : jsToInt32 a = (u : Int) - 2 ^ 32 := by
      simp only [jsToInt32, ← hu]
      rw [if_neg hcase]
    have hsplit : (u : Int) - 2 ^ 32 = (u : Int) + (-(2 ^ (32 - s))) * 2 ^ s := by
      have : (2:Int) ^ (32 - s) * 2 ^ s = 2 ^ 32 := by
        rw [← pow_add]
        congr 1
        omega
      rw [neg_mul]
      omega
    have hdiv : jsShr a (s : Int) = ((u / 2 ^ s : Nat) : Int) - 2 ^ (32 - s) := by
      rw [hfd, hint, hsplit, Int.add_mul_ediv_right _ _ (by positivity : ((2:Int) ^ s) ≠ 0)]
      push_cast
      rfl
    have hq : u / 2 ^ s < 2 ^ (32 - s) := by
      rw [Nat.div_lt_iff_lt_mul (Nat.two_pow_pos s), ← pow_add]
      calc u < 2 ^ 32 := hult
        _ ≤ 2 ^ (32 - s + s) := Nat.pow_le_pow_right (by norm_num) (by omega)
    have hABi : (2:Int) ^ (32 - s) * 2 ^ s = 2 ^ 32 := by
      rw [← pow_add]
      congr 1
      omega
    have hA32 : (2:Int) ^ (32 - s) ≤ 2 ^ 32 := by
      calc (2:Int) ^ (32 - s) = 2 ^ (32 - s) * 1 := (mul_one _).symm
        _ ≤ 2 ^ (32 - s) * 2 ^ s := by
            apply mul_le_mul_of_nonneg_left _ (by positivity)
            exact one_le_pow₀ (by norm_num)
        _ = 2 ^ 32 := hABi
    have h1 : ((u / 2 ^ s : Nat) : Int) < 2 ^ (32 - s) := by exact_mod_cast hq
    have h0 : (0:Int) ≤ ((u / 2 ^ s : Nat) : Int) := Int.ofNat_nonneg _
    have hval : jsToUint32 (jsShr a (s : Int)) = 2 ^ (32 - s) * (2 ^ s - 1) + u / 2 ^ s := by
      rw [hdiv]
      simp only [jsToUint32]
      have hv0 : (0:Int) ≤ ((u / 2 ^ s : Nat) : Int) - 2 ^ (32 - s) + 2 ^ 32 := by linarith
      have hv1 : ((u / 2 ^ s : Nat) : Int) - 2 ^ (32 - s) + 2 ^ 32 < 2 ^ 32 := by linarith
      have hmod : (((u / 2 ^ s : Nat) : Int) - 2 ^ (32 - s)) % 2 ^ 32 =
          ((u / 2 ^ s : Nat) : Int) - 2 ^ (32 - s) + 2 ^ 32 := by
        have hstep : (((u / 2 ^ s : Nat) : Int) - 2 ^ (32 - s)) % 2 ^ 32 =
            (((u / 2 ^ s : Nat) : Int) - 2 ^ (32 - s) + 2 ^ 32 * 1) % 2 ^ 32 :=
          (Int.add_mul_emod_self_left _ _ _).symm
        rw [hstep, mul_one, Int.emod_eq_of_lt hv0 hv1]
      rw [hmod]
      have hcast : ((2 ^ (32 - s) * (2 ^ s - 1) + u / 2 ^ s : Nat) : Int)
          = 2 ^ (32 - s) * ((2:Int) ^ s - 1) + ((u / 2 ^ s : Nat) : Int) := by
        push_cast [Nat.one_le_two_pow]
        ring
      have hfin : ((u / 2 ^ s : Nat) : Int) - 2 ^ (32 - s) + 2 ^ 32
          = ((2 ^ (32 - s) * (2 ^ s - 1) + u / 2 ^ s : Nat) : Int) := by
        rw [hcast]
        linarith [hABi]
      rw [hfin, Int.toNat_natCast]
    rw [hval, testBit_mulAdd hq]
    by_cases hk2 : k < 32 - s
    · rw [if_pos hk2]
      have hshift : u / 2 ^ s = u >>> s := (Nat.shiftRight_eq_div_pow u s).symm
      rw [hshift, Nat.testBit_shiftRight]
      have : min (k + s) 31 = s + k := by omega
      rw [this]
    · rw [if_neg hk2]
      have h1 : min (k + s) 31 = 31 := by omega
      have h2 : (2 ^ s - 1 : Nat).testBit (k - (32 - s)) = true := by
        rw [Nat.testBit_two_pow_sub_one]
        simp only [decide_eq_true_eq]
        omega
      have h3 : u.testBit 31 = true := by
        rw [Nat.testBit_to_div_mod]
        simp only [decide_eq_true_eq]
        omega
      rw [h1, h2, h3]

/-- The next loop value strictly decreases. -/
theorem VarintUtils.encode_shift_lt {v : Nat} (h : 0x80 ≤ v) : (v % 2 ^ 32) >>> 7 < v := by
  rw [Nat.shiftRight_eq_div_pow]
  have h3 : v % 2 ^ 32 < 2 ^ 32 := Nat.mod_lt _ (by norm_num)
  rcases Nat.lt_or_ge v (2 ^ 32) with hc | hc
  · rw [Nat.mod_eq_of_lt hc]
    exact Nat.div_lt_self (by omega) (by norm_num)
  · have : (v % 2 ^ 32) / 2 ^ 7 < 2 ^ 32 := lt_of_le_of_lt (Nat.div_le_self _ _) h3
    omega

/-- Fuel at least `value` computes the full loop. -/
theorem VarintUtils.encodeAux_stable : ∀ (value fuel : Nat), value ≤ fuel →
    VarintUtils.encodeAux fuel value = VarintUtils.encodeAux value value := by
  intro value
  induction value using Nat.strong_induction_on with
  | _ v ih =>
    intro fuel hf
    by_cases h : 0x80 ≤ v
    · obtain ⟨f, rfl⟩ : ∃ f, fuel = f + 1 := ⟨fuel - 1, by omega⟩
      obtain ⟨k, rfl⟩ : ∃ k, v = k + 1 := ⟨v - 1, by omega⟩
      rw [VarintUtils.encodeAux, VarintUtils.encodeAux, if_pos h, if_pos h]
      have hlt := VarintUtils.encode_shift_lt h
      rw [ih _ hlt f (by omega), ih _ hlt k (by omega)]
    · have hrec : ∀ g, VarintUtils.encodeAux g v = [(v % 2 ^ 32) &&& 0x7f] := by
        intro g
        match g with
        | 0 => rfl
        | g + 1 => rw [VarintUtils.encodeAux, if_neg h]
      rw [hrec, hrec]

/-- `VarintUtils.encode` satisfies the source loop equation (iterating case). -/
theorem VarintUtils.encode_cons {v : Nat} (h : 0x80 ≤ v) :
    VarintUtils.encode v = (((v % 2 ^ 32) &&& 0x7f) ||| 0x80) :: VarintUtils.encode ((v % 2 ^ 32) >>> 7) := by
  obtain ⟨k, rfl⟩ : ∃ k, v = k + 1 := ⟨v - 1, by omega⟩
  rw [VarintUtils.encode, VarintUtils.encodeAux, if_pos h, VarintUtils.encode, VarintUtils.encodeAux_stable _ _ (by
    have := VarintUtils.encode_shift_lt h; omega)]

/-- `VarintUtils.encode` satisfies the source loop equation (final byte). -/
theorem VarintUtils.encode_of_lt {v : Nat} (h : v < 0x80) : VarintUtils.encode v = [(v % 2 ^ 32) &&& 0x7f] := by
  match v with
  | 0 => rfl
  | w + 1 => rw [VarintUtils.encode, VarintUtils.encodeAux, if_neg (by omega)]

theorem VarintUtils.log2_div_pow_seven {v : Nat} (h : 0x80 ≤ v) :
    Nat.log2 (v / 2 ^ 7) = Nat.log2 v - 7 := by
  have hv : v ≠ 0 := by omega
  have h1 : 2 ^ Nat.log2 v ≤ v := Nat.log2_self_le hv
  have h2 : v < 2 ^ (Nat.log2 v + 1) := Nat.lt_log2_self
  have hk7 : 7 ≤ Nat.log2 v := (Nat.le_log2 hv).2 (by omega)
  have hne : v / 2 ^ 7 ≠ 0 := by
    have h1d := (Nat.le_div_iff_mul_le (show 0 < 2 ^ 7 by norm_num)).2
      (by omega : 1 * 2 ^ 7 ≤ v)
    omega
  apply le_antisymm
  · have := (Nat.log2_lt hne).2 (show v / 2 ^ 7 < 2 ^ (Nat.log2 v - 7 + 1) by
      rw [Nat.div_lt_iff_lt_mul (by norm_num : 0 < 2 ^ 7), ← pow_add]
      exact lt_of_lt_of_le h2 (Nat.pow_le_pow_right (by norm_num) (by omega)))
    omega
  · exact (Nat.le_log2 hne).2 (by
      rw [Nat.le_div_iff_mul_le (by norm_num : 0 < 2 ^ 7), ← pow_add]
      calc 2 ^ (Nat.log2 v - 7 + 7) = 2 ^ Nat.log2 v := by congr 1; omega
        _ ≤ v := h1)

/-- For values below `2 ^ 32` (where the 32-bit truncation inside `VarintUtils.encode`
is invisible) the emitted byte count agrees with `VarintUtils.getByteLength`. -/
theorem VarintUtils.encode_length {v : Nat} (hv : v < 2 ^ 32) :
    (VarintUtils.encode v).length = VarintUtils.getByteLength v := by
  induction v using Nat.strong_induction_on with
  | _ v ih =>
    by_cases h : 0x80 ≤ v
    · rw [VarintUtils.encode_cons h, Nat.mod_eq_of_lt hv, Nat.shiftRight_eq_div_pow]
      have hlt : v / 2 ^ 7 < v := Nat.div_lt_self (by omega) (by norm_num)
      rw [List.length_cons, ih _ hlt (lt_of_le_of_lt (Nat.div_le_self _ _) hv)]
      have hne : v / 2 ^ 7 ≠ 0 := by
        have h1d := (Nat.le_div_iff_mul_le (show 0 < 2 ^ 7 by norm_num)).2
          (by omega : 1 * 2 ^ 7 ≤ v)
        omega
      have hlog : 7 ≤ Nat.log2 v := (Nat.le_log2 (by omega)).2 (by omega)
      rw [VarintUtils.getByteLength, VarintUtils.getByteLength, if_neg hne, if_neg (by omega : ¬ v = 0),
        VarintUtils.log2_div_pow_seven h]
      omega
    · rw [VarintUtils.encode_of_lt (by omega), Nat.mod_eq_of_lt hv, List.length_singleton, VarintUtils.getByteLength]
      by_cases h0 : v = 0
      · rw [if_pos h0]
      · rw [if_neg h0]
        have : Nat.log2 v < 7 := (Nat.log2_lt h0).2 (by omega)
        omega

theorem natOfBits_lt (buffer : List Nat) (off n : Nat) : natOfBits buffer off n < 2 ^ n := by
  induction n generalizing off with
  | zero => simp [natOfBits]
  | succ m ih =>
    have := ih (off + 1)
    rw [natOfBits, pow_succ]
    cases bitAt buffer off <;> simp <;> omega

theorem testBit_natOfBits (buffer : List Nat) (off n k : Nat) :
    (natOfBits buffer off n).testBit k =
      if k < n then bitAt buffer (off + k) else false := by
  induction n generalizing off k with
  | zero => simp [natOfBits]
  | succ m ih =>
    have hrw : natOfBits buffer off (m + 1) =
        2 ^ 1 * natOfBits buffer (off + 1) m + (bitAt buffer off).toNat := by
      rw [natOfBits]; ring
    rw [hrw, testBit_mulAdd (by cases bitAt buffer off <;> simp)]
    match k with
    | 0 =>
      simp only [Nat.lt_one_iff, if_pos (by omega : (0:Nat) < m + 1)]
      cases h : bitAt buffer off <;> simp [h]
    | k + 1 =>
      rw [if_neg (by omega)]
      have : k + 1 - 1 = k := by omega
      rw [this, ih]
      by_cases hk : k < m
      · rw [if_pos hk, if_pos (by omega)]
        congr 1
        omega
      · rw [if_neg hk, if_neg (by omega)]

/-- Splitting an `(m + n)`-bit read. -/
theorem natOfBits_add (buffer : List Nat) (off m n : Nat) :
    natOfBits buffer off (m + n) =
      natOfBits buffer off m + 2 ^ m * natOfBits buffer (off + m) n := by
  induction m generalizing off with
  | zero => simp [natOfBits]
  | succ p ih =>
    have h1 : p + 1 + n = (p + n) + 1 := by omega
    rw [h1, natOfBits, natOfBits, ih (off + 1)]
    have h2 : off + 1 + p = off + (p + 1) := by omega
    rw [h2, pow_succ]
    ring

/-- The per-byte extraction step of `BitReader.readBitsLoop` produces the next `s`
stream bits. -/
theorem bits_extract (buffer : List Nat) (off s : Nat) (hs : s ≤ 8 - off % 8) :
    ((buffer.getD (off / 8) 0) >>> (off % 8)) &&& (2 ^ s - 1) = natOfBits buffer off s := by
  apply Nat.eq_of_testBit_eq
  intro k
  rw [Nat.testBit_and, Nat.testBit_shiftRight, Nat.testBit_two_pow_sub_one, testBit_natOfBits]
  by_cases hk : k < s
  · rw [if_pos hk]
    have hdiv : (off + k) / 8 = off / 8 := by omega
    have hmod : (off + k) % 8 = off % 8 + k := by omega
    rw [bitAt, hdiv, hmod]
    simp [hk]
  · rw [if_neg hk]
    simp [hk]

/-- Correctness of the `BitReader.readBits` loop: starting with accumulated value
`u < 2 ^ br` after `br` of `n` bits, it returns the full assembled value as
a signed 32-bit integer and the advanced offset. -/
theorem BitReader.readBitsLoop_spec :
    ∀ (fuel : Nat) (buffer : List Nat) (off u br n : Nat),
      br ≤ n → n ≤ 32 → n - br ≤ fuel → off + (n - br) ≤ 8 * buffer.length →
      u < 2 ^ br →
      BitReader.readBitsLoop fuel buffer off (jsToInt32 (u : Int)) br n =
        .ok (jsToInt32 ((u + 2 ^ br * natOfBits buffer off (n - br) : Nat) : Int),
             off + (n - br)) := by
  intro fuel
  induction fuel with
  | zero =>
    intro buffer off u br n hbr hn hfuel hrange hu
    have h0 : n - br = 0 := by omega
    rw [h0, BitReader.readBitsLoop]
    simp [natOfBits]
  | succ f ih =>
    intro buffer off u br n hbr hn hfuel hrange hu
    rw [BitReader.readBitsLoop]
    by_cases hlt : br < n
    · rw [if_pos hlt]
      have hoff : off / 8 < buffer.length := by omega
      rw [List.getElem?_eq_getElem hoff]
      dsimp only
      have hgetD : buffer[off / 8] = buffer.getD (off / 8) 0 := by
        rw [List.getD_eq_getElem?_getD, List.getElem?_eq_getElem hoff]
        rfl
      set s := min (8 - off % 8) (n - br) with hs
      have hs1 : 1 ≤ s := by omega
      have hs8 : s ≤ 8 - off % 8 := by omega
      have hbits : (buffer[off / 8] >>> (off % 8)) &&& (2 ^ s - 1) =
          natOfBits buffer off s := by
        rw [hgetD]
        exact bits_extract buffer off s hs8
      have hbitslt : natOfBits buffer off s < 2 ^ s := natOfBits_lt buffer off s
      have hbr31 : br ≤ 31 := by omega
      have hnew : jsOr (jsToInt32 (u : Int)) (jsShl ((buffer[off / 8] >>> (off % 8)) &&&
          (2 ^ s - 1) : Nat) (br : Int)) =
          jsToInt32 ((u + 2 ^ br * natOfBits buffer off s : Nat) : Int) := by
        rw [hbits, jsOr]
        congr 1
        have h1 : jsToUint32 (jsToInt32 (u : Int)) = u := by
          rw [jsToUint32_jsToInt32, jsToUint32_of_lt (by
            calc u < 2 ^ br := hu
              _ ≤ 2 ^ 32 := Nat.pow_le_pow_right (by norm_num) (by omega))]
        have h2 : jsToUint32 (jsShl ((natOfBits buffer off s : Nat) : Int) (br : Int)) =
            natOfBits buffer off s <<< br := by
          rw [jsToUint32_jsShl _ _ hbr31, jsToUint32_ofNat]
          have hnb32 : natOfBits buffer off s < 2 ^ 32 :=
            lt_of_lt_of_le hbitslt (Nat.pow_le_pow_right (by norm_num) (by omega))
          have hlt32 : natOfBits buffer off s <<< br < 2 ^ 32 := by
            rw [Nat.shiftLeft_eq]
            calc natOfBits buffer off s * 2 ^ br < 2 ^ s * 2 ^ br :=
                  (Nat.mul_lt_mul_right (Nat.two_pow_pos br)).2 hbitslt
              _ = 2 ^ (s + br) := by rw [pow_add]
              _ ≤ 2 ^ 32 := Nat.pow_le_pow_right (by norm_num) (by omega)
          rw [Nat.mod_eq_of_lt hnb32, Nat.mod_eq_of_lt hlt32]
        rw [h1, h2, lor_shiftLeft_eq_add hu]
        congr 1
        omega
      rw [hnew]
      have hrec := ih buffer (off + s) (u + 2 ^ br * natOfBits buffer off s) (br + s) n
        (by omega) hn (by omega) (by omega) (by
          have hnb : natOfBits buffer off s ≤ 2 ^ s - 1 := by omega
          have hpos : 1 ≤ 2 ^ s := Nat.one_le_two_pow
          have hmul : 2 ^ br * natOfBits buffer off s ≤ 2 ^ br * (2 ^ s - 1) :=
            Nat.mul_le_mul_left _ hnb
          have hsucc : 2 ^ br * (2 ^ s - 1) + 2 ^ br = 2 ^ br * 2 ^ s := by
            rw [← Nat.mul_succ]
            congr 1
            omega
          have hexp : 2 ^ br * 2 ^ s = 2 ^ (br + s) := (pow_add 2 br s).symm
          omega)
      rw [hrec]
      have harith : u + 2 ^ br * natOfBits buffer off s +
          2 ^ (br + s) * natOfBits buffer (off + s) (n - (br + s)) =
          u + 2 ^ br * natOfBits buffer off (n - br) := by
        have hsplit : n - br = s + (n - (br + s)) := by omega
        rw [hsplit, natOfBits_add, pow_add]
        ring
      rw [harith]
      have hofs : off + s + (n - (br + s)) = off + (n - br) := by omega
      rw [hofs]
    · rw [if_neg hlt]
      have h0 : n - br = 0 := by omega
      rw [h0]
      simp [natOfBits]

/-- `BitReader.readBits` assembles `n ≤ 32` in-range bits LSB-first,
reinterpreted as a signed 32-bit integer. -/
theorem BitReader.readBits_spec (buffer : List Nat) (off n : Nat) (hn : n ≤ 32)
    (hrange : off + n ≤ 8 * buffer.length) :
    BitReader.readBits buffer off n =
      .ok (jsToInt32 ((natOfBits buffer off n : Nat) : Int), off + n) := by
  have hz : jsToInt32 (0 : Int) = 0 := by
    have h := jsToInt32_ofNat_of_lt (show (0 : Nat) < 2 ^ 31 by norm_num)
    simpa using h
  rw [BitReader.readBits, if_neg (by omega)]
  by_cases h0 : n = 0
  · subst h0
    rw [if_pos rfl]
    simp [natOfBits, hz]
  · rw [if_neg h0]
    have hmain := BitReader.readBitsLoop_spec n buffer off 0 0 n (by omega) hn (by omega) (by omega)
      (by norm_num)
    rw [Nat.cast_zero, hz] at hmain
    simpa using hmain

/-- `BitReader.readBits` for a value known to stay below `2 ^ 31` (no sign wrap). -/
theorem BitReader.readBits_spec_small (buffer : List Nat) (off n : Nat) (hn : n ≤ 32)
    (hrange : off + n ≤ 8 * buffer.length)
    (hsmall : natOfBits buffer off n < 2 ^ 31) :
    BitReader.readBits buffer off n =
      .ok (((natOfBits buffer off n : Nat) : Int), off + n) := by
  rw [BitReader.readBits_spec buffer off n hn hrange, jsToInt32_ofNat_of_lt hsmall]

theorem bufferBits_append (a b : List Nat) :
    bufferBits (a ++ b) = bufferBits a ++ bufferBits b := by
  simp [bufferBits]

theorem length_bufferBits (buffer : List Nat) : (bufferBits buffer).length = 8 * buffer.length := by
  induction buffer with
  | nil => simp [bufferBits]
  | cons b rest ih =>
    simp only [bufferBits, List.flatMap_cons] at *
    simp [byteBits, ih]
    omega

theorem length_wbits (w : BitWriter) :
    (wbits w).length = 8 * w.buffer.length + w.bitPosition := by
  simp [wbits, length_bufferBits]

/-- Reading a bit of a buffer is indexing its bit list. -/
theorem bitAt_eq_getD_bufferBits (buffer : List Nat) (k : Nat) :
    bitAt buffer k = (bufferBits buffer).getD k false := by
  induction buffer generalizing k with
  | nil => simp [bitAt, bufferBits, Nat.zero_testBit]
  | cons b rest ih =>
    by_cases hk : k < 8
    · have h1 : k / 8 = 0 := by omega
      have h2 : k % 8 = k := by omega
      rw [bitAt, h1, h2]
      have hlen : k < (byteBits b).length := by
        simp only [byteBits, List.length_map, List.length_range]
        omega
      simp only [bufferBits, List.flatMap_cons, List.getD_eq_getElem?_getD,
        List.getElem?_cons_zero, Option.getD_some, List.getElem?_append_left hlen]
      simp [byteBits, List.getElem?_range hk]
    · have h1 : k / 8 = (k - 8) / 8 + 1 := by omega
      have h2 : k % 8 = (k - 8) % 8 := by omega
      rw [bitAt, h1, h2]
      have hlen : (byteBits b).length ≤ k := by
        simp only [byteBits, List.length_map, List.length_range]
        omega
      have hrest := ih (k - 8)
      rw [bitAt] at hrest
      simp only [bufferBits, List.flatMap_cons, List.getD_eq_getElem?_getD,
        List.getElem?_cons_succ, List.getElem?_append_right hlen]
      have h3 : k - (byteBits b).length = k - 8 := by
        simp only [byteBits, List.length_map, List.length_range]
      rw [h3]
      simp only [List.getD_eq_getElem?_getD] at hrest
      exact hrest

theorem bitAt_cons_ge (b : Nat) (rest : List Nat) (k : Nat) (hk : 8 ≤ k) :
    bitAt (b :: rest) k = bitAt rest (k - 8) := by
  have h1 : k / 8 = (k - 8) / 8 + 1 := by omega
  have h2 : k % 8 = (k - 8) % 8 := by omega
  rw [bitAt, h1, h2]
  rfl

/-- The bits of the loop's per-iteration chunk. -/
theorem testBit_bitsValue (remVal : Int) (u t s rem32 : Nat)
    (hinv : ∀ k, k ≤ 31 → (jsToUint32 remVal).testBit k = u.testBit (min (k + t) 31))
    (hs : s ≤ 8) (hts : t + s ≤ 32) (k : Nat) :
    ((jsToUint32 remVal) &&& (2 ^ s - 1)).testBit k =
      if k < s then u.testBit (t + k) else false := by
  rw [Nat.testBit_and, Nat.testBit_two_pow_sub_one]
  by_cases hk : k < s
  · rw [if_pos hk]
    have h31 : k ≤ 31 := by omega
    rw [hinv k h31]
    have : min (k + t) 31 = t + k := by omega
    rw [this]
    simp [hk]
  · rw [if_neg hk]
    simp [hk]

/-- Main correctness of the `BitWriter.writeBits` loop: it appends bits
`t, t+1, …, t+remBits-1` of the 32-bit view `u` of the original value, and
preserves the writer invariant. -/
theorem writeBitsLoop_spec :
    ∀ (fuel : Nat) (w : BitWriter) (remBits : Nat) (remVal : Int) (t u : Nat),
      w.bitPosition < 8 → w.currentByte < 2 ^ w.bitPosition →
      remBits ≤ fuel → t + remBits ≤ 32 → u < 2 ^ 32 →
      (∀ k, k ≤ 31 → (jsToUint32 remVal).testBit k = u.testBit (min (k + t) 31)) →
      wbits (BitWriter.writeBitsLoop fuel w remBits remVal) =
        wbits w ++ (List.range remBits).map (fun k => u.testBit (t + k)) ∧
      (BitWriter.writeBitsLoop fuel w remBits remVal).bitPosition < 8 ∧
      (BitWriter.writeBitsLoop fuel w remBits remVal).currentByte <
        2 ^ (BitWriter.writeBitsLoop fuel w remBits remVal).bitPosition := by
  intro fuel
  induction fuel with
  | zero =>
    intro w remBits remVal t u hpos hcur hfuel ht hu hinv
    have h0 : remBits = 0 := by omega
    subst h0
    rw [BitWriter.writeBitsLoop]
    simp [hpos, hcur]
  | succ f ih =>
    intro w remBits remVal t u hpos hcur hfuel ht hu hinv
    rw [BitWriter.writeBitsLoop]
    by_cases h0 : remBits = 0
    · rw [if_pos h0]
      subst h0
      simp [hpos, hcur]
    · rw [if_neg h0]
      dsimp only
      set s := min remBits (8 - w.bitPosition) with hsdef
      have hs1 : 1 ≤ s := by omega
      have hs8 : s ≤ 8 - w.bitPosition := by omega
      set bv := (jsToUint32 remVal) &&& (2 ^ s - 1) with hbvdef
      have hbv : ∀ k, bv.testBit k = if k < s then u.testBit (t + k) else false :=
        testBit_bitsValue remVal u t s 0 hinv (by omega) (by omega)
      have hbvlt : bv < 2 ^ s := Nat.and_lt_two_pow _ (by
        have := Nat.two_pow_pos s
        omega)
      have hnb : w.currentByte ||| (bv <<< w.bitPosition) =
          2 ^ w.bitPosition * bv + w.currentByte := lor_shiftLeft_eq_add hcur
      -- bits of the combined byte
      have hnbbit : ∀ j, (2 ^ w.bitPosition * bv + w.currentByte).testBit j =
          if j < w.bitPosition then w.currentByte.testBit j else bv.testBit (j - w.bitPosition) :=
        fun j => testBit_mulAdd hcur
      -- the new writer state after this pass
      set w' := if 8 ≤ w.bitPosition + s then
          (⟨w.buffer ++ [w.currentByte ||| (bv <<< w.bitPosition)], 0, 0⟩ : BitWriter)
        else
          { w with currentByte := w.currentByte ||| (bv <<< w.bitPosition),
                   bitPosition := w.bitPosition + s } with hw'
      have hw'pos : w'.bitPosition < 8 := by
        rw [hw']
        split
        · simp
        · simp only []
          omega
      have hw'cur : w'.currentByte < 2 ^ w'.bitPosition := by
        rw [hw']
        split
        · simp
        · simp only [hnb]
          calc 2 ^ w.bitPosition * bv + w.currentByte
              < 2 ^ w.bitPosition * bv + 2 ^ w.bitPosition := by omega
            _ = 2 ^ w.bitPosition * (bv + 1) := by ring
            _ ≤ 2 ^ w.bitPosition * 2 ^ s := by
                apply Nat.mul_le_mul_left
                omega
            _ = 2 ^ (w.bitPosition + s) := (pow_add 2 _ s).symm
      have hw'bits : wbits w' = wbits w ++ (List.range s).map (fun k => u.testBit (t + k)) := by
        have hmapsplit : (List.range (w.bitPosition + s)).map
            (2 ^ w.bitPosition * bv + w.currentByte).testBit =
            (List.range w.bitPosition).map w.currentByte.testBit ++
              (List.range s).map (fun k => u.testBit (t + k)) := by
          rw [List.range_add, List.map_append, List.map_map]
          congr 1
          · apply List.map_congr_left
            intro j hj
            rw [List.mem_range] at hj
            rw [hnbbit, if_pos hj]
          · apply List.map_congr_left
            intro j hj
            rw [List.mem_range] at hj
            simp only [Function.comp]
            rw [hnbbit, if_neg (by omega)]
            have h1 : w.bitPosition + j - w.bitPosition = j := by omega
            rw [h1, hbv, if_pos hj]
        rw [hw']
        split
        · rename_i hge
          have hps : w.bitPosition + s = 8 := by omega
          simp only [wbits, bufferBits_append, hnb]
          have hbb : bufferBits [2 ^ w.bitPosition * bv + w.currentByte] =
              (List.range 8).map (2 ^ w.bitPosition * bv + w.currentByte).testBit := by
            simp [bufferBits, byteBits]
          rw [hbb, ← hps, hmapsplit]
          simp
        · simp only [wbits, hnb]
          rw [hmapsplit]
          simp
      -- the shifted remainder keeps the invariant at t + s
      have hinv' : ∀ k, k ≤ 31 →
          (jsToUint32 (jsShr remVal (s : Int))).testBit k = u.testBit (min (k + (t + s)) 31) := by
        intro k hk
        rw [testBit_jsToUint32_jsShr remVal s k (by omega) hk, hinv (min (k + s) 31) (by omega)]
        congr 1
        omega
      have hrec := ih w' (remBits - s) (jsShr remVal (s : Int)) (t + s) u hw'pos hw'cur
        (by omega) (by omega) hu hinv'
      refine ⟨?_, hrec.2.1, hrec.2.2⟩
      rw [hrec.1, hw'bits, List.append_assoc]
      congr 1
      set r := remBits - s with hr
      have hsplit : remBits = s + r := by omega
      rw [hsplit, List.range_add, List.map_append, List.map_map]
      congr 1
      apply List.map_congr_left
      intro j _
      simp only [Function.comp]
      congr 1
      omega

/-- `BitWriter.writeBits` appends the low `n` bits of the 32-bit view of
`value` (for `n ≤ 32`) and preserves the writer invariant. -/
theorem BitWriter.writeBits_spec (w : BitWriter) (value : Int) (n : Nat)
    (hpos : w.bitPosition < 8) (hcur : w.currentByte < 2 ^ w.bitPosition) (hn : n ≤ 32) :
    wbits (BitWriter.writeBits w value n) =
      wbits w ++ (List.range n).map (fun k => (jsToUint32 value).testBit k) ∧
    (BitWriter.writeBits w value n).bitPosition < 8 ∧
    (BitWriter.writeBits w value n).currentByte < 2 ^ (BitWriter.writeBits w value n).bitPosition := by
  rw [BitWriter.writeBits]
  by_cases h0 : n = 0
  · subst h0
    simp [hpos, hcur]
  · rw [if_neg h0]
    have := writeBitsLoop_spec n w n value 0 (jsToUint32 value) hpos hcur (le_refl n)
      (by omega) (jsToUint32_lt value) (by
        intro k hk
        congr 1
        omega)
    simpa using this

/-- `BitWriter.getBuffer` pads the represented stream with zero bits to a byte
boundary. -/
theorem bufferBits_getBuffer (w : BitWriter) (hpos : w.bitPosition < 8)
    (hcur : w.currentByte < 2 ^ w.bitPosition) :
    bufferBits (BitWriter.getBuffer w) =
      wbits w ++ List.replicate ((8 - w.bitPosition) % 8) false := by
  rw [BitWriter.getBuffer, BitWriter.padToByte]
  by_cases h0 : 0 < w.bitPosition
  · rw [if_pos h0]
    simp only [bufferBits_append]
    have hbyte : bufferBits [w.currentByte] = (List.range 8).map w.currentByte.testBit := by
      simp [bufferBits, byteBits]
    have hsplit : (8:Nat) = w.bitPosition + (8 - w.bitPosition) := by omega
    have hzero : (List.range (8 - w.bitPosition)).map
        (fun j => w.currentByte.testBit (w.bitPosition + j)) =
        List.replicate (8 - w.bitPosition) false := by
      rw [List.eq_replicate_iff]
      constructor
      · simp
      · intro x hx
        rw [List.mem_map] at hx
        obtain ⟨j, _, hj⟩ := hx
        rw [← hj]
        apply Nat.testBit_lt_two_pow
        calc w.currentByte < 2 ^ w.bitPosition := hcur
          _ ≤ 2 ^ (w.bitPosition + j) := Nat.pow_le_pow_right (by norm_num) (by omega)
    have hmod : (8 - w.bitPosition) % 8 = 8 - w.bitPosition := by omega
    have hbyteSplit : (List.range 8).map w.currentByte.testBit =
        (List.range w.bitPosition).map w.currentByte.testBit ++
          List.replicate (8 - w.bitPosition) false := by
      conv_lhs => rw [hsplit]
      rw [List.range_add, List.map_append, List.map_map]
      congr 1
    rw [hbyte, hbyteSplit, hmod, wbits]
    simp
  · rw [if_neg h0]
    have hp0 : w.bitPosition = 0 := by omega
    simp [wbits, hp0]

/-- Reading any bit of the padded buffer is indexing the written stream
(bits past the end read as zero on both sides). -/
theorem bitAt_getBuffer (w : BitWriter) (hpos : w.bitPosition < 8)
    (hcur : w.currentByte < 2 ^ w.bitPosition) (k : Nat) :
    bitAt (BitWriter.getBuffer w) k = (wbits w).getD k false := by
  rw [bitAt_eq_getD_bufferBits, bufferBits_getBuffer w hpos hcur]
  by_cases hk : k < (wbits w).length
  · rw [List.getD_eq_getElem?_getD, List.getElem?_append_left hk, ← List.getD_eq_getElem?_getD]
  · rw [List.getD_eq_getElem?_getD, List.getElem?_append_right (by omega),
      List.getElem?_replicate]
    have hr : (wbits w)[k]? = none := List.getElem?_eq_none (by omega)
    rw [List.getD_eq_getElem?_getD, hr]
    split <;> rfl

/-- Length of `BitWriter.getBuffer`: the bit count rounded up to whole bytes. -/
theorem length_getBuffer (w : BitWriter) :
    (BitWriter.getBuffer w).length =
      w.buffer.length + (if 0 < w.bitPosition then 1 else 0) := by
  rw [BitWriter.getBuffer, BitWriter.padToByte]
  split <;> simp_all

theorem wbits_foldl_writeBits (pairs : List (Nat × Nat)) :
    ∀ (w : BitWriter), w.bitPosition < 8 → w.currentByte < 2 ^ w.bitPosition →
    (∀ p ∈ pairs, p.2 ≤ 32 ∧ p.1 < 2 ^ p.2) →
    wbits (pairs.foldl (fun w p => BitWriter.writeBits w (p.1 : Int) p.2) w) =
      wbits w ++ pairsBits pairs ∧
    (pairs.foldl (fun w p => BitWriter.writeBits w (p.1 : Int) p.2) w).bitPosition < 8 ∧
    (pairs.foldl (fun w p => BitWriter.writeBits w (p.1 : Int) p.2) w).currentByte <
      2 ^ (pairs.foldl (fun w p => BitWriter.writeBits w (p.1 : Int) p.2) w).bitPosition := by
  induction pairs with
  | nil =>
    intro w hpos hcur _
    simp [pairsBits, hpos, hcur]
  | cons p rest ih =>
    intro w hpos hcur hp
    have hphead := hp p (by simp)
    have hstep := BitWriter.writeBits_spec w (p.1 : Int) p.2 hpos hcur hphead.1
    have hval : jsToUint32 ((p.1 : Nat) : Int) = p.1 := jsToUint32_of_lt (by
      calc p.1 < 2 ^ p.2 := hphead.2
        _ ≤ 2 ^ 32 := Nat.pow_le_pow_right (by norm_num) hphead.1)
    simp only [List.foldl_cons]
    have hrec := ih (BitWriter.writeBits w (p.1 : Int) p.2) hstep.2.1 hstep.2.2
      (fun q hq => hp q (by simp [hq]))
    refine ⟨?_, hrec.2.1, hrec.2.2⟩
    rw [hrec.1, hstep.1, hval]
    simp [pairsBits, List.append_assoc]

/-- Indexing the flattened segments at a prefix-sum offset. -/
theorem getD_pairsBits (pairs : List (Nat × Nat)) :
    ∀ (i k : Nat) (hi : i < pairs.length), k < (pairs.get ⟨i, hi⟩).2 →
    (pairsBits pairs).getD (offsetBefore pairs i + k) false =
      (pairs.get ⟨i, hi⟩).1.testBit k := by
  induction pairs with
  | nil =>
    intro i k hi _
    simp at hi
  | cons p rest ih =>
    intro i k hi hk
    match i with
    | 0 =>
      simp only [List.get] at hk ⊢
      simp only [pairsBits, List.flatMap_cons, offsetBefore, List.take_zero, List.map_nil,
        List.sum_nil, Nat.zero_add]
      rw [List.getD_eq_getElem?_getD, List.getElem?_append_left (by simp; omega)]
      simp [List.getElem?_range hk]
    | i + 1 =>
      simp only [List.get] at hk ⊢
      have hlen : ((List.range p.2).map (fun k => p.1.testBit k)).length = p.2 := by simp
      simp only [pairsBits, List.flatMap_cons, offsetBefore, List.take_succ_cons,
        List.map_cons, List.sum_cons]
      rw [List.getD_eq_getElem?_getD, List.getElem?_append_right (by simp; omega)]
      have harith : p.2 + (((rest.take i).map Prod.snd).sum) + k -
          ((List.range p.2).map (fun k => p.1.testBit k)).length =
          ((rest.take i).map Prod.snd).sum + k := by
        rw [hlen]
        omega
      rw [harith, ← List.getD_eq_getElem?_getD]
      exact ih i k (by simpa using hi) hk

theorem offsetBefore_add_le (pairs : List (Nat × Nat)) (i : Nat) (hi : i < pairs.length) :
    offsetBefore pairs i + (pairs.get ⟨i, hi⟩).2 ≤ (pairsBits pairs).length := by
  induction pairs generalizing i with
  | nil => simp at hi
  | cons p rest ih =>
    match i with
    | 0 =>
      simp only [offsetBefore, List.take_zero, List.map_nil, List.sum_nil, Nat.zero_add,
        pairsBits, List.flatMap_cons, List.length_append, List.length_map, List.length_range,
        List.get]
      omega
    | i + 1 =>
      have := ih i (by simpa using hi)
      simp only [offsetBefore, List.take_succ_cons, List.map_cons, List.sum_cons,
        pairsBits, List.flatMap_cons, List.length_append, List.length_map, List.length_range]
      simp only [offsetBefore, pairsBits] at this
      simp only [List.get]
      omega

/-- Round trip at the level of the padded buffer: bits `[offsetBefore i,
offsetBefore i + nᵢ)` of `BitWriter.getBuffer (writeAll pairs)` assemble to `vᵢ`. -/
theorem natOfBits_writeAll (pairs : List (Nat × Nat))
    (hp : ∀ p ∈ pairs, p.2 ≤ 32 ∧ p.1 < 2 ^ p.2) (i : Nat) (hi : i < pairs.length) :
    natOfBits (BitWriter.getBuffer (writeAll pairs)) (offsetBefore pairs i)
      (pairs.get ⟨i, hi⟩).2 = (pairs.get ⟨i, hi⟩).1 := by
  have hfold := wbits_foldl_writeBits pairs BitWriter.init (by decide) (by decide) hp
  rw [← writeAll] at hfold
  have hinit : wbits BitWriter.init = [] := by simp [wbits, BitWriter.init, bufferBits]
  have hW : wbits (writeAll pairs) = pairsBits pairs := by
    rw [hfold.1, hinit]
    rfl
  apply Nat.eq_of_testBit_eq
  intro k
  rw [testBit_natOfBits]
  by_cases hk : k < (pairs.get ⟨i, hi⟩).2
  · rw [if_pos hk, bitAt_getBuffer _ hfold.2.1 hfold.2.2, hW,
      getD_pairsBits pairs i k hi hk]
  · rw [if_neg hk]
    exact (Nat.testBit_lt_two_pow (lt_of_lt_of_le (hp _ (pairs.get_mem i hi)).2
      (Nat.pow_le_pow_right (by norm_num) (by omega)))).symm

/-- The padded buffer holds all written bits. -/
theorem writeAll_bits_in_range (pairs : List (Nat × Nat))
    (hp : ∀ p ∈ pairs, p.2 ≤ 32 ∧ p.1 < 2 ^ p.2) (i : Nat) (hi : i < pairs.length) :
    offsetBefore pairs i + (pairs.get ⟨i, hi⟩).2 ≤
      8 * (BitWriter.getBuffer (writeAll pairs)).length := by
  have hfold := wbits_foldl_writeBits pairs BitWriter.init (by decide) (by decide) hp
  rw [← writeAll] at hfold
  have hinit : wbits BitWriter.init = [] := by simp [wbits, BitWriter.init, bufferBits]
  have hW : wbits (writeAll pairs) = pairsBits pairs := by
    rw [hfold.1, hinit]
    rfl
  have h1 := offsetBefore_add_le pairs i hi
  have h2 : (pairsBits pairs).length ≤ 8 * (BitWriter.getBuffer (writeAll pairs)).length := by
    have := bufferBits_getBuffer (writeAll pairs) hfold.2.1 hfold.2.2
    have hlenbb := length_bufferBits (BitWriter.getBuffer (writeAll pairs))
    have : (bufferBits (BitWriter.getBuffer (writeAll pairs))).length =
        (wbits (writeAll pairs)).length + (8 - (writeAll pairs).bitPosition) % 8 := by
      rw [this]
      simp
    rw [hW] at this
    omega
  omega

/-! ## Claim-level theorems (C3, C5) -/

/-- C3 counterexample: a single pair `(2 ^ 31, 32)` is written, but reading
32 bits back returns the signed-32-bit reinterpretation `-2 ^ 31`, not the
value written — the claimed round trip fails at width 32 with a value
`≥ 2 ^ 31`. -/
theorem bitstream_roundtrip_counterexample :
    BitReader.readBits (BitWriter.getBuffer (writeAll [(2 ^ 31, 32)])) 0 32 =
      .ok (-(2 ^ 31 : Int), 32) ∧ (-(2 ^ 31 : Int)) ≠ (((2 ^ 31 : Nat) : Int)) := by
  constructor
  · rfl
  · intro h
    norm_num at h

/-- C3 (amended): for every sequence of `(value, width)` pairs with
`width ≤ 32`, `value < 2 ^ width` and additionally `value < 2 ^ 31`
(BitReader.readBits reinterprets the assembled 32-bit word as signed, so values with
bit 31 set read back as `value - 2 ^ 32`), writing them in order with
`BitWriter.writeBits` and reading the same widths at the same bit offsets
with `BitReader.readBits` returns exactly the values written. -/
theorem bitstream_roundtrip (pairs : List (Nat × Nat))
    (hp : ∀ p ∈ pairs, p.2 ≤ 32 ∧ p.1 < 2 ^ p.2 ∧ p.1 < 2 ^ 31)
    (i : Nat) (hi : i < pairs.length) :
    BitReader.readBits (BitWriter.getBuffer (writeAll pairs)) (offsetBefore pairs i)
      (pairs.get ⟨i, hi⟩).2 =
      .ok (((pairs.get ⟨i, hi⟩).1 : Int),
           offsetBefore pairs i + (pairs.get ⟨i, hi⟩).2) := by
  have hp' : ∀ p ∈ pairs, p.2 ≤ 32 ∧ p.1 < 2 ^ p.2 := fun p h => ⟨(hp p h).1, (hp p h).2.1⟩
  have hval := natOfBits_writeAll pairs hp' i hi
  have hsmall : natOfBits (BitWriter.getBuffer (writeAll pairs)) (offsetBefore pairs i)
      (pairs.get ⟨i, hi⟩).2 < 2 ^ 31 := by
    rw [hval]
    exact (hp _ (pairs.get_mem i hi)).2.2
  rw [BitReader.readBits_spec_small _ _ _ (hp' _ (pairs.get_mem i hi)).1
    (writeAll_bits_in_range pairs hp' i hi) hsmall, hval]

/-- C3 witness: two pairs `(5, 3)` and `(300, 31)`; reading 31 bits at bit
offset 3 returns 300. -/
theorem bitstream_roundtrip_witness :
    BitReader.readBits (BitWriter.getBuffer (writeAll [(5, 3), (300, 31)])) 3 31 =
      .ok ((300 : Int), 34) := by
  have h := bitstream_roundtrip [(5, 3), (300, 31)] (by decide) 1 (by decide)
  simpa [offsetBefore] using h

/-- C5 counterexample: at `v = 2 ^ 32` the 32-bit truncation inside
`VarintUtils.encode` makes it emit 2 bytes, while the claimed formula
`1 + ⌊log₂ v / 7⌋` (and `VarintUtils.getByteLength`) give 5. -/
theorem varint_length_counterexample :
    (VarintUtils.encode 4294967296).length = 2 ∧
    VarintUtils.getByteLength 4294967296 = 5 ∧
    (2 : Nat) ≠ 1 + Nat.log2 4294967296 / 7 := by
  have hlog : Nat.log2 4294967296 = 32 := by
    rw [show (4294967296:Nat) = 2 ^ 32 by norm_num, Nat.log2_two_pow]
  refine ⟨?_, ?_, ?_⟩
  · rw [VarintUtils.encode_cons (by norm_num)]
    norm_num
    rw [VarintUtils.encode_of_lt (by norm_num)]
    rfl
  · rw [VarintUtils.getByteLength, if_neg (by norm_num), hlog]
  · rw [hlog]
    norm_num

/-- C5 (amended: for `v < 2 ^ 32`, the domain on which the JS 32-bit
bitwise operations inside `VarintUtils.encode` are faithful): the byte length of
`VarintUtils.encode v` is 1 for `v = 0` and `1 + ⌊log₂ v / 7⌋` for `v > 0`, and
`VarintUtils.getByteLength` returns exactly that. -/
theorem varint_byte_length {v : Nat} (hv : v < 2 ^ 32) :
    (VarintUtils.encode v).length = (if v = 0 then 1 else 1 + Nat.log2 v / 7) ∧
    VarintUtils.getByteLength v = (if v = 0 then 1 else 1 + Nat.log2 v / 7) :=
  ⟨by rw [VarintUtils.encode_length hv, VarintUtils.getByteLength], rfl⟩

/-- C5 witness: `v = 300` (2 bytes). -/
theorem varint_byte_length_witness :
    (VarintUtils.encode 300).length = 2 ∧ VarintUtils.getByteLength 300 = 2 := by
  have h := @varint_byte_length 300 (by norm_num)
  have hlog : Nat.log2 300 = 8 := by simp [Nat.log2]
  rw [if_neg (by norm_num), hlog] at h
  simpa using h

theorem PostcodeNormalizer.unitToIndex_le {unit : Str} {i : Nat} (h : PostcodeNormalizer.unitToIndex unit = some i) : i ≤ 675 := by
  match unit with
  | [] => simp [PostcodeNormalizer.unitToIndex] at h
  | [c] => simp [PostcodeNormalizer.unitToIndex] at h
  | c1 :: c2 :: c3 :: rest => simp [PostcodeNormalizer.unitToIndex] at h
  | [c1, c2] =>
    rw [PostcodeNormalizer.unitToIndex] at h
    rcases h1 : PostcodeNormalizer.unitCharIndex c1 with _ | a <;> rcases h2 : PostcodeNormalizer.unitCharIndex c2 with _ | b <;>
      rw [h1, h2] at h <;> simp at h
    rw [PostcodeNormalizer.unitCharIndex] at h1 h2
    split at h1 <;> split at h2 <;> simp_all
    omega

/-! ## Claim-level theorems: C9 -/

/-- C9 counterexample: `"ABCDE1AA"` parses successfully although its
outward `"ABCDE"` has five characters — the normalizer does not enforce
the claimed "at most 4 ASCII uppercase alphanumeric" outward shape. -/
theorem parse_invariant_counterexample :
    PostcodeNormalizer.parsePostcode ("ABCDE1AA" : String).data =
      some ⟨("ABCDE" : String).data, 1, 0⟩ ∧
    (("ABCDE" : String).data).length = 5 := by
  constructor
  · decide
  · decide

/-- C9 (amended): for every input string, if the normalizer returns a
`ParsedPostcode` then its sector is in 0–9, its `unit_index` is in 0–675,
and its outward is nonempty; the source places no length or character-set
bound on the outward. -/
theorem parse_invariants (s : Str) (p : ParsedPostcode)
    (h : PostcodeNormalizer.parsePostcode s = some p) :
    p.sector ≤ 9 ∧ p.unitIndex ≤ 675 ∧ p.outward ≠ [] := by
  rw [PostcodeNormalizer.parsePostcode] at h
  split at h
  · simp at h
  · dsimp only at h
    split at h
    · simp at h
    · split at h
      · simp at h
      · rename_i houtw
        rw [PostcodeNormalizer.parseComponents.eq_def] at h
        split at h
        · rename_i sectorChar unit
          split at h
          · rename_i hdig
            split at h
            · rename_i ui hui
              rw [Option.some_inj] at h
              subst h
              dsimp only
              exact ⟨by omega, PostcodeNormalizer.unitToIndex_le hui,
                fun hemp => houtw (Or.inl hemp)⟩
            · simp at h
          · simp at h
        · simp at h

/-- C9 witness: `"M1 1AA"` parses to `("M1", 1, 0)` and satisfies the
amended bounds. -/
theorem parse_invariants_witness :
    PostcodeNormalizer.parsePostcode ("M1 1AA" : String).data =
      some ⟨("M1" : String).data, 1, 0⟩ ∧
    ((⟨("M1" : String).data, 1, 0⟩ : ParsedPostcode).sector ≤ 9 ∧
      (⟨("M1" : String).data, 1, 0⟩ : ParsedPostcode).unitIndex ≤ 675 ∧
      (⟨("M1" : String).data, 1, 0⟩ : ParsedPostcode).outward ≠ []) :=
  ⟨by decide, parse_invariants (("M1 1AA" : String).data) ⟨("M1" : String).data, 1, 0⟩
    (by decide)⟩

/-- A record whose postcode does not parse leaves the grouping map
unchanged, so a list of unparseable records folds to the empty map. -/
theorem foldl_processRecord_unparsed (records : List PostcodeRecord) :
    (∀ r ∈ records, PostcodeNormalizer.parsePostcode r.postcode = none) →
    ∀ m, records.foldl processRecord m = m := by
  induction records with
  | nil => intro _ m; rfl
  | cons r rest ih =>
    intro h m
    have h1 : PostcodeNormalizer.parsePostcode r.postcode = none :=
      h r (List.mem_cons_self r rest)
    have h2 : processRecord m r = m := by simp only [processRecord, h1]
    rw [List.foldl_cons, h2]
    exact ih (fun x hx => h x (List.mem_cons_of_mem r hx)) m

/-- **C10.**  When no record's postcode parses (in particular for the
empty record list), `encodeFromRecords` succeeds and yields exactly the
32-byte header — magic `PCDB`, version 3, flags 0, `outward_count = 0`,
`total_unit_count = 0`, both coordinate offsets 0, 12 reserved zero
bytes — and constructing a client on that buffer always fails the
`[1, 65535]` outward-count validation, so such a database can never be
read back. -/
theorem empty_database (records : List PostcodeRecord)
    (h : ∀ r ∈ records, PostcodeNormalizer.parsePostcode r.postcode = none) :
    PostcodeEncoder.encodeFromRecords records =
      [80, 67, 68, 66, 3, 0, 0, 0, 0, 0, 0, 0, 0, 0, 0, 0,
       0, 0, 0, 0, 0, 0, 0, 0, 0, 0, 0, 0, 0, 0, 0, 0] ∧
    mkClient (PostcodeEncoder.encodeFromRecords records) =
      .error "Invalid outward count" := by
  have hm : processRecords records = [] :=
    foldl_processRecord_unparsed records h []
  have he : PostcodeEncoder.encodeFromRecords records =
      generateBinaryBuffer (processSectors (processRecords records))
        (globalLatOffsetOf (processRecords records))
        (globalLonOffsetOf (processRecords records)) := rfl
  rw [he, hm]
  exact ⟨by decide, by rfl⟩

/-- C10 witness: a single record `"X"` (too short to parse). -/
theorem empty_database_witness :
    (∀ r ∈ ([⟨("X" : String).data, 0, 0⟩] : List PostcodeRecord),
      PostcodeNormalizer.parsePostcode r.postcode = none) ∧
    (PostcodeEncoder.encodeFromRecords [⟨("X" : String).data, 0, 0⟩] =
      [80, 67, 68, 66, 3, 0, 0, 0, 0, 0, 0, 0, 0, 0, 0, 0,
       0, 0, 0, 0, 0, 0, 0, 0, 0, 0, 0, 0, 0, 0, 0, 0] ∧
     mkClient (PostcodeEncoder.encodeFromRecords [⟨("X" : String).data, 0, 0⟩]) =
      .error "Invalid outward count") :=
  ⟨by decide, empty_database _ (by decide)⟩

/-! ## The concrete example database: evaluation lemmas -/

theorem bindE_ok {ε α β : Type} (a : α) (f : α → Except ε β) :
    Bind.bind (Except.ok a) f = f a := rfl

theorem bindE_error {ε α β : Type} (e : ε) (f : α → Except ε β) :
    Bind.bind (Except.error e) f = (Except.error e : Except ε β) := rfl

theorem pureE {ε α : Type} (a : α) : (pure a : Except ε α) = Except.ok a := rfl

/-- Grouping the single example record: the coordinates quantize to the
integers 1 and 2 (the `round` steps are the only non-evaluable seams). -/
theorem processRecords_example : processRecords exampleRecords = exampleMap := by
  have hp : PostcodeNormalizer.parsePostcode (("M11AA" : String).data) =
      some ⟨("M1" : String).data, 1, 0⟩ := by decide
  have h1 : round ((1 : ℚ) / 100000 * 100000) = (1 : Int) := by norm_num [round_eq]
  have h2 : round ((2 : ℚ) / 100000 * 100000) = (2 : Int) := by norm_num [round_eq]
  show processRecord [] ⟨("M11AA" : String).data, 1 / 100000, 2 / 100000⟩ = exampleMap
  simp only [processRecord, hp, h1, h2]
  rfl

/-- Encoding the example record list yields `exampleBuf`. -/
theorem encode_example : PostcodeEncoder.encodeFromRecords exampleRecords = exampleBuf := by
  have h0 : PostcodeEncoder.encodeFromRecords exampleRecords =
      generateBinaryBuffer (processSectors (processRecords exampleRecords))
        (globalLatOffsetOf (processRecords exampleRecords))
        (globalLonOffsetOf (processRecords exampleRecords)) := rfl
  rw [h0, processRecords_example]
  decide

/-- Parsing `exampleBuf` succeeds and yields `exampleClient`. -/
theorem mkClient_example : mkClient exampleBuf = .ok exampleClient := by rfl

/-- Looking up `"M11AA"` in the example database. -/
theorem lookup_example_upper :
    PostcodeClient.lookup exampleClient (("M11AA" : String).data) =
      .ok (some ⟨("M11AA" : String).data, ("M1" : String).data,
        ((1 : Int) : ℚ) / 100000, ((2 : Int) : ℚ) / 100000⟩) := by rfl

/-- Looking up the variant spelling `"m1 1aa"`: same coordinates, but the
`postcode` field echoes the variant input. -/
theorem lookup_example_lower :
    PostcodeClient.lookup exampleClient (("m1 1aa" : String).data) =
      .ok (some ⟨("m1 1aa" : String).data, ("M1" : String).data,
        ((1 : Int) : ℚ) / 100000, ((2 : Int) : ℚ) / 100000⟩) := by rfl

/-- C6 counterexample: in the example database (built from `M11AA`),
looking up the variants `"M11AA"` and `"m1 1aa"` both succeed and agree on
`outward`/`lat`/`lon`, but the returned records are *not* equal in every
field: the `postcode` field echoes the original argument. -/
theorem lookup_variants_counterexample :
    PostcodeEncoder.encodeFromRecords exampleRecords = exampleBuf ∧
    mkClient exampleBuf = .ok exampleClient ∧
    PostcodeClient.lookup exampleClient (("M11AA" : String).data) =
      .ok (some ⟨("M11AA" : String).data, ("M1" : String).data,
        ((1 : Int) : ℚ) / 100000, ((2 : Int) : ℚ) / 100000⟩) ∧
    PostcodeClient.lookup exampleClient (("m1 1aa" : String).data) =
      .ok (some ⟨("m1 1aa" : String).data, ("M1" : String).data,
        ((1 : Int) : ℚ) / 100000, ((2 : Int) : ℚ) / 100000⟩) ∧
    (⟨("M11AA" : String).data, ("M1" : String).data,
        ((1 : Int) : ℚ) / 100000, ((2 : Int) : ℚ) / 100000⟩ : PostcodeLookupResult) ≠
      ⟨("m1 1aa" : String).data, ("M1" : String).data,
        ((1 : Int) : ℚ) / 100000, ((2 : Int) : ℚ) / 100000⟩ :=
  ⟨encode_example, mkClient_example, lookup_example_upper, lookup_example_lower,
    fun h => absurd (congrArg PostcodeLookupResult.postcode h) (by decide)⟩

/-- **C6.**  (Amended.)  `lookup` is insensitive to whitespace and case in
every field except `postcode`: if two input strings parse identically and
the first lookup succeeds, the second returns the same record with only
the `postcode` field replaced by the second input string. -/
theorem lookup_normalization (c : PostcodeClient) (p1 p2 : Str) (r1 : PostcodeLookupResult)
    (h : PostcodeNormalizer.parsePostcode p1 = PostcodeNormalizer.parsePostcode p2)
    (h1 : c.lookup p1 = .ok (some r1)) :
    c.lookup p2 = .ok (some { r1 with postcode := p2 }) := by
  unfold PostcodeClient.lookup at h1 ⊢
  rw [← h]
  cases hp : PostcodeNormalizer.parsePostcode p1 with
  | none => rw [hp] at h1; simp at h1
  | some parsed =>
    rw [hp] at h1
    dsimp only at h1 ⊢
    cases hfo : findOutwardEntry c.outwardIndex parsed.outward with
    | none => rw [hfo] at h1; simp at h1
    | some outwardEntry =>
      rw [hfo] at h1
      dsimp only at h1 ⊢
      cases hrs : readSectorTable c.buffer outwardEntry with
      | error e => rw [hrs] at h1; rw [bindE_error] at h1; simp at h1
      | ok sectors =>
        rw [hrs] at h1
        rw [bindE_ok] at h1 ⊢
        cases hfs : sectors.find? (fun s => s.sectorNumber == parsed.sector) with
        | none => rw [hfs] at h1; simp [pureE] at h1
        | some sectorEntry =>
          rw [hfs] at h1
          dsimp only at h1 ⊢
          cases hx : (if sectorEntry.flags &&& 0x2 ≠ 0 then
              findListUnit c.buffer outwardEntry sectorEntry parsed.unitIndex
            else
              pure ((checkBitmapUnit c.buffer outwardEntry sectorEntry parsed.unitIndex).map
                (fun rank =>
                  (rank, outwardEntry.sectorIndexOffset + sectorEntry.unitsRelOff + 85)))) with
          | error e => rw [hx] at h1; rw [bindE_error] at h1; simp at h1
          | ok hit =>
            rw [hx] at h1
            rw [bindE_ok] at h1 ⊢
            cases hit with
            | none => simp [pureE] at h1
            | some rs =>
              change Bind.bind (readCoordinateRecord c.buffer rs.2 rs.1
                  sectorEntry.bitsLat sectorEntry.bitsLon) _ = _ at h1
              change Bind.bind (readCoordinateRecord c.buffer rs.2 rs.1
                  sectorEntry.bitsLat sectorEntry.bitsLon) _ = _
              cases hrc : readCoordinateRecord c.buffer rs.2 rs.1
                  sectorEntry.bitsLat sectorEntry.bitsLon with
              | error e => rw [hrc] at h1; rw [bindE_error] at h1; simp at h1
              | ok deltas =>
                rw [hrc] at h1
                rw [bindE_ok] at h1 ⊢
                simp only [pureE, Except.ok.injEq, Option.some.injEq] at h1 ⊢
                rw [← h1]

/-- C6 witness: `"M11AA"` and `"m1 1aa"` parse identically; applying the
normalization theorem to the example database reproduces the second
lookup from the first. -/
theorem lookup_normalization_witness :
    PostcodeNormalizer.parsePostcode (("M11AA" : String).data) =
      PostcodeNormalizer.parsePostcode (("m1 1aa" : String).data) ∧
    PostcodeClient.lookup exampleClient (("m1 1aa" : String).data) =
      .ok (some { (⟨("M11AA" : String).data, ("M1" : String).data,
        ((1 : Int) : ℚ) / 100000, ((2 : Int) : ℚ) / 100000⟩ : PostcodeLookupResult) with
          postcode := ("m1 1aa" : String).data }) :=
  ⟨by decide, lookup_normalization exampleClient (("M11AA" : String).data)
    (("m1 1aa" : String).data) _ (by decide) (by rfl)⟩

/-- The byte length of the delta part of `encodeDeltaSequence` agrees with
the `getByteLength` accounting in `chooseSectorMode` (all values below
`2 ^ 32`). -/
theorem deltaSeqRest_length (rest : List Nat) :
    ∀ prev, (∀ i ∈ rest, i < 2 ^ 32) →
      (VarintUtils.deltaSeqRest prev rest).length = deltaSizes prev rest := by
  induction rest with
  | nil => intro prev _; rfl
  | cons v rest ih =>
    intro prev h
    simp only [VarintUtils.deltaSeqRest, deltaSizes, List.length_append,
      VarintUtils.encode_length (lt_of_le_of_lt (Nat.sub_le v prev) (h v (by simp))),
      ih v (fun i hi => h i (by simp [hi]))]

/-- The presence bitmap is always exactly 85 bytes. -/
theorem bitmapOf_length (indices : List Nat) : (bitmapOf indices).length = 85 := by
  have key : ∀ (l bm : List Nat),
      (l.foldl (fun bm idx =>
        if idx / 8 < 85 then
          bm.set (idx / 8) ((bm.getD (idx / 8) 0) ||| (1 <<< (idx % 8)))
        else bm) bm).length = bm.length := by
    intro l
    induction l with
    | nil => intro bm; rfl
    | cons i rest ih =>
      intro bm
      rw [List.foldl_cons, ih]
      by_cases hc : i / 8 < 85
      · rw [if_pos hc, List.length_set]
      · rw [if_neg hc]
  rw [bitmapOf, key, List.length_replicate]

/-- **C2.**  For a non-empty sector (every encoder-built sector has at
least one unit; unit indices are below `2 ^ 32`), `chooseSectorMode`
selects list mode exactly when the varint delta encoding of the sector
unit-index list is strictly smaller than 85 bytes; the bitmap
representation used otherwise is exactly 85 bytes. -/
theorem sector_mode_choice (sd : SectorData)
    (hne : sd.units ≠ [])
    (h : ∀ u ∈ sd.units, u.unitIndex < 2 ^ 32) :
    ((chooseSectorMode sd).1 = true ↔
      (VarintUtils.encodeDeltaSequence (sd.units.map (fun u => u.unitIndex))).length < 85) ∧
    (bitmapOf (sd.units.map (fun u => u.unitIndex))).length = 85 := by
  refine ⟨?_, bitmapOf_length _⟩
  have hmem : ∀ i ∈ sd.units.map (fun u => u.unitIndex), i < 2 ^ 32 := by
    intro i hi
    obtain ⟨u, hu', rfl⟩ := List.mem_map.1 hi
    exact h u hu'
  cases hu : sd.units.map (fun u => u.unitIndex) with
  | nil => exact absurd (List.map_eq_nil.1 hu) hne
  | cons first rest =>
    rw [hu] at hmem
    simp only [chooseSectorMode, hu]
    rw [VarintUtils.encodeDeltaSequence, List.length_append,
      VarintUtils.encode_length (hmem first (by simp)),
      deltaSeqRest_length rest first (fun i hi => hmem i (by simp [hi]))]
    simp [decide_eq_true_iff]

/-- C2 witness: the example sector (one unit, index 0) chooses list mode
(1 byte < 85). -/
theorem sector_mode_choice_witness :
    ((⟨1, [⟨0, 1, 2⟩], 1, 1, 2, 2⟩ : SectorData).units ≠ [] ∧
      ∀ u ∈ (⟨1, [⟨0, 1, 2⟩], 1, 1, 2, 2⟩ : SectorData).units, u.unitIndex < 2 ^ 32) ∧
    (((chooseSectorMode ⟨1, [⟨0, 1, 2⟩], 1, 1, 2, 2⟩).1 = true ↔
      (VarintUtils.encodeDeltaSequence
        ((⟨1, [⟨0, 1, 2⟩], 1, 1, 2, 2⟩ : SectorData).units.map
          (fun u => u.unitIndex))).length < 85) ∧
    (bitmapOf ((⟨1, [⟨0, 1, 2⟩], 1, 1, 2, 2⟩ : SectorData).units.map
      (fun u => u.unitIndex))).length = 85) :=
  ⟨⟨by decide, by decide⟩, sector_mode_choice ⟨1, [⟨0, 1, 2⟩], 1, 1, 2, 2⟩ (by decide) (by decide)⟩

/-! ## Truncated-outward databases: evaluation lemmas and the
counterexamples they yield -/

theorem processRecords_trunc : processRecords truncRecords = truncMap := by
  have hp : PostcodeNormalizer.parsePostcode (("ABCDE1AA" : String).data) =
      some ⟨("ABCDE" : String).data, 1, 0⟩ := by decide
  have h1 : round ((1 : ℚ) / 100000 * 100000) = (1 : Int) := by norm_num [round_eq]
  have h2 : round ((2 : ℚ) / 100000 * 100000) = (2 : Int) := by norm_num [round_eq]
  show processRecord [] ⟨("ABCDE1AA" : String).data, 1 / 100000, 2 / 100000⟩ = truncMap
  simp only [processRecord, hp, h1, h2]
  rfl

/-- The duplicate second record is dropped (first wins). -/
theorem processRecords_dup : processRecords dupRecords = truncMap := by
  have hstep1 : processRecord [] ⟨("ABCDE1AA" : String).data, 1 / 100000, 2 / 100000⟩ =
      truncMap := processRecords_trunc
  show processRecord (processRecord [] ⟨("ABCDE1AA" : String).data, 1 / 100000, 2 / 100000⟩)
      ⟨("ABCDE1AA" : String).data, 3 / 100000, 4 / 100000⟩ = truncMap
  rw [hstep1]
  have hp : PostcodeNormalizer.parsePostcode (("ABCDE1AA" : String).data) =
      some ⟨("ABCDE" : String).data, 1, 0⟩ := by decide
  simp only [processRecord, hp]
  rw [if_pos (by decide)]

theorem processRecords_pair : processRecords pairRecords = pairMap := by
  have hstep1 : processRecord [] ⟨("ABCDE1AA" : String).data, 1 / 100000, 2 / 100000⟩ =
      truncMap := processRecords_trunc
  show processRecord (processRecord [] ⟨("ABCDE1AA" : String).data, 1 / 100000, 2 / 100000⟩)
      ⟨("ABCDF1AA" : String).data, 3 / 100000, 4 / 100000⟩ = pairMap
  rw [hstep1]
  have hp : PostcodeNormalizer.parsePostcode (("ABCDF1AA" : String).data) =
      some ⟨("ABCDF" : String).data, 1, 0⟩ := by decide
  have h3 : round ((3 : ℚ) / 100000 * 100000) = (3 : Int) := by norm_num [round_eq]
  have h4 : round ((4 : ℚ) / 100000 * 100000) = (4 : Int) := by norm_num [round_eq]
  simp only [processRecord, hp, h3, h4]
  rfl

theorem encode_trunc : PostcodeEncoder.encodeFromRecords truncRecords = truncBuf := by
  have h0 : PostcodeEncoder.encodeFromRecords truncRecords =
      generateBinaryBuffer (processSectors (processRecords truncRecords))
        (globalLatOffsetOf (processRecords truncRecords))
        (globalLonOffsetOf (processRecords truncRecords)) := rfl
  rw [h0, processRecords_trunc]
  decide

theorem encode_dup : PostcodeEncoder.encodeFromRecords dupRecords = truncBuf := by
  have h0 : PostcodeEncoder.encodeFromRecords dupRecords =
      generateBinaryBuffer (processSectors (processRecords dupRecords))
        (globalLatOffsetOf (processRecords dupRecords))
        (globalLonOffsetOf (processRecords dupRecords)) := rfl
  rw [h0, processRecords_dup]
  decide

theorem encode_pair : PostcodeEncoder.encodeFromRecords pairRecords = pairBuf := by
  have h0 : PostcodeEncoder.encodeFromRecords pairRecords =
      generateBinaryBuffer (processSectors (processRecords pairRecords))
        (globalLatOffsetOf (processRecords pairRecords))
        (globalLonOffsetOf (processRecords pairRecords)) := rfl
  rw [h0, processRecords_pair]
  decide

theorem mkClient_trunc : mkClient truncBuf = .ok truncClient := by rfl

theorem mkClient_pair : mkClient pairBuf = .ok pairClient := by rfl

/-- The postcode that produced the database misses: its 5-character
outward `ABCDE` never matches the truncated index code `ABCD`. -/
theorem lookup_trunc_none :
    PostcodeClient.lookup truncClient (("ABCDE1AA" : String).data) = .ok none := by rfl

/-- **C1 counterexample.**  The record `ABCDE1AA` has a parseable
postcode, yet after build+load, `lookup` on that very postcode string
returns null: the 5-character outward is truncated to `ABCD` in the
index and the binary search cannot find `ABCDE`. -/
theorem lookup_roundtrip_counterexample :
    PostcodeNormalizer.parsePostcode (("ABCDE1AA" : String).data) =
      some ⟨("ABCDE" : String).data, 1, 0⟩ ∧
    PostcodeEncoder.encodeFromRecords truncRecords = truncBuf ∧
    mkClient truncBuf = .ok truncClient ∧
    PostcodeClient.lookup truncClient (("ABCDE1AA" : String).data) = .ok none :=
  ⟨by decide, encode_trunc, mkClient_trunc, lookup_trunc_none⟩

/-- **C4 counterexample.**  Two records with the same parsed triple
(outward `ABCDE`): the duplicate is indeed dropped at build time, but
`lookup` on that postcode returns null rather than the first record's
coordinates, again because of the 4-byte index truncation. -/
theorem duplicate_first_wins_counterexample :
    (dupRecords.map (fun r => PostcodeNormalizer.parsePostcode r.postcode)) =
      [some ⟨("ABCDE" : String).data, 1, 0⟩, some ⟨("ABCDE" : String).data, 1, 0⟩] ∧
    PostcodeEncoder.encodeFromRecords dupRecords = truncBuf ∧
    mkClient truncBuf = .ok truncClient ∧
    PostcodeClient.lookup truncClient (("ABCDE1AA" : String).data) = .ok none :=
  ⟨by decide, encode_dup, mkClient_trunc, lookup_trunc_none⟩

theorem getOutwardList_pair : PostcodeClient.getOutwardList pairClient =
    [("ABCD" : String).data, ("ABCD" : String).data] := by rfl

/-- **C7 counterexample.**  A database built from the two distinct
outwards `ABCDE` and `ABCDF` (truncated to the same 4 index bytes):
`getOutwardList` returns `["ABCD", "ABCD"]`, which has a duplicate
entry. -/
theorem outward_list_counterexample :
    PostcodeEncoder.encodeFromRecords pairRecords = pairBuf ∧
    mkClient pairBuf = .ok pairClient ∧
    PostcodeClient.getOutwardList pairClient =
      [("ABCD" : String).data, ("ABCD" : String).data] ∧
    ¬ ([("ABCD" : String).data, ("ABCD" : String).data] : List Str).Nodup :=
  ⟨encode_pair, mkClient_pair, getOutwardList_pair, by decide⟩

/-! ## Region reads: parsing back little-endian fields written at a known
offset -/

theorem getElem?_region (pre mid post : List Nat) (r : Nat) (hr : r < mid.length) :
    (pre ++ mid ++ post)[pre.length + r]? = mid[r]? := by
  rw [List.append_assoc, List.getElem?_append_right (by omega), Nat.add_sub_cancel_left,
    List.getElem?_append_left hr]

theorem readU8_at (pre post : List Nat) (v : Nat) (hv : v < 2 ^ 8) :
    readU8 (pre ++ u8 v ++ post) pre.length = .ok v := by
  have h0 : (pre ++ u8 v ++ post)[pre.length + 0]? = (u8 v)[0]? :=
    getElem?_region pre (u8 v) post 0 (by simp [u8])
  rw [Nat.add_zero] at h0
  rw [readU8, h0]
  show Except.ok (v % 256) = Except.ok v
  rw [Nat.mod_eq_of_lt (by norm_num at hv ⊢; omega)]

theorem readU16LE_at (pre post : List Nat) (v : Nat) (hv : v < 2 ^ 16) :
    readU16LE (pre ++ u16le v ++ post) pre.length = .ok v := by
  have h0 : (pre ++ u16le v ++ post)[pre.length + 0]? = (u16le v)[0]? :=
    getElem?_region pre (u16le v) post 0 (by simp [u16le])
  have h1 : (pre ++ u16le v ++ post)[pre.length + 1]? = (u16le v)[1]? :=
    getElem?_region pre (u16le v) post 1 (by simp [u16le])
  rw [Nat.add_zero] at h0
  rw [readU16LE, h0, h1]
  show Except.ok (v % 256 + 2 ^ 8 * (v / 2 ^ 8 % 256)) = Except.ok v
  congr 1
  norm_num at hv ⊢
  omega

theorem readU24LE_at (pre post : List Nat) (v : Nat) (hv : v < 2 ^ 24) :
    readU24LE (pre ++ u24le v ++ post) pre.length = .ok v := by
  have h0 : (pre ++ u24le v ++ post)[pre.length + 0]? = (u24le v)[0]? :=
    getElem?_region pre (u24le v) post 0 (by simp [u24le])
  have h1 : (pre ++ u24le v ++ post)[pre.length + 1]? = (u24le v)[1]? :=
    getElem?_region pre (u24le v) post 1 (by simp [u24le])
  have h2 : (pre ++ u24le v ++ post)[pre.length + 2]? = (u24le v)[2]? :=
    getElem?_region pre (u24le v) post 2 (by simp [u24le])
  rw [Nat.add_zero] at h0
  rw [readU24LE, h0, h1, h2]
  show Except.ok (v % 256 + 2 ^ 8 * (v / 2 ^ 8 % 256) + 2 ^ 16 * (v / 2 ^ 16 % 256)) =
    Except.ok v
  congr 1
  norm_num at hv ⊢
  omega

theorem readU32LE_at (pre post : List Nat) (v : Nat) (hv : v < 2 ^ 32) :
    readU32LE (pre ++ u32le v ++ post) pre.length = .ok v := by
  have h0 : (pre ++ u32le v ++ post)[pre.length + 0]? = (u32le v)[0]? :=
    getElem?_region pre (u32le v) post 0 (by simp [u32le])
  have h1 : (pre ++ u32le v ++ post)[pre.length + 1]? = (u32le v)[1]? :=
    getElem?_region pre (u32le v) post 1 (by simp [u32le])
  have h2 : (pre ++ u32le v ++ post)[pre.length + 2]? = (u32le v)[2]? :=
    getElem?_region pre (u32le v) post 2 (by simp [u32le])
  have h3 : (pre ++ u32le v ++ post)[pre.length + 3]? = (u32le v)[3]? :=
    getElem?_region pre (u32le v) post 3 (by simp [u32le])
  rw [Nat.add_zero] at h0
  rw [readU32LE, h0, h1, h2, h3]
  show Except.ok (v % 256 + 2 ^ 8 * (v / 2 ^ 8 % 256) + 2 ^ 16 * (v / 2 ^ 16 % 256) +
    2 ^ 24 * (v / 2 ^ 24 % 256)) = Except.ok v
  congr 1
  norm_num at hv ⊢
  omega

theorem readI24LE_at (pre post : List Nat) (v : Int)
    (hv : -(2 ^ 23) ≤ v ∧ v < 2 ^ 23) :
    readI24LE (pre ++ i24le v ++ post) pre.length = .ok v := by
  rw [i24le] at *
  have hnat : (v % 2 ^ 24).toNat < 2 ^ 24 := by omega
  rw [readI24LE, readU24LE_at pre post _ hnat]
  dsimp only
  by_cases hpos : 0 ≤ v
  · have hts : (v % 2 ^ 24).toNat = v.toNat := by omega
    rw [hts, if_pos (by omega)]
    congr 1
    omega
  · have hts : (v % 2 ^ 24).toNat = (v + 2 ^ 24).toNat := by omega
    rw [hts, if_neg (by omega)]
    congr 1
    omega

theorem readI32LE_at (pre post : List Nat) (v : Int)
    (hv : -(2 ^ 31) ≤ v ∧ v < 2 ^ 31) :
    readI32LE (pre ++ i32le v ++ post) pre.length = .ok v := by
  rw [i32le] at *
  have hnat : (v % 2 ^ 32).toNat < 2 ^ 32 := by omega
  rw [readI32LE, readU32LE_at pre post _ hnat]
  dsimp only
  by_cases hpos : 0 ≤ v
  · have hts : (v % 2 ^ 32).toNat = v.toNat := by omega
    rw [hts, if_pos (by omega)]
    congr 1
    omega
  · have hts : (v % 2 ^ 32).toNat = (v + 2 ^ 32).toNat := by omega
    rw [hts, if_neg (by omega)]
    congr 1
    omega

/-! ## Small-value exactness of the JS operators, and varint byte
structure -/

theorem jsOr_small (a b : Nat) (ha : a < 2 ^ 31) (hb : b < 2 ^ 31) :
    jsOr (a : Int) (b : Int) = ((a ||| b : Nat) : Int) := by
  rw [jsOr, jsToUint32_of_lt (by omega), jsToUint32_of_lt (by omega)]
  exact jsToInt32_ofNat_of_lt (Nat.or_lt_two_pow ha hb)

theorem jsShl_small (a s : Nat) (hs : s ≤ 31) (h : a <<< s < 2 ^ 31) :
    jsShl (a : Int) (s : Int) = ((a <<< s : Nat) : Int) := by
  have hle : a ≤ a <<< s := by
    rw [Nat.shiftLeft_eq]
    exact Nat.le_mul_of_pos_right a (Nat.two_pow_pos s)
  rw [jsShl, jsToUint32_of_lt (show s < 2 ^ 32 by omega), Nat.mod_eq_of_lt (by omega),
    jsToUint32_of_lt (by omega)]
  exact jsToInt32_ofNat_of_lt h

theorem lor128_of_lt {x : Nat} (hx : x < 128) : x ||| 128 = x + 128 := by
  have h := @lor_shiftLeft_eq_add x 1 7 (by omega)
  rw [show (1 <<< 7 : Nat) = 128 from rfl] at h
  rw [h]
  ring

theorem contByte_and127 {x : Nat} (hx : x < 128) : (x ||| 128) &&& 127 = x := by
  rw [lor128_of_lt hx, show (127 : Nat) = 2 ^ 7 - 1 from rfl,
    Nat.and_pow_two_sub_one_eq_mod]
  omega

theorem contByte_and128 {x : Nat} (hx : x < 128) : (x ||| 128) &&& 128 ≠ 0 := by
  intro h0
  have hbit : ((x ||| 128) &&& 128).testBit 7 = true := by
    rw [Nat.testBit_and, lor128_of_lt hx]
    have h1 : (x + 128).testBit 7 = true := by
      simp only [Nat.testBit_to_div_mod, decide_eq_true_eq]
      omega
    have h2 : (128 : Nat).testBit 7 = true := by decide
    rw [h1, h2]
    rfl
  rw [h0] at hbit
  simp [Nat.zero_testBit] at hbit

theorem lastByte_and128 (x : Nat) : (x &&& 127) &&& 128 = 0 := by
  have hlt : x &&& 127 < 128 := by
    rw [show (127 : Nat) = 2 ^ 7 - 1 from rfl, Nat.and_pow_two_sub_one_eq_mod]
    omega
  apply Nat.eq_of_testBit_eq
  intro j
  rw [Nat.testBit_and, Nat.zero_testBit]
  by_cases hj : j = 7
  · subst hj
    have hb : (x &&& 127).testBit 7 = false := by
      simp only [Nat.testBit_to_div_mod, decide_eq_false_iff_not]
      omega
    rw [hb]
    rfl
  · have hb : (128 : Nat).testBit j = false := by
      rw [show (128 : Nat) = 2 ^ 7 from rfl, Nat.testBit_two_pow]
      exact decide_eq_false (fun h => hj (Eq.symm h))
    rw [hb]
    simp

/-! ## Varint decode/encode round trip -/

/-- Invariant of the `VarintUtils.decode` loop while consuming
`VarintUtils.encode v` at the current read position: the accumulated low
bits `w` and the remaining value `v` combine to `w + v * 2 ^ shift`.  All
intermediate JS 32-bit operations are exact because every value stays
below `2 ^ 31`. -/
theorem decodeAux_encode (v : Nat) :
    ∀ (shift w : Nat) (pre post : List Nat) (o br fuel : Nat),
      o + br = pre.length →
      shift % 7 = 0 → shift ≤ 28 →
      v < 2 ^ (31 - shift) → w < 2 ^ shift →
      (VarintUtils.encode v).length ≤ fuel →
      VarintUtils.decodeAux fuel (pre ++ VarintUtils.encode v ++ post) o (w : Int) shift br =
        .ok (((w + v * 2 ^ shift : Nat) : Int), br + (VarintUtils.encode v).length) := by
  induction v using Nat.strong_induction_on with
  | _ v ih =>
    intro shift w pre post o br fuel ho h7 h28 hv hw hfuel
    have hv31 : v < 2 ^ 31 := lt_of_lt_of_le hv (Nat.pow_le_pow_right (by norm_num) (by omega))
    have hvmod : v % 2 ^ 32 = v := Nat.mod_eq_of_lt (by omega)
    by_cases hbig : 0x80 ≤ v
    · -- continuation byte
      have hshift21 : shift ≤ 21 := by
        by_contra hgt
        have h28' : shift = 28 := by omega
        rw [h28'] at hv
        norm_num at hv hbig
        omega
      rw [VarintUtils.encode_cons hbig, hvmod]
      obtain ⟨f, rfl⟩ : ∃ f, fuel = f + 1 := by
        rw [VarintUtils.encode_cons hbig] at hfuel
        exact ⟨fuel - 1, by simp at hfuel; omega⟩
      have hx : v &&& 0x7f < 128 := by
        rw [show (0x7f : Nat) = 2 ^ 7 - 1 from rfl, Nat.and_pow_two_sub_one_eq_mod]
        omega
      have hbyte : (pre ++ ((v &&& 0x7f ||| 0x80) :: VarintUtils.encode (v >>> 7)) ++ post)[o + br]? =
          some (v &&& 0x7f ||| 0x80) := by
        have h0 := getElem?_region pre ((v &&& 0x7f ||| 0x80) :: VarintUtils.encode (v >>> 7)) post 0
          (by simp)
        rw [Nat.add_zero] at h0
        rw [ho, h0]
        simp
      rw [VarintUtils.decodeAux, hbyte]
      dsimp only
      rw [contByte_and127 hx]
      have hshl : jsShl ((v &&& 0x7f : Nat) : Int) ((shift : Nat) : Int) =
          (((v &&& 0x7f) <<< shift : Nat) : Int) :=
        jsShl_small _ _ (by omega) (by
          rw [Nat.shiftLeft_eq]
          calc (v &&& 0x7f) * 2 ^ shift < 128 * 2 ^ shift :=
                Nat.mul_lt_mul_right (Nat.two_pow_pos shift) |>.2 hx
            _ ≤ 128 * 2 ^ 21 :=
                Nat.mul_le_mul_left 128 (Nat.pow_le_pow_right (by norm_num) hshift21)
            _ < 2 ^ 31 := by norm_num)
      rw [hshl]
      have hor : jsOr ((w : Nat) : Int) (((v &&& 0x7f) <<< shift : Nat) : Int) =
          ((w ||| ((v &&& 0x7f) <<< shift) : Nat) : Int) :=
        jsOr_small _ _ (by
          calc w < 2 ^ shift := hw
            _ ≤ 2 ^ 28 := Nat.pow_le_pow_right (by norm_num) h28
            _ < 2 ^ 31 := by norm_num) (by
          rw [Nat.shiftLeft_eq]
          calc (v &&& 0x7f) * 2 ^ shift < 128 * 2 ^ shift :=
                Nat.mul_lt_mul_right (Nat.two_pow_pos shift) |>.2 hx
            _ ≤ 128 * 2 ^ 21 :=
                Nat.mul_le_mul_left 128 (Nat.pow_le_pow_right (by norm_num) hshift21)
            _ < 2 ^ 31 := by norm_num)
      rw [hor, lor_shiftLeft_eq_add hw]
      rw [if_neg (contByte_and128 hx), if_neg (by omega : ¬ 32 ≤ shift + 7)]
      have happ : pre ++ ((v &&& 0x7f ||| 0x80) :: VarintUtils.encode (v >>> 7)) ++ post =
          (pre ++ [v &&& 0x7f ||| 0x80]) ++ VarintUtils.encode (v >>> 7) ++ post := by
        simp [List.append_assoc]
      rw [happ]
      have hrec := ih (v >>> 7) (by
          rw [Nat.shiftRight_eq_div_pow]
          exact Nat.div_lt_self (by omega) (by norm_num))
        (shift + 7) (2 ^ shift * (v &&& 0x7f) + w) (pre ++ [v &&& 0x7f ||| 0x80]) post o (br + 1)
        f (by simp [List.length_append]; omega) (by omega) (by omega)
        (by
          rw [Nat.shiftRight_eq_div_pow]
          have hstrict : v / 2 ^ 7 < 2 ^ (31 - shift - 7) := by
            apply Nat.div_lt_of_lt_mul
            calc v < 2 ^ (31 - shift) := hv
              _ = 2 ^ 7 * 2 ^ (31 - shift - 7) := by
                  rw [← pow_add]
                  congr 1
                  omega
          have heq : 31 - (shift + 7) = 31 - shift - 7 := by omega
          rw [heq]
          exact hstrict)
        (by
          have hx' : v &&& 0x7f ≤ 127 := by omega
          calc 2 ^ shift * (v &&& 0x7f) + w < 2 ^ shift * 127 + 2 ^ shift := by
                have := Nat.mul_le_mul_left (2 ^ shift) hx'
                omega
            _ ≤ 2 ^ (shift + 7) := by
                rw [pow_add]
                have hpos := Nat.two_pow_pos shift
                nlinarith)
        (by
          rw [VarintUtils.encode_cons hbig, hvmod] at hfuel
          simp at hfuel
          omega)
      rw [hrec]
      simp only [Except.ok.injEq, Prod.mk.injEq]
      constructor
      · have hsplit : v = (v &&& 0x7f) + 2 ^ 7 * (v >>> 7) := by
          rw [show (0x7f : Nat) = 2 ^ 7 - 1 from rfl, Nat.and_pow_two_sub_one_eq_mod,
            Nat.shiftRight_eq_div_pow]
          omega
        rw [Nat.cast_inj]
        calc 2 ^ shift * (v &&& 0x7f) + w + (v >>> 7) * 2 ^ (shift + 7)
            = w + ((v &&& 0x7f) + 2 ^ 7 * (v >>> 7)) * 2 ^ shift := by ring
          _ = w + v * 2 ^ shift := by rw [← hsplit]
      · simp
        omega
    · -- terminal byte
      push_neg at hbig
      rw [VarintUtils.encode_of_lt hbig, hvmod]
      obtain ⟨f, rfl⟩ : ∃ f, fuel = f + 1 := by
        rw [VarintUtils.encode_of_lt hbig] at hfuel
        exact ⟨fuel - 1, by simp at hfuel; omega⟩
      have hvand : v &&& 0x7f = v := by
        rw [show (0x7f : Nat) = 2 ^ 7 - 1 from rfl, Nat.and_pow_two_sub_one_eq_mod]
        omega
      have hbyte : (pre ++ [v &&& 0x7f] ++ post)[o + br]? = some (v &&& 0x7f) := by
        have h0 := getElem?_region pre [v &&& 0x7f] post 0 (by simp)
        rw [Nat.add_zero] at h0
        rw [ho, h0]
        simp
      rw [VarintUtils.decodeAux, hbyte]
      dsimp only
      rw [if_pos (lastByte_and128 v)]
      simp only [Except.ok.injEq, Prod.mk.injEq]
      constructor
      · have hvand2 : v &&& 127 &&& 127 = v := by rw [hvand, hvand]
        rw [hvand2]
        have hshl2 : jsShl ((v : Nat) : Int) ((shift : Nat) : Int) =
            ((v <<< shift : Nat) : Int) := by
          apply jsShl_small _ _ (by omega)
          rw [Nat.shiftLeft_eq]
          calc v * 2 ^ shift < 2 ^ (31 - shift) * 2 ^ shift :=
                Nat.mul_lt_mul_right (Nat.two_pow_pos shift) |>.2 hv
            _ = 2 ^ 31 := by
                rw [← pow_add]
                congr 1
                omega
        rw [hshl2]
        have hor2 : jsOr ((w : Nat) : Int) ((v <<< shift : Nat) : Int) =
            ((w ||| (v <<< shift) : Nat) : Int) := by
          apply jsOr_small _ _ (by
            calc w < 2 ^ shift := hw
              _ ≤ 2 ^ 28 := Nat.pow_le_pow_right (by norm_num) h28
              _ < 2 ^ 31 := by norm_num)
          rw [Nat.shiftLeft_eq]
          calc v * 2 ^ shift < 2 ^ (31 - shift) * 2 ^ shift :=
                Nat.mul_lt_mul_right (Nat.two_pow_pos shift) |>.2 hv
            _ = 2 ^ 31 := by
                rw [← pow_add]
                congr 1
                omega
        rw [hor2, lor_shiftLeft_eq_add hw, Nat.cast_inj]
        ring
      · simp

theorem decode_encode (pre post : List Nat) (v : Nat) (hv : v < 2 ^ 31) :
    VarintUtils.decode (pre ++ VarintUtils.encode v ++ post) pre.length =
      .ok ((v : Int), (VarintUtils.encode v).length) := by
  have hlen : (VarintUtils.encode v).length ≤ 5 := by
    rw [VarintUtils.encode_length (by omega), VarintUtils.getByteLength]
    by_cases h0 : v = 0
    · rw [if_pos h0]
      norm_num
    · rw [if_neg h0]
      have : Nat.log2 v < 31 := by
        rw [Nat.log2_lt h0]
        exact hv
      omega
  have h := decodeAux_encode v 0 0 pre post pre.length 0 5
    (by omega) (by norm_num) (by norm_num) (by norm_num; omega) (by norm_num) hlen
  rw [VarintUtils.decode]
  have hcast : ((0 : Nat) : Int) = (0 : Int) := rfl
  rw [← hcast, h]
  norm_num

/-- Decoding a delta sequence written by `encodeDeltaSequence`
reconstructs the original ascending values and reports the exact byte
count consumed. -/
theorem decodeDeltaSeqAux_rest (rest : List Nat) :
    ∀ (prev : Nat) (pre post : List Nat),
      (∀ v ∈ rest, v < 2 ^ 31) →
      List.Chain' (· ≤ ·) (prev :: rest) →
      VarintUtils.decodeDeltaSequenceAux (pre ++ VarintUtils.deltaSeqRest prev rest ++ post)
        pre.length rest.length (some (prev : Int)) =
      .ok (rest.map (fun v => ((v : Int))), (VarintUtils.deltaSeqRest prev rest).length) := by
  induction rest with
  | nil => intro prev pre post _ _; rfl
  | cons v rest' ih =>
    intro prev pre post hlt hchain
    have hle : prev ≤ v := (List.chain'_cons.1 hchain).1
    rw [VarintUtils.deltaSeqRest]
    have happ : pre ++ (VarintUtils.encode (v - prev) ++ VarintUtils.deltaSeqRest v rest') ++ post =
        pre ++ VarintUtils.encode (v - prev) ++ (VarintUtils.deltaSeqRest v rest' ++ post) := by
      simp [List.append_assoc]
    rw [happ]
    show VarintUtils.decodeDeltaSequenceAux _ pre.length (rest'.length + 1) (some (prev : Int)) = _
    rw [VarintUtils.decodeDeltaSequenceAux]
    rw [decode_encode pre (VarintUtils.deltaSeqRest v rest' ++ post) (v - prev)
      (lt_of_le_of_lt (Nat.sub_le v prev) (hlt v (by simp)))]
    dsimp only
    have hsum : (prev : Int) + ((v - prev : Nat) : Int) = ((v : Nat) : Int) := by
      rw [Nat.cast_sub hle]
      ring
    rw [hsum]
    have happ2 : pre ++ VarintUtils.encode (v - prev) ++ (VarintUtils.deltaSeqRest v rest' ++ post) =
        (pre ++ VarintUtils.encode (v - prev)) ++ VarintUtils.deltaSeqRest v rest' ++ post := by
      simp [List.append_assoc]
    rw [happ2]
    have hrec := ih v (pre ++ VarintUtils.encode (v - prev)) post
      (fun x hx => hlt x (by simp [hx]))
      (List.chain'_cons.1 hchain).2
    rw [List.length_append] at hrec
    rw [hrec]
    dsimp only
    congr 2
    simp

theorem decodeDeltaSequence_encodeDeltaSequence (values : List Nat) (pre post : List Nat)
    (hlt : ∀ v ∈ values, v < 2 ^ 31) (hchain : List.Chain' (· ≤ ·) values) :
    VarintUtils.decodeDeltaSequence (pre ++ VarintUtils.encodeDeltaSequence values ++ post)
      pre.length values.length =
      .ok (values.map (fun v => (v : Int)), (VarintUtils.encodeDeltaSequence values).length) := by
  cases values with
  | nil => rfl
  | cons first rest =>
    rw [VarintUtils.encodeDeltaSequence]
    have happ : pre ++ (VarintUtils.encode first ++ VarintUtils.deltaSeqRest first rest) ++ post =
        pre ++ VarintUtils.encode first ++ (VarintUtils.deltaSeqRest first rest ++ post) := by
      simp [List.append_assoc]
    rw [happ, VarintUtils.decodeDeltaSequence]
    show VarintUtils.decodeDeltaSequenceAux _ pre.length (rest.length + 1) none = _
    rw [VarintUtils.decodeDeltaSequenceAux]
    rw [decode_encode pre (VarintUtils.deltaSeqRest first rest ++ post) first
      (hlt first (by simp))]
    dsimp only
    have happ2 : pre ++ VarintUtils.encode first ++ (VarintUtils.deltaSeqRest first rest ++ post) =
        (pre ++ VarintUtils.encode first) ++ VarintUtils.deltaSeqRest first rest ++ post := by
      simp [List.append_assoc]
    rw [happ2]
    have hrec := decodeDeltaSeqAux_rest rest first (pre ++ VarintUtils.encode first) post
      (fun x hx => hlt x (by simp [hx])) hchain
    rw [List.length_append] at hrec
    rw [hrec]
    dsimp only
    congr 2
    simp

/-! ## Bitmap semantics: bit membership and popcount ranks -/

theorem and_two_pow_shift (x k : Nat) :
    x &&& (1 <<< k) = if x.testBit k then 1 <<< k else 0 := by
  have h2 : (1 <<< k : Nat) = 2 ^ k := by
    rw [Nat.shiftLeft_eq, one_mul]
  rw [h2]
  apply Nat.eq_of_testBit_eq
  intro j
  rw [Nat.testBit_and, Nat.testBit_two_pow]
  by_cases hj : k = j
  · subst hj
    cases hx : x.testBit k
    · simp [hx]
    · simp [hx, Nat.testBit_two_pow]
  · cases hx : x.testBit k <;>
      simp [hx, hj, Nat.zero_testBit, Nat.testBit_two_pow] <;>
      exact fun h => absurd h.symm (fun hh => hj hh.symm)

theorem bitmap_step_testBit (bm : List Nat) (i j k : Nat)
    (hj : j < bm.length) (hk : k < 8) (hbm : bm.length = 85) :
    ((((if i / 8 < 85 then
        bm.set (i / 8) ((bm.getD (i / 8) 0) ||| (1 <<< (i % 8)))
      else bm)).getD j 0).testBit k) =
      ((bm.getD j 0).testBit k || decide (i = 8 * j + k)) := by
  by_cases hc : i / 8 < 85
  · rw [if_pos hc]
    by_cases hij : i / 8 = j
    · have hset : (bm.set (i / 8) ((bm.getD (i / 8) 0) ||| (1 <<< (i % 8)))).getD j 0 =
          (bm.getD (i / 8) 0) ||| (1 <<< (i % 8)) := by
        subst hij
        rw [List.getD_eq_getElem?_getD, List.getElem?_set_self (by omega)]
        rfl
      rw [hset, hij, Nat.testBit_or]
      have h1 : ((1 <<< (i % 8) : Nat)).testBit k = decide (i % 8 = k) := by
        rw [show (1 <<< (i % 8) : Nat) = 2 ^ (i % 8) from by rw [Nat.shiftLeft_eq, one_mul],
          Nat.testBit_two_pow]
      rw [h1]
      congr 1
      rw [decide_eq_decide]
      omega
    · have hset : (bm.set (i / 8) ((bm.getD (i / 8) 0) ||| (1 <<< (i % 8)))).getD j 0 =
          bm.getD j 0 := by
        rw [List.getD_eq_getElem?_getD, List.getElem?_set_ne (by omega),
          ← List.getD_eq_getElem?_getD]
      rw [hset]
      have : ¬ (i = 8 * j + k) := by omega
      simp [this]
  · rw [if_neg hc]
    have : ¬ (i = 8 * j + k) := by omega
    simp [this]

theorem bitmap_fold_testBit (l : List Nat) :
    ∀ (bm : List Nat) (j k : Nat), j < bm.length → k < 8 → bm.length = 85 →
    (((l.foldl (fun bm idx =>
        if idx / 8 < 85 then
          bm.set (idx / 8) ((bm.getD (idx / 8) 0) ||| (1 <<< (idx % 8)))
        else bm) bm).getD j 0).testBit k) =
      ((bm.getD j 0).testBit k || decide ((8 * j + k) ∈ l)) := by
  induction l with
  | nil => intro bm j k _ _ _; simp
  | cons i rest ih =>
    intro bm j k hj hk hbm
    rw [List.foldl_cons]
    have hlen : (if i / 8 < 85 then
        bm.set (i / 8) ((bm.getD (i / 8) 0) ||| (1 <<< (i % 8)))
      else bm).length = bm.length := by
      by_cases hc : i / 8 < 85
      · rw [if_pos hc, List.length_set]
      · rw [if_neg hc]
    rw [ih _ j k (by omega) hk (by omega), bitmap_step_testBit bm i j k hj hk hbm]
    by_cases h1 : i = 8 * j + k <;> by_cases h2 : (8 * j + k) ∈ rest <;>
      simp [h1, h2, List.mem_cons, eq_comm]

theorem testBit_bitmapOf (indices : List Nat) (j k : Nat) (hj : j < 85) (hk : k < 8) :
    (((bitmapOf indices).getD j 0).testBit k) = decide ((8 * j + k) ∈ indices) := by
  rw [bitmapOf, bitmap_fold_testBit indices (List.replicate 85 0) j k
    (by simpa using hj) hk (by simp)]
  have hrep : ((List.replicate 85 0 : List Nat).getD j 0) = 0 := by
    rw [List.getD_eq_getElem?_getD, List.getElem?_replicate, if_pos hj]
    rfl
  rw [hrep]
  simp [Nat.zero_testBit]

theorem bitmapOf_getD_lt (indices : List Nat) (j : Nat) :
    (bitmapOf indices).getD j 0 < 256 := by
  have key : ∀ (l bm : List Nat), (∀ x ∈ bm, x < 256) →
      ∀ x ∈ (l.foldl (fun bm idx =>
        if idx / 8 < 85 then
          bm.set (idx / 8) ((bm.getD (idx / 8) 0) ||| (1 <<< (idx % 8)))
        else bm) bm), x < 256 := by
    intro l
    induction l with
    | nil => intro bm h x hx; exact h x hx
    | cons i rest ih =>
      intro bm h x hx
      rw [List.foldl_cons] at hx
      refine ih _ ?_ x hx
      intro y hy
      by_cases hc : i / 8 < 85
      · rw [if_pos hc] at hy
        rcases List.mem_or_eq_of_mem_set hy with hmem | rfl
        · exact h y hmem
        · have hold : bm.getD (i / 8) 0 < 256 := by
            rcases Nat.lt_or_ge (i / 8) bm.length with hlt | hge
            · rw [List.getD_eq_getElem _ _ hlt]
              exact h _ (List.getElem_mem hlt)
            · rw [List.getD_eq_default _ _ hge]
              norm_num
          have hshift : (1 <<< (i % 8) : Nat) < 256 := by
            rw [Nat.shiftLeft_eq, one_mul]
            calc (2 : Nat) ^ (i % 8) ≤ 2 ^ 7 :=
                  Nat.pow_le_pow_right (by norm_num) (by omega)
              _ < 256 := by norm_num
          have := Nat.or_lt_two_pow (by omega : bm.getD (i / 8) 0 < 2 ^ 8)
            (by omega : (1 <<< (i % 8) : Nat) < 2 ^ 8)
          omega
      · rw [if_neg hc] at hy
        exact h y hy
  rcases Nat.lt_or_ge j (bitmapOf indices).length with hlt | hge
  · rw [List.getD_eq_getElem _ _ hlt]
    exact key indices (List.replicate 85 0) (by
      intro x hx
      rw [List.eq_of_mem_replicate hx]
      norm_num) _ (List.getElem_mem hlt)
  · rw [List.getD_eq_default _ _ hge]
    norm_num

set_option maxHeartbeats 1000000 in
set_option maxRecDepth 10000 in
theorem popcount8_eq : ∀ v < 256,
    popcount8 v = ((List.range 8).filter (fun k => v.testBit k)).length := by
  decide

theorem countP_or_disjoint {α : Type} (l : List α) (p q : α → Bool)
    (h : ∀ a, ¬(p a = true ∧ q a = true)) :
    l.countP (fun a => p a || q a) = l.countP p + l.countP q := by
  induction l with
  | nil => simp
  | cons a t ih =>
    rw [List.countP_cons, List.countP_cons, List.countP_cons, ih]
    have := h a
    cases hp : p a <;> cases hq : q a <;> simp [hp, hq] at this ⊢ <;> omega

theorem filter_range_bridge (indices : List Nat) (hnd : indices.Nodup) (j : Nat)
    (p : Nat → Bool) :
    ((List.range 8).filter (fun k => decide ((8 * j + k) ∈ indices) && p k)).length =
      indices.countP (fun v => decide (v / 8 = j) && p (v % 8)) := by
  have hperm : List.Perm
      (((List.range 8).filter (fun k => decide ((8 * j + k) ∈ indices) && p k)).map
        (fun k => 8 * j + k))
      (indices.filter (fun v => decide (v / 8 = j) && p (v % 8))) := by
    rw [List.perm_ext_iff_of_nodup]
    · intro x
      constructor
      · intro hx
        obtain ⟨k, hk, rfl⟩ := List.mem_map.1 hx
        obtain ⟨hkr, hkp⟩ := List.mem_filter.1 hk
        simp only [List.mem_range] at hkr
        simp only [Bool.and_eq_true, decide_eq_true_eq] at hkp
        refine List.mem_filter.2 ⟨hkp.1, ?_⟩
        simp only [Bool.and_eq_true, decide_eq_true_eq]
        constructor
        · omega
        · have hmod : (8 * j + k) % 8 = k := by omega
          rw [hmod]
          exact hkp.2
      · intro hx
        obtain ⟨hxi, hxp⟩ := List.mem_filter.1 hx
        simp only [Bool.and_eq_true, decide_eq_true_eq] at hxp
        refine List.mem_map.2 ⟨x % 8, ?_, by omega⟩
        refine List.mem_filter.2 ⟨by simp only [List.mem_range]; omega, ?_⟩
        simp only [Bool.and_eq_true, decide_eq_true_eq]
        have hx8 : 8 * j + x % 8 = x := by omega
        rw [hx8]
        exact ⟨hxi, hxp.2⟩
    · refine List.Nodup.map ?_ (List.Nodup.filter _ (List.nodup_range 8))
      intro a b hab
      simpa using hab
    · exact List.Nodup.filter _ hnd
  have h1 := hperm.length_eq
  rw [List.length_map] at h1
  rw [h1, List.countP_eq_length_filter]

theorem popcount_full_byte (indices : List Nat) (hnd : indices.Nodup) (j : Nat)
    (hj : j < 85) :
    popcount8 ((bitmapOf indices).getD j 0) =
      indices.countP (fun v => decide (v / 8 = j)) := by
  rw [popcount8_eq _ (bitmapOf_getD_lt indices j)]
  have hcong : (List.range 8).filter (fun k => ((bitmapOf indices).getD j 0).testBit k) =
      (List.range 8).filter (fun k => decide ((8 * j + k) ∈ indices) && true) := by
    apply List.filter_congr
    intro k hk
    simp only [List.mem_range] at hk
    rw [testBit_bitmapOf indices j k hj hk]
    simp
  rw [hcong, filter_range_bridge indices hnd j (fun _ => true)]
  apply List.countP_congr
  intro v _
  simp

theorem popcount_partial_byte (indices : List Nat) (hnd : indices.Nodup) (j b : Nat)
    (hj : j < 85) (hb : b < 8) :
    popcount8 ((bitmapOf indices).getD j 0 &&& ((1 <<< b) - 1)) =
      indices.countP (fun v => decide (v / 8 = j) && decide (v % 8 < b)) := by
  have hmask : (bitmapOf indices).getD j 0 &&& ((1 <<< b) - 1) =
      (bitmapOf indices).getD j 0 % 2 ^ b := by
    rw [show ((1 <<< b) - 1 : Nat) = 2 ^ b - 1 from by rw [Nat.shiftLeft_eq, one_mul],
      Nat.and_pow_two_sub_one_eq_mod]
  rw [hmask, popcount8_eq _ (lt_of_le_of_lt (Nat.mod_le _ _) (bitmapOf_getD_lt indices j))]
  have hcong : (List.range 8).filter
      (fun k => ((bitmapOf indices).getD j 0 % 2 ^ b).testBit k) =
      (List.range 8).filter (fun k => decide ((8 * j + k) ∈ indices) && decide (k < b)) := by
    apply List.filter_congr
    intro k hk
    simp only [List.mem_range] at hk
    rw [Nat.testBit_mod_two_pow, testBit_bitmapOf indices j k hj hk]
    rw [Bool.and_comm]
  rw [hcong, filter_range_bridge indices hnd j (fun k => decide (k < b))]

theorem sum_popcount_range (indices : List Nat) (hnd : indices.Nodup) :
    ∀ (b : Nat), b ≤ 85 →
    ((List.range b).map (fun i => popcount8 ((bitmapOf indices).getD i 0))).sum =
      indices.countP (fun v => decide (v / 8 < b)) := by
  intro b
  induction b with
  | zero =>
    intro _
    simp [List.countP_eq_length_filter]
  | succ n ih =>
    intro hb
    rw [List.range_succ, List.map_append, List.sum_append]
    rw [ih (by omega)]
    simp only [List.map_cons, List.map_nil, List.sum_cons, List.sum_nil]
    rw [popcount_full_byte indices hnd n (by omega)]
    have hsplit : indices.countP (fun v => decide (v / 8 < n + 1)) =
        indices.countP (fun v => decide (v / 8 < n) || decide (v / 8 = n)) := by
      apply List.countP_congr
      intro v _
      by_cases h1 : v / 8 < n <;> by_cases h2 : v / 8 = n <;>
        simp [h1, h2] <;> omega
    rw [hsplit, countP_or_disjoint _ _ _ (by
      intro a
      simp only [decide_eq_true_eq, not_and]
      omega)]
    omega

theorem bitmap_rank_eq (indices : List Nat) (hnd : indices.Nodup) (u : Nat)
    (hu : u / 8 < 85) :
    ((List.range (u / 8)).map (fun i => popcount8 ((bitmapOf indices).getD i 0))).sum +
      popcount8 ((bitmapOf indices).getD (u / 8) 0 &&& ((1 <<< (u % 8)) - 1)) =
      indices.countP (fun v => decide (v < u)) := by
  rw [sum_popcount_range indices hnd (u / 8) (by omega),
    popcount_partial_byte indices hnd (u / 8) (u % 8) hu (by omega)]
  rw [show indices.countP (fun v => decide (v < u)) =
      indices.countP (fun v => decide (v / 8 < u / 8) ||
        (decide (v / 8 = u / 8) && decide (v % 8 < u % 8))) from by
    apply List.countP_congr
    intro v _
    by_cases h1 : v / 8 < u / 8 <;> by_cases h2 : v / 8 = u / 8 <;>
      by_cases h3 : v % 8 < u % 8 <;> simp [h1, h2, h3] <;> omega]
  rw [countP_or_disjoint _ _ _ (by
    intro a
    simp only [Bool.and_eq_true, decide_eq_true_eq, not_and]
    omega)]

/-! ## `checkBitmapUnit` on a bitmap placed at its units offset -/

theorem getElem?_eq_some_getD {l : List Nat} {j : Nat} (hj : j < l.length) :
    l[j]? = some (l.getD j 0) := by
  rw [List.getElem?_eq_getElem hj, List.getD_eq_getElem _ _ hj]

theorem checkBitmapUnit_eq (pre post indices : List Nat) (oe : OutwardIndexEntry)
    (se : SectorEntry) (u : Nat)
    (hoff : oe.sectorIndexOffset + se.unitsRelOff = pre.length)
    (hnd : indices.Nodup) (hu : u < 680) :
    checkBitmapUnit (pre ++ bitmapOf indices ++ post) oe se u =
      (if u ∈ indices then some (indices.countP (fun v => decide (v < u))) else none) := by
  rw [checkBitmapUnit, hoff]
  have hdrop : ((pre ++ bitmapOf indices ++ post).drop pre.length) =
      bitmapOf indices ++ post := by
    rw [List.append_assoc, List.drop_left]
  have htake : ((bitmapOf indices ++ post).take 85) = bitmapOf indices :=
    List.take_left' (bitmapOf_length indices)
  rw [hdrop, htake]
  have hbi : u / 8 < 85 := by omega
  rw [if_neg (by omega : ¬ 85 ≤ u / 8)]
  have hlen : u / 8 < (bitmapOf indices).length := by
    rw [bitmapOf_length]; exact hbi
  rw [getElem?_eq_some_getD hlen]
  dsimp only
  have hbit : (bitmapOf indices).getD (u / 8) 0 &&& (1 <<< (u % 8)) =
      (if ((bitmapOf indices).getD (u / 8) 0).testBit (u % 8) then (1 <<< (u % 8)) else 0) :=
    and_two_pow_shift _ _
  have htb : (((bitmapOf indices).getD (u / 8) 0).testBit (u % 8)) =
      decide (u ∈ indices) := by
    rw [testBit_bitmapOf indices (u / 8) (u % 8) hbi (by omega)]
    congr 1
    rw [show 8 * (u / 8) + u % 8 = u by omega]
  by_cases hmem : u ∈ indices
  · rw [if_pos hmem]
    have htrue : ((bitmapOf indices).getD (u / 8) 0).testBit (u % 8) = true := by
      rw [htb]; exact decide_eq_true hmem
    rw [hbit, htrue, if_pos rfl]
    rw [if_neg (by
      intro h0
      have hsh : (1 <<< (u % 8) : Nat) = 2 ^ (u % 8) := by rw [Nat.shiftLeft_eq, one_mul]
      rw [hsh] at h0
      have := Nat.two_pow_pos (u % 8)
      omega)]
    congr 1
    have hsum : ((List.range (u / 8)).map (fun i =>
        match (bitmapOf indices)[i]? with
        | some b => popcount8 b
        | none => 0)).sum =
        ((List.range (u / 8)).map (fun i => popcount8 ((bitmapOf indices).getD i 0))).sum := by
      congr 1
      apply List.map_congr_left
      intro i hi
      simp only [List.mem_range] at hi
      rw [getElem?_eq_some_getD (by rw [bitmapOf_length]; omega)]
    rw [hsum]
    exact bitmap_rank_eq indices hnd u hbi
  · rw [if_neg hmem]
    have hfalse : ((bitmapOf indices).getD (u / 8) 0).testBit (u % 8) = false := by
      rw [htb]; exact decide_eq_false hmem
    rw [hbit, hfalse]
    simp

theorem countP_lt_of_sorted_getElem (indices : List Nat)
    (hs : List.Pairwise (· < ·) indices) (r : Nat) (hr : r < indices.length) :
    indices.countP (fun v => decide (v < indices[r])) = r := by
  have hpg := List.pairwise_iff_getElem.1 hs
  obtain ⟨x, hxval⟩ : ∃ x, indices[r] = x := ⟨_, rfl⟩
  rw [hxval]
  have hsplit : indices = indices.take r ++ indices.drop r :=
    (List.take_append_drop r indices).symm
  conv_lhs => rw [hsplit]
  rw [List.countP_append]
  have htlen : (indices.take r).length = r := by
    rw [List.length_take]
    omega
  have htake : (indices.take r).countP (fun v => decide (v < x)) = r := by
    have hall : ∀ a ∈ indices.take r, (fun v => decide (v < x)) a = true := by
      intro a ha
      obtain ⟨i, hi, hival⟩ := List.getElem_of_mem ha
      have hilen : i < r := by
        rw [htlen] at hi
        exact hi
      rw [List.getElem_take] at hival
      subst hival
      rw [← hxval]
      exact decide_eq_true (hpg i r (by omega) hr hilen)
    calc (indices.take r).countP (fun v => decide (v < x)) = (indices.take r).length :=
          List.countP_eq_length.2 hall
      _ = r := htlen
  have hdrop : (indices.drop r).countP (fun v => decide (v < x)) = 0 := by
    apply List.countP_eq_zero.2
    intro a ha
    obtain ⟨j, hj, hjval⟩ := List.getElem_of_mem ha
    rw [List.getElem_drop] at hjval
    subst hjval
    simp only [decide_eq_true_eq, not_lt]
    rw [← hxval]
    rcases Nat.eq_or_lt_of_le (Nat.le_add_right r j) with heq | hlt
    · obtain rfl : j = 0 := by omega
      simp
    · exact Nat.le_of_lt (hpg r (r + j) hr (by
        rw [List.length_drop] at hj
        omega) hlt)
  rw [htake, hdrop]
  omega

/-! ## Insertion sort and string order: permutation/sortedness lemmas -/

theorem perm_insertSorted {α : Type} (lt : α → α → Bool) (x : α) (l : List α) :
    List.Perm (insertSorted lt x l) (x :: l) := by
  induction l with
  | nil => exact List.Perm.refl _
  | cons y ys ih =>
    rw [insertSorted]
    by_cases hc : lt y x = true
    · rw [if_pos hc]
      exact List.Perm.trans (List.Perm.cons y ih) (List.Perm.swap x y ys)
    · rw [if_neg hc]

theorem perm_sortBy {α : Type} (lt : α → α → Bool) (l : List α) :
    List.Perm (sortBy lt l) l := by
  induction l with
  | nil => exact List.Perm.refl _
  | cons x xs ih =>
    rw [sortBy]
    exact List.Perm.trans (perm_insertSorted lt x (sortBy lt xs)) (List.Perm.cons x ih)

theorem pairwise_insertSorted {α : Type} (lt : α → α → Bool)
    (hasym : ∀ a b, lt a b = true → lt b a = false)
    (hletrans : ∀ a b c, lt b a = false → lt c b = false → lt c a = false)
    (x : α) (l : List α) (hl : List.Pairwise (fun a b => lt b a = false) l) :
    List.Pairwise (fun a b => lt b a = false) (insertSorted lt x l) := by
  induction l with
  | nil => exact List.pairwise_singleton _ x
  | cons y ys ih =>
    rw [insertSorted]
    obtain ⟨hy, hys⟩ := List.pairwise_cons.1 hl
    by_cases hc : lt y x = true
    · rw [if_pos hc]
      refine List.pairwise_cons.2 ⟨?_, ih hys⟩
      intro z hz
      have hz' := (perm_insertSorted lt x ys).mem_iff.1 hz
      rcases List.mem_cons.1 hz' with rfl | hzys
      · exact hasym y z hc
      · exact hy z hzys
    · rw [if_neg hc]
      refine List.pairwise_cons.2 ⟨?_, hl⟩
      intro z hz
      rcases List.mem_cons.1 hz with rfl | hzys
      · exact Bool.eq_false_iff.2 hc
      · exact hletrans x y z (Bool.eq_false_iff.2 hc) (hy z hzys)

theorem pairwise_sortBy {α : Type} (lt : α → α → Bool)
    (hasym : ∀ a b, lt a b = true → lt b a = false)
    (hletrans : ∀ a b c, lt b a = false → lt c b = false → lt c a = false)
    (l : List α) :
    List.Pairwise (fun a b => lt b a = false) (sortBy lt l) := by
  induction l with
  | nil => exact List.Pairwise.nil
  | cons x xs ih =>
    rw [sortBy]
    exact pairwise_insertSorted lt hasym hletrans x _ ih


theorem strCmp_eq_iff : ∀ a b : Str, strCmp a b = Ordering.eq ↔ a = b := by
  intro a
  induction a with
  | nil =>
    intro b
    cases b with
    | nil => simp [strCmp]
    | cons y ys => simp [strCmp]
  | cons x xs ih =>
    intro b
    cases b with
    | nil => simp [strCmp]
    | cons y ys =>
      rw [strCmp]
      by_cases h1 : x.toNat < y.toNat
      · rw [if_pos h1]
        constructor
        · intro h; cases h
        · intro h
          obtain ⟨rfl, rfl⟩ : x = y ∧ xs = ys := by
            injection h with h1 h2; exact ⟨h1, h2⟩
          exact absurd h1 (lt_irrefl _)
      · rw [if_neg h1]
        by_cases h2 : y.toNat < x.toNat
        · rw [if_pos h2]
          constructor
          · intro h; cases h
          · intro h
            obtain ⟨rfl, rfl⟩ : x = y ∧ xs = ys := by
              injection h with h1 h2; exact ⟨h1, h2⟩
            exact absurd h2 (lt_irrefl _)
        · rw [if_neg h2]
          have htn : x.toNat = y.toNat := by omega
          have hxy : x = y := Char.ext (UInt32.toNat.inj htn)
          subst hxy
          rw [ih ys]
          constructor
          · intro h; rw [h]
          · intro h
            injection h

theorem strCmp_lt_asym : ∀ a b : Str, strCmp a b = Ordering.lt →
    strCmp b a = Ordering.gt := by
  intro a
  induction a with
  | nil =>
    intro b h
    cases b with
    | nil => cases h
    | cons y ys => rfl
  | cons x xs ih =>
    intro b h
    cases b with
    | nil => cases h
    | cons y ys =>
      rw [strCmp] at h ⊢
      by_cases h1 : x.toNat < y.toNat
      · rw [if_neg (by omega : ¬ y.toNat < x.toNat), if_pos h1]
      · rw [if_neg h1] at h
        by_cases h2 : y.toNat < x.toNat
        · rw [if_pos h2] at h
          cases h
        · rw [if_neg h2] at h
          rw [if_neg h2, if_neg h1]
          exact ih ys h

theorem strCmp_lt_trans : ∀ a b c : Str, strCmp a b = Ordering.lt →
    strCmp b c = Ordering.lt → strCmp a c = Ordering.lt := by
  intro a
  induction a with
  | nil =>
    intro b c hab hbc
    cases c with
    | nil =>
      cases b with
      | nil => cases hab
      | cons y ys => cases hbc
    | cons z zs => rfl
  | cons x xs ih =>
    intro b c hab hbc
    cases b with
    | nil => cases hab
    | cons y ys =>
      cases c with
      | nil => cases hbc
      | cons z zs =>
        rw [strCmp] at hab hbc ⊢
        by_cases h1 : x.toNat < y.toNat
        · by_cases h2 : y.toNat < z.toNat
          · rw [if_pos (by omega : x.toNat < z.toNat)]
          · rw [if_neg h2] at hbc
            by_cases h3 : z.toNat < y.toNat
            · rw [if_pos h3] at hbc
              cases hbc
            · rw [if_pos (by omega : x.toNat < z.toNat)]
        · rw [if_neg h1] at hab
          by_cases h4 : y.toNat < x.toNat
          · rw [if_pos h4] at hab
            cases hab
          · rw [if_neg h4] at hab
            by_cases h2 : y.toNat < z.toNat
            · rw [if_pos (by omega : x.toNat < z.toNat)]
            · rw [if_neg h2] at hbc
              by_cases h3 : z.toNat < y.toNat
              · rw [if_pos h3] at hbc
                cases hbc
              · rw [if_neg h3] at hbc
                rw [if_neg (by omega : ¬ x.toNat < z.toNat),
                  if_neg (by omega : ¬ z.toNat < x.toNat)]
                exact ih ys zs hab hbc

theorem strLt_iff_strCmp : ∀ a b : Str, strLt a b = true ↔ strCmp a b = Ordering.lt := by
  intro a
  induction a with
  | nil =>
    intro b
    cases b with
    | nil => simp [strLt, strCmp]
    | cons y ys => simp [strLt, strCmp]
  | cons x xs ih =>
    intro b
    cases b with
    | nil => simp [strLt, strCmp]
    | cons y ys =>
      rw [strLt, strCmp]
      by_cases h1 : x.toNat < y.toNat
      · rw [if_pos h1, if_pos h1]
        simp
      · rw [if_neg h1, if_neg h1]
        by_cases h2 : y.toNat < x.toNat
        · rw [if_pos h2, if_pos h2]
          simp
        · rw [if_neg h2, if_neg h2]
          exact ih ys

theorem strCmp_total : ∀ a b : Str, strCmp a b = Ordering.lt ∨ strCmp a b = Ordering.eq ∨
    strCmp a b = Ordering.gt := by
  intro a b
  cases h : strCmp a b
  · exact Or.inl rfl
  · exact Or.inr (Or.inl rfl)
  · exact Or.inr (Or.inr rfl)

theorem strLt_asym (a b : Str) (h : strLt a b = true) : strLt b a = false := by
  rw [strLt_iff_strCmp] at h
  have hgt := strCmp_lt_asym a b h
  rw [Bool.eq_false_iff]
  intro hba
  rw [strLt_iff_strCmp] at hba
  rw [hba] at hgt
  cases hgt

theorem strCmp_gt_lt : ∀ a b : Str, strCmp a b = Ordering.gt →
    strCmp b a = Ordering.lt := by
  intro a
  induction a with
  | nil =>
    intro b h
    cases b with
    | nil => cases h
    | cons y ys => cases h
  | cons x xs ih =>
    intro b h
    cases b with
    | nil => rfl
    | cons y ys =>
      rw [strCmp] at h ⊢
      by_cases h1 : x.toNat < y.toNat
      · rw [if_pos h1] at h
        cases h
      · rw [if_neg h1] at h
        by_cases h2 : y.toNat < x.toNat
        · rw [if_pos h2]
        · rw [if_neg h2] at h
          rw [if_neg h2, if_neg h1]
          exact ih ys h

theorem strLt_letrans (a b c : Str) (hba : strLt b a = false) (hcb : strLt c b = false) :
    strLt c a = false := by
  rw [Bool.eq_false_iff]
  intro hca
  rw [strLt_iff_strCmp] at hca
  rcases strCmp_total b a with hlt2 | heq2 | hgt2
  · rw [← strLt_iff_strCmp] at hlt2
    rw [hlt2] at hba
    cases hba
  · rw [strCmp_eq_iff] at heq2
    subst heq2
    rw [← strLt_iff_strCmp] at hca
    rw [hca] at hcb
    cases hcb
  · have hab : strCmp a b = Ordering.lt := strCmp_gt_lt b a hgt2
    have hcb2 : strCmp c b = Ordering.lt := strCmp_lt_trans c a b hca hab
    rw [← strLt_iff_strCmp] at hcb2
    rw [hcb2] at hcb
    cases hcb

/-! ## Binary search correctness over the sorted outward index -/

theorem findOutwardEntryAux_found (index : List OutwardIndexEntry)
    (hs : List.Pairwise (fun e1 e2 => strCmp e1.outwardCode e2.outwardCode = Ordering.lt) index)
    (o : Str) (r : Nat) (hr : r < index.length) (ho : index[r].outwardCode = o) :
    ∀ (fuel : Nat) (left right : Int),
      0 ≤ left → right < (index.length : Int) →
      left ≤ (r : Int) → (r : Int) ≤ right →
      (right - left + 1).toNat < fuel →
      findOutwardEntryAux index o fuel left right = some index[r] := by
  have hpg := List.pairwise_iff_getElem.1 hs
  intro fuel
  induction fuel with
  | zero => intro left right _ _ _ _ hsz; omega
  | succ f ih =>
    intro left right hl hrgt hlr hrr hsz
    rw [findOutwardEntryAux]
    rw [if_pos (by omega : left ≤ right)]
    dsimp only
    have hfd : Int.fdiv (left + right) 2 = (left + right) / 2 :=
      Int.fdiv_eq_ediv _ (by omega)
    have hmid1 : left ≤ Int.fdiv (left + right) 2 := by rw [hfd]; omega
    have hmid2 : Int.fdiv (left + right) 2 ≤ right := by rw [hfd]; omega
    generalize hgm : (Int.fdiv (left + right) 2).toNat = m
    have hmidlen : m < index.length := by omega
    have hmint : Int.fdiv (left + right) 2 = (m : Int) := by omega
    rw [List.getElem?_eq_getElem hmidlen]
    dsimp only
    cases hcmp : strCmp o (index[m].outwardCode) with
    | eq =>
      rw [strCmp_eq_iff] at hcmp
      have hmr : m = r := by
        by_contra hne
        rcases Nat.lt_or_ge m r with hlt | hge
        · have := hpg m r hmidlen hr hlt
          rw [ho, ← hcmp] at this
          rw [(strCmp_eq_iff _ _).2 rfl] at this
          cases this
        · have hgt : r < m := by omega
          have := hpg r m hr hmidlen hgt
          rw [ho, ← hcmp] at this
          rw [(strCmp_eq_iff _ _).2 rfl] at this
          cases this
      subst hmr
      rfl
    | lt =>
      -- o < code m: the target index r must be < m
      have hrm : r < m := by
        rcases Nat.lt_or_ge r m with hlt | hge
        · exact hlt
        · exfalso
          rcases Nat.eq_or_lt_of_le hge with heq | hgt
          · subst heq
            rw [ho] at hcmp
            rw [(strCmp_eq_iff _ _).2 rfl] at hcmp
            cases hcmp
          · have := hpg m r hmidlen hr hgt
            rw [ho] at this
            have h2 := strCmp_lt_trans o index[m].outwardCode o hcmp this
            rw [(strCmp_eq_iff _ _).2 rfl] at h2
            cases h2
      exact ih left (Int.fdiv (left + right) 2 - 1) hl (by omega) hlr (by omega) (by omega)
    | gt =>
      have hrm : m < r := by
        rcases Nat.lt_or_ge m r with hlt | hge
        · exact hlt
        · exfalso
          rcases Nat.eq_or_lt_of_le hge with heq | hgt
          · subst heq
            rw [ho] at hcmp
            rw [(strCmp_eq_iff _ _).2 rfl] at hcmp
            cases hcmp
          · have := hpg r m hr hmidlen hgt
            rw [ho] at this
            have hol := strCmp_gt_lt o index[m].outwardCode hcmp
            have h2 := strCmp_lt_trans index[m].outwardCode o index[m].outwardCode hol this
            rw [(strCmp_eq_iff _ _).2 rfl] at h2
            cases h2
      exact ih (Int.fdiv (left + right) 2 + 1) right (by omega) hrgt (by omega) hrr (by omega)

theorem findOutwardEntryAux_absent (index : List OutwardIndexEntry)
    (o : Str) (habs : ∀ e ∈ index, e.outwardCode ≠ o) :
    ∀ (fuel : Nat) (left right : Int),
      0 ≤ left → right < (index.length : Int) →
      findOutwardEntryAux index o fuel left right = none := by
  intro fuel
  induction fuel with
  | zero => intro left right _ _; rfl
  | succ f ih =>
    intro left right hl hrgt
    rw [findOutwardEntryAux]
    by_cases hc : left ≤ right
    · rw [if_pos hc]
      dsimp only
      have hfd : Int.fdiv (left + right) 2 = (left + right) / 2 :=
        Int.fdiv_eq_ediv _ (by omega)
      generalize hgm : (Int.fdiv (left + right) 2).toNat = m
      have hmidlen : m < index.length := by omega
      rw [List.getElem?_eq_getElem hmidlen]
      dsimp only
      cases hcmp : strCmp o (index[m].outwardCode) with
      | eq =>
        rw [strCmp_eq_iff] at hcmp
        exact absurd hcmp.symm (habs _ (List.getElem_mem hmidlen))
      | lt => exact ih left (Int.fdiv (left + right) 2 - 1) hl (by omega)
      | gt => exact ih (Int.fdiv (left + right) 2 + 1) right (by omega) hrgt
    · rw [if_neg hc]

theorem findOutwardEntry_found (index : List OutwardIndexEntry)
    (hs : List.Pairwise (fun e1 e2 => strCmp e1.outwardCode e2.outwardCode = Ordering.lt) index)
    (o : Str) (r : Nat) (hr : r < index.length) (ho : index[r].outwardCode = o) :
    findOutwardEntry index o = some index[r] := by
  rw [findOutwardEntry]
  exact findOutwardEntryAux_found index hs o r hr ho (index.length + 1) 0
    ((index.length : Int) - 1) (by omega) (by omega) (by omega) (by omega) (by omega)

theorem findOutwardEntry_absent (index : List OutwardIndexEntry)
    (o : Str) (habs : ∀ e ∈ index, e.outwardCode ≠ o) :
    findOutwardEntry index o = none := by
  rw [findOutwardEntry]
  exact findOutwardEntryAux_absent index o habs (index.length + 1) 0
    ((index.length : Int) - 1) (by omega) (by omega)


theorem findListUnitAux_found (values : List Int)
    (hs : List.Pairwise (· < ·) values) (u : Nat) (r : Nat) (hr : r < values.length)
    (hval : values[r] = (u : Int)) :
    ∀ (fuel : Nat) (left right : Int),
      0 ≤ left → right < (values.length : Int) →
      left ≤ (r : Int) → (r : Int) ≤ right →
      (right - left + 1).toNat < fuel →
      findListUnitAux values u fuel left right = some r := by
  have hpg := List.pairwise_iff_getElem.1 hs
  intro fuel
  induction fuel with
  | zero => intro left right _ _ _ _ hsz; omega
  | succ f ih =>
    intro left right hl hrgt hlr hrr hsz
    rw [findListUnitAux]
    rw [if_pos (by omega : left ≤ right)]
    dsimp only
    have hfd : Int.fdiv (left + right) 2 = (left + right) / 2 :=
      Int.fdiv_eq_ediv _ (by omega)
    have hmid1 : left ≤ Int.fdiv (left + right) 2 := by rw [hfd]; omega
    have hmid2 : Int.fdiv (left + right) 2 ≤ right := by rw [hfd]; omega
    generalize hgm : (Int.fdiv (left + right) 2).toNat = m
    have hmidlen : m < values.length := by omega
    have hmint : Int.fdiv (left + right) 2 = (m : Int) := by omega
    rw [List.getElem?_eq_getElem hmidlen]
    dsimp only
    by_cases heq : values[m] = (u : Int)
    · rw [if_pos heq]
      have hmr : m = r := by
        by_contra hne
        rcases Nat.lt_or_ge m r with hlt | hge
        · have := hpg m r hmidlen hr hlt
          rw [heq, hval] at this
          exact absurd this (lt_irrefl _)
        · have hgt : r < m := by omega
          have := hpg r m hr hmidlen hgt
          rw [heq, hval] at this
          exact absurd this (lt_irrefl _)
      rw [hmr]
    · rw [if_neg heq]
      by_cases hlt : values[m] < (u : Int)
      · rw [if_pos hlt]
        have hrm : m < r := by
          rcases Nat.lt_or_ge m r with h1 | h2
          · exact h1
          · exfalso
            rcases Nat.eq_or_lt_of_le h2 with he | hgt
            · subst he
              rw [hval] at hlt
              exact absurd hlt (lt_irrefl _)
            · have := hpg r m hr hmidlen hgt
              rw [hval] at this
              omega
        exact ih (Int.fdiv (left + right) 2 + 1) right (by omega) hrgt (by omega) hrr (by omega)
      · rw [if_neg hlt]
        have hrm : r < m := by
          rcases Nat.lt_or_ge r m with h1 | h2
          · exact h1
          · exfalso
            rcases Nat.eq_or_lt_of_le h2 with he | hgt
            · subst he
              rw [hval] at heq hlt
              omega
            · have := hpg m r hmidlen hr hgt
              rw [hval] at this
              omega
        exact ih left (Int.fdiv (left + right) 2 - 1) hl (by omega) hlr (by omega) (by omega)

theorem findListUnitAux_absent (values : List Int) (u : Nat)
    (habs : ∀ v ∈ values, v ≠ (u : Int)) :
    ∀ (fuel : Nat) (left right : Int),
      0 ≤ left → right < (values.length : Int) →
      findListUnitAux values u fuel left right = none := by
  intro fuel
  induction fuel with
  | zero => intro left right _ _; rfl
  | succ f ih =>
    intro left right hl hrgt
    rw [findListUnitAux]
    by_cases hc : left ≤ right
    · rw [if_pos hc]
      dsimp only
      have hfd : Int.fdiv (left + right) 2 = (left + right) / 2 :=
        Int.fdiv_eq_ediv _ (by omega)
      generalize hgm : (Int.fdiv (left + right) 2).toNat = m
      have hmidlen : m < values.length := by omega
      rw [List.getElem?_eq_getElem hmidlen]
      dsimp only
      rw [if_neg (habs _ (List.getElem_mem hmidlen))]
      by_cases hlt : values[m] < (u : Int)
      · rw [if_pos hlt]
        exact ih (Int.fdiv (left + right) 2 + 1) right (by omega) hrgt
      · rw [if_neg hlt]
        exact ih left (Int.fdiv (left + right) 2 - 1) hl (by omega)
    · rw [if_neg hc]

/-! ## Reading a bit stream embedded in a larger buffer -/

theorem bitAt_region (pre mid post : List Nat) (k : Nat) (hk : k < 8 * mid.length) :
    bitAt (pre ++ mid ++ post) (8 * pre.length + k) = bitAt mid k := by
  rw [bitAt, bitAt]
  have hdiv : (8 * pre.length + k) / 8 = pre.length + k / 8 := by omega
  have hmod : (8 * pre.length + k) % 8 = k % 8 := by omega
  rw [hdiv, hmod]
  congr 1
  rw [List.append_assoc, List.getD_append_right _ _ _ _ (by omega),
    Nat.add_sub_cancel_left, List.getD_append _ _ _ _ (by omega)]

theorem natOfBits_region (pre mid post : List Nat) (off n : Nat)
    (h : off + n ≤ 8 * mid.length) :
    natOfBits (pre ++ mid ++ post) (8 * pre.length + off) n = natOfBits mid off n := by
  apply Nat.eq_of_testBit_eq
  intro k
  rw [testBit_natOfBits, testBit_natOfBits]
  by_cases hk : k < n
  · rw [if_pos hk, if_pos hk, show 8 * pre.length + off + k = 8 * pre.length + (off + k) by omega,
      bitAt_region pre mid post (off + k) (by omega)]
  · rw [if_neg hk, if_neg hk]

theorem readBits_region (pre mid post : List Nat) (off n : Nat) (hn : n ≤ 32)
    (h : off + n ≤ 8 * mid.length) :
    BitReader.readBits (pre ++ mid ++ post) (8 * pre.length + off) n =
      .ok (jsToInt32 ((natOfBits mid off n : Nat) : Int), 8 * pre.length + off + n) := by
  have hrange : (8 * pre.length + off) + n ≤ 8 * (pre ++ mid ++ post).length := by
    simp only [List.length_append]
    omega
  rw [BitReader.readBits_spec _ _ _ hn hrange,
    natOfBits_region pre mid post off n h]

def interleave (lats lons : List Int) (bl bo : Nat) : List (Nat × Nat) :=
  (lats.zip lons).flatMap (fun p => [(p.1.toNat, bl), (p.2.toNat, bo)])

theorem coordStream_eq_writeAll (lats lons : List Int) (bl bo : Nat)
    (hl : ∀ x ∈ lats, 0 ≤ x) (ho : ∀ x ∈ lons, 0 ≤ x) :
    coordStream lats lons bl bo =
      BitWriter.getBuffer (writeAll (interleave lats lons bl bo)) := by
  rw [coordStream, writeAll, interleave]
  congr 1
  have hps : ∀ p ∈ lats.zip lons, 0 ≤ p.1 ∧ 0 ≤ p.2 := by
    intro p hp
    obtain ⟨a, b⟩ := p
    have hmem := List.of_mem_zip hp
    exact ⟨hl a hmem.1, ho b hmem.2⟩
  have key : ∀ (ps : List (Int × Int)), (∀ p ∈ ps, 0 ≤ p.1 ∧ 0 ≤ p.2) → ∀ (w : BitWriter),
      ps.foldl (fun w p => BitWriter.writeBits (BitWriter.writeBits w p.1 bl) p.2 bo) w =
      (ps.flatMap (fun p => [(p.1.toNat, bl), (p.2.toNat, bo)])).foldl
        (fun w q => BitWriter.writeBits w (q.1 : Int) q.2) w := by
    intro ps
    induction ps with
    | nil => intro _ w; rfl
    | cons p rest ih =>
      intro hmem w
      rw [List.foldl_cons, List.flatMap_cons, List.foldl_append]
      have h1 : ((p.1.toNat : Nat) : Int) = p.1 :=
        Int.toNat_of_nonneg (hmem p (by simp)).1
      have h2 : ((p.2.toNat : Nat) : Int) = p.2 :=
        Int.toNat_of_nonneg (hmem p (by simp)).2
      have hstep : ([(p.1.toNat, bl), (p.2.toNat, bo)]).foldl
          (fun w q => BitWriter.writeBits w (q.1 : Int) q.2) w =
          BitWriter.writeBits (BitWriter.writeBits w p.1 bl) p.2 bo := by
        simp only [List.foldl_cons, List.foldl_nil]
        rw [h1, h2]
      rw [hstep]
      exact ih (fun q hq => hmem q (by simp [hq])) _
  exact key _ hps _

theorem length_pairsBits (pairs : List (Nat × Nat)) :
    (pairsBits pairs).length = (pairs.map Prod.snd).sum := by
  induction pairs with
  | nil => rfl
  | cons p rest ih =>
    rw [pairsBits, List.flatMap_cons, List.length_append, ← pairsBits, ih]
    simp

theorem length_getBuffer_writeAll (pairs : List (Nat × Nat))
    (hp : ∀ p ∈ pairs, p.2 ≤ 32 ∧ p.1 < 2 ^ p.2) :
    (BitWriter.getBuffer (writeAll pairs)).length = ((pairs.map Prod.snd).sum + 7) / 8 := by
  have hfold := wbits_foldl_writeBits pairs BitWriter.init (by decide) (by decide) hp
  rw [← writeAll] at hfold
  have hinit : wbits BitWriter.init = [] := by simp [wbits, BitWriter.init, bufferBits]
  have hW : wbits (writeAll pairs) = pairsBits pairs := by
    rw [hfold.1, hinit]
    rfl
  have hlw := length_wbits (writeAll pairs)
  rw [hW, length_pairsBits] at hlw
  have hbp := hfold.2.1
  rw [length_getBuffer]
  rcases Nat.eq_zero_or_pos (writeAll pairs).bitPosition with h0 | hpos
  · rw [h0, if_neg (by omega)]
    omega
  · rw [if_pos hpos]
    omega

/-! ## The interleaved coordinate stream and `readCoordinateRecord` -/

theorem interleave_getElem?_even (bl bo : Nat) :
    ∀ (ps : List (Int × Int)) (i : Nat) (hi : i < ps.length),
      (ps.flatMap (fun p => [(p.1.toNat, bl), (p.2.toNat, bo)]))[2 * i]? =
        some ((ps[i].1.toNat, bl)) := by
  intro ps
  induction ps with
  | nil => intro i hi; cases hi
  | cons p rest ih =>
    intro i hi
    cases i with
    | zero => rfl
    | succ j =>
      rw [List.flatMap_cons]
      show ((p.1.toNat, bl) :: (p.2.toNat, bo) ::
        rest.flatMap (fun p => [(p.1.toNat, bl), (p.2.toNat, bo)]))[2 * (j + 1)]? = _
      rw [show 2 * (j + 1) = (2 * j + 1) + 1 by omega, List.getElem?_cons_succ,
        List.getElem?_cons_succ, ih j (Nat.lt_of_succ_lt_succ hi)]
      simp

theorem interleave_getElem?_odd (bl bo : Nat) :
    ∀ (ps : List (Int × Int)) (i : Nat) (hi : i < ps.length),
      (ps.flatMap (fun p => [(p.1.toNat, bl), (p.2.toNat, bo)]))[2 * i + 1]? =
        some ((ps[i].2.toNat, bo)) := by
  intro ps
  induction ps with
  | nil => intro i hi; cases hi
  | cons p rest ih =>
    intro i hi
    cases i with
    | zero =>
      rw [List.flatMap_cons]
      simp
    | succ j =>
      rw [List.flatMap_cons]
      show ((p.1.toNat, bl) :: (p.2.toNat, bo) ::
        rest.flatMap (fun p => [(p.1.toNat, bl), (p.2.toNat, bo)]))[2 * (j + 1) + 1]? = _
      rw [show 2 * (j + 1) + 1 = (2 * j + 1 + 1) + 1 by omega, List.getElem?_cons_succ,
        List.getElem?_cons_succ, ih j (Nat.lt_of_succ_lt_succ hi)]
      simp

theorem interleave_length (bl bo : Nat) (ps : List (Int × Int)) :
    (ps.flatMap (fun p => [(p.1.toNat, bl), (p.2.toNat, bo)])).length = 2 * ps.length := by
  induction ps with
  | nil => rfl
  | cons p rest ih =>
    rw [List.flatMap_cons, List.length_append, ih]
    simp
    omega

theorem interleave_offsetBefore_even (bl bo : Nat) :
    ∀ (ps : List (Int × Int)) (i : Nat), i ≤ ps.length →
      offsetBefore (ps.flatMap (fun p => [(p.1.toNat, bl), (p.2.toNat, bo)])) (2 * i) =
        i * (bl + bo) := by
  intro ps
  induction ps with
  | nil =>
    intro i hi
    simp only [List.length_nil, Nat.le_zero] at hi
    subst hi
    simp [offsetBefore]
  | cons p rest ih =>
    intro i hi
    cases i with
    | zero => simp [offsetBefore]
    | succ j =>
      rw [List.flatMap_cons]
      rw [offsetBefore]
      show ((((p.1.toNat, bl) :: (p.2.toNat, bo) ::
        rest.flatMap (fun p => [(p.1.toNat, bl), (p.2.toNat, bo)])).take (2 * (j + 1))).map
          Prod.snd).sum = _
      rw [show 2 * (j + 1) = (2 * j + 1) + 1 by omega, List.take_succ_cons, List.take_succ_cons]
      simp only [List.map_cons, List.sum_cons]
      have := ih j (Nat.le_of_succ_le_succ hi)
      rw [offsetBefore] at this
      rw [this]
      ring

theorem interleave_offsetBefore_odd (bl bo : Nat) (ps : List (Int × Int)) (i : Nat)
    (hi : i < ps.length) :
    offsetBefore (ps.flatMap (fun p => [(p.1.toNat, bl), (p.2.toNat, bo)])) (2 * i + 1) =
      i * (bl + bo) + bl := by
  induction ps generalizing i with
  | nil => cases hi
  | cons p rest ih =>
    cases i with
    | zero =>
      rw [List.flatMap_cons, offsetBefore]
      show ((((p.1.toNat, bl) :: (p.2.toNat, bo) ::
        rest.flatMap (fun p => [(p.1.toNat, bl), (p.2.toNat, bo)])).take 1).map Prod.snd).sum = _
      simp
    | succ j =>
      rw [List.flatMap_cons, offsetBefore]
      show ((((p.1.toNat, bl) :: (p.2.toNat, bo) ::
        rest.flatMap (fun p => [(p.1.toNat, bl), (p.2.toNat, bo)])).take (2 * (j + 1) + 1)).map
          Prod.snd).sum = _
      rw [show 2 * (j + 1) + 1 = (2 * j + 1) + 1 + 1 by omega, List.take_succ_cons,
        List.take_succ_cons]
      simp only [List.map_cons, List.sum_cons]
      have := ih j (Nat.lt_of_succ_lt_succ hi)
      rw [offsetBefore] at this
      rw [this]
      ring


theorem readCoordinateRecord_at (pre post : List Nat) (lats lons : List Int) (bl bo : Nat)
    (hbl : bl ≤ 32) (hbo : bo ≤ 32)
    (hl : ∀ x ∈ lats, 0 ≤ x ∧ x.toNat < 2 ^ bl ∧ x.toNat < 2 ^ 31)
    (ho : ∀ x ∈ lons, 0 ≤ x ∧ x.toNat < 2 ^ bo ∧ x.toNat < 2 ^ 31)
    (hlen : lons.length = lats.length)
    (rank : Nat) (hrank : rank < lats.length) :
    readCoordinateRecord (pre ++ coordStream lats lons bl bo ++ post) pre.length rank bl bo =
      .ok (lats[rank], lons[rank]) := by
  have hzlen : (lats.zip lons).length = lats.length := by
    rw [List.length_zip]
    omega
  set ps := lats.zip lons with hps
  set pairs := ps.flatMap (fun p => [(p.1.toNat, bl), (p.2.toNat, bo)]) with hpairs
  have hplen : pairs.length = 2 * ps.length := interleave_length bl bo ps
  have hp : ∀ p ∈ pairs, p.2 ≤ 32 ∧ p.1 < 2 ^ p.2 := by
    intro p hp'
    rw [hpairs, List.mem_flatMap] at hp'
    obtain ⟨q, hq, hpq⟩ := hp'
    obtain ⟨a, b⟩ := q
    have hmem := List.of_mem_zip hq
    rcases List.mem_cons.1 hpq with rfl | h2
    · exact ⟨hbl, (hl a hmem.1).2.1⟩
    · rcases List.mem_cons.1 h2 with rfl | h3
      · exact ⟨hbo, (ho b hmem.2).2.1⟩
      · cases h3
  have hstream : coordStream lats lons bl bo = BitWriter.getBuffer (writeAll pairs) :=
    coordStream_eq_writeAll lats lons bl bo (fun x hx => (hl x hx).1) (fun x hx => (ho x hx).1)
  rw [hstream, readCoordinateRecord]
  have hie : rank < ps.length := by omega
  have hzr : ps[rank] = (lats[rank], lons[rank]) := List.getElem_zip
  have h2e : 2 * rank < pairs.length := by omega
  have h2o : 2 * rank + 1 < pairs.length := by omega
  have hgeteven : pairs[2 * rank] = (lats[rank].toNat, bl) := by
    have h := interleave_getElem?_even bl bo ps rank hie
    rw [← hpairs] at h
    rw [List.getElem?_eq_getElem h2e] at h
    have := Option.some.inj h
    rw [this, hzr]
  have hgetodd : pairs[2 * rank + 1] = (lons[rank].toNat, bo) := by
    have h := interleave_getElem?_odd bl bo ps rank hie
    rw [← hpairs] at h
    rw [List.getElem?_eq_getElem h2o] at h
    have := Option.some.inj h
    rw [this, hzr]
  have hoffe : offsetBefore pairs (2 * rank) = rank * (bl + bo) := by
    have := interleave_offsetBefore_even bl bo ps rank (by omega)
    rw [← hpairs] at this
    exact this
  have hoffo : offsetBefore pairs (2 * rank + 1) = rank * (bl + bo) + bl := by
    have := interleave_offsetBefore_odd bl bo ps rank hie
    rw [← hpairs] at this
    exact this
  -- value of first read
  have hvale := natOfBits_writeAll pairs hp (2 * rank) h2e
  rw [List.get_eq_getElem, hgeteven, hoffe] at hvale
  have hvalo := natOfBits_writeAll pairs hp (2 * rank + 1) h2o
  rw [List.get_eq_getElem, hgetodd, hoffo] at hvalo
  -- range bounds
  have hrangee := writeAll_bits_in_range pairs hp (2 * rank) h2e
  rw [List.get_eq_getElem, hgeteven, hoffe] at hrangee
  have hrangeo := writeAll_bits_in_range pairs hp (2 * rank + 1) h2o
  rw [List.get_eq_getElem, hgetodd, hoffo] at hrangeo
  -- first read
  have hr1 := readBits_region pre (BitWriter.getBuffer (writeAll pairs)) post
    (rank * (bl + bo)) bl hbl (by omega)
  rw [hvale] at hr1
  have hmul : pre.length * 8 + rank * (bl + bo) = 8 * pre.length + rank * (bl + bo) := by
    ring
  rw [hmul, hr1]
  rw [bindE_ok]
  dsimp only
  -- second read
  have hr2 := readBits_region pre (BitWriter.getBuffer (writeAll pairs)) post
    (rank * (bl + bo) + bl) bo hbo (by omega)
  rw [hvalo] at hr2
  rw [show 8 * pre.length + rank * (bl + bo) + bl =
    8 * pre.length + (rank * (bl + bo) + bl) by ring, hr2]
  rw [bindE_ok]
  dsimp only
  rw [pureE]
  congr 2
  · rw [jsToInt32_ofNat_of_lt (hl _ (List.getElem_mem hrank)).2.2]
    exact Int.toNat_of_nonneg (hl _ (List.getElem_mem hrank)).1
  · rw [jsToInt32_ofNat_of_lt (ho _ (List.getElem_mem (by omega : rank < lons.length))).2.2]
    exact Int.toNat_of_nonneg (ho _ (List.getElem_mem (by omega : rank < lons.length))).1

/-! ## Outward block structure -/

theorem length_writeSectorEntry (a b c : Nat) (d e : Int) (f : Nat) :
    (writeSectorEntry a b c d e f).length = 14 := by
  rw [writeSectorEntry]
  simp [u8, u16le, u24le, i24le, i32le, u32le]

theorem writeOutwardBlock_eq (od : OutwardData) (gLat gLon : Int) :
    writeOutwardBlock od gLat gLon =
      sectorTable gLat gLon (sortedSectorsOf od) ((sortedSectorsOf od).length * 14) ++
        sectorBlobsOf (sortedSectorsOf od) := by
  rw [writeOutwardBlock]
  have key : ∀ (ss : List SectorData) (t b : List Nat) (off : Nat),
      (ss.foldl (fun (acc : List Nat × List Nat × Nat) sd =>
        (acc.1 ++ writeSectorEntry sd.sectorNumber sd.units.length acc.2.2
            (sd.latMin - gLat) (sd.lonMin - gLon)
            (packedFlags (chooseSectorMode sd).1 (sectorBitsLat sd) (sectorBitsLon sd)),
         acc.2.1 ++ writeUnitDataBlob sd (chooseSectorMode sd).1 (sectorBitsLat sd)
            (sectorBitsLon sd),
         acc.2.2 + (writeUnitDataBlob sd (chooseSectorMode sd).1 (sectorBitsLat sd)
            (sectorBitsLon sd)).length)) (t, b, off)) =
      (t ++ sectorTable gLat gLon ss off, b ++ sectorBlobsOf ss,
        off + (sectorBlobsOf ss).length) := by
    intro ss
    induction ss with
    | nil =>
      intro t b off
      simp [sectorTable, sectorBlobsOf]
    | cons sd rest ih =>
      intro t b off
      rw [List.foldl_cons, ih]
      rw [sectorTable, sectorBlobsOf]
      simp only [sectorEntryBytes, sdBlob, List.append_assoc, List.length_append,
        Prod.mk.injEq]
      refine ⟨trivial, trivial, by omega⟩
  rw [key]
  simp

set_option maxRecDepth 10000 in
set_option maxHeartbeats 1000000 in
theorem packedFlags_unpack :
    ∀ bl < 32, ∀ bo < 32, ∀ u : Bool,
      packedFlags u bl bo = (if u then 3 else 1) + 4 * bl + 128 * bo ∧
      packedFlags u bl bo &&& 3 = (if u then 3 else 1) ∧
      (packedFlags u bl bo >>> 2) &&& 31 = bl ∧
      (packedFlags u bl bo >>> 7) &&& 31 = bo ∧
      packedFlags u bl bo < 65536 := by decide

theorem readSectorTableAux_at (gLat gLon : Int) (ss : List SectorData)
    (pre post : List Nat) (off0 : Nat)
    (hwf : ∀ sd ∈ ss, sd.sectorNumber < 256 ∧ sd.units.length < 2 ^ 16 ∧
      0 ≤ sd.latMin - gLat ∧ sd.latMin - gLat < 2 ^ 23 ∧
      0 ≤ sd.lonMin - gLon ∧ sd.lonMin - gLon < 2 ^ 23 ∧
      sectorBitsLat sd < 32 ∧ sectorBitsLon sd < 32)
    (hoff : off0 + (sectorBlobsOf ss).length < 2 ^ 24) :
    readSectorTableAux (pre ++ sectorTable gLat gLon ss off0 ++ post)
      ss.length pre.length = .ok (sectorEntriesOf gLat gLon ss off0) := by
  induction ss generalizing pre off0 with
  | nil =>
    simp [sectorTable, sectorEntriesOf, readSectorTableAux]
  | cons sd rest ih =>
    obtain ⟨hsn, huc, hlat0, hlat1, hlon0, hlon1, hbl, hbo⟩ := hwf sd (by simp)
    have hwfr : ∀ x ∈ rest, x.sectorNumber < 256 ∧ x.units.length < 2 ^ 16 ∧
        0 ≤ x.latMin - gLat ∧ x.latMin - gLat < 2 ^ 23 ∧
        0 ≤ x.lonMin - gLon ∧ x.lonMin - gLon < 2 ^ 23 ∧
        sectorBitsLat x < 32 ∧ sectorBitsLon x < 32 :=
      fun x hx => hwf x (by simp [hx])
    have hblobs : (sectorBlobsOf (sd :: rest)).length =
        (sdBlob sd).length + (sectorBlobsOf rest).length := by
      simp [sectorBlobsOf]
    have hoff24 : off0 < 2 ^ 24 := by omega
    obtain ⟨hpkeq, hand3, hshr2, hshr7, hpk16⟩ :=
      packedFlags_unpack (sectorBitsLat sd) hbl (sectorBitsLon sd) hbo (chooseSectorMode sd).1
    generalize hB : pre ++ sectorTable gLat gLon (sd :: rest) off0 ++ post = B
    have hb1 : B = (pre) ++
        u8 sd.sectorNumber ++
        (u16le sd.units.length ++
        u24le off0 ++
        i24le (sd.latMin - gLat) ++
        i24le (sd.lonMin - gLon) ++
        u16le (packedFlags (chooseSectorMode sd).1 (sectorBitsLat sd) (sectorBitsLon sd)) ++
        (sectorTable gLat gLon rest (off0 + (sdBlob sd).length) ++ post)) := by
      rw [← hB]
      simp [sectorTable, sectorEntryBytes, writeSectorEntry, List.append_assoc]
    have hl1 : (pre).length = pre.length := by
      simp [u8, u16le, u24le, i24le]
    have h1 : readU8 B (pre.length) = .ok sd.sectorNumber := by
      rw [hb1, ← hl1]
      exact readU8_at _ _ _ hsn
    have hb2 : B = (pre ++ u8 sd.sectorNumber) ++
        u16le sd.units.length ++
        (u24le off0 ++
        i24le (sd.latMin - gLat) ++
        i24le (sd.lonMin - gLon) ++
        u16le (packedFlags (chooseSectorMode sd).1 (sectorBitsLat sd) (sectorBitsLon sd)) ++
        (sectorTable gLat gLon rest (off0 + (sdBlob sd).length) ++ post)) := by
      rw [← hB]
      simp [sectorTable, sectorEntryBytes, writeSectorEntry, List.append_assoc]
    have hl2 : (pre ++ u8 sd.sectorNumber).length = pre.length + 1 := by
      simp [u8, u16le, u24le, i24le]
    have h2 : readU16LE B (pre.length + 1) = .ok sd.units.length := by
      rw [hb2, ← hl2]
      exact readU16LE_at _ _ _ huc
    have hb3 : B = (pre ++ u8 sd.sectorNumber ++ u16le sd.units.length) ++
        u24le off0 ++
        (i24le (sd.latMin - gLat) ++
        i24le (sd.lonMin - gLon) ++
        u16le (packedFlags (chooseSectorMode sd).1 (sectorBitsLat sd) (sectorBitsLon sd)) ++
        (sectorTable gLat gLon rest (off0 + (sdBlob sd).length) ++ post)) := by
      rw [← hB]
      simp [sectorTable, sectorEntryBytes, writeSectorEntry, List.append_assoc]
    have hl3 : (pre ++ u8 sd.sectorNumber ++ u16le sd.units.length).length = pre.length + 3 := by
      simp [u8, u16le, u24le, i24le]
    have h3 : readU24LE B (pre.length + 3) = .ok off0 := by
      rw [hb3, ← hl3]
      exact readU24LE_at _ _ _ hoff24
    have hb4 : B = (pre ++ u8 sd.sectorNumber ++ u16le sd.units.length ++ u24le off0) ++
        i24le (sd.latMin - gLat) ++
        (i24le (sd.lonMin - gLon) ++
        u16le (packedFlags (chooseSectorMode sd).1 (sectorBitsLat sd) (sectorBitsLon sd)) ++
        (sectorTable gLat gLon rest (off0 + (sdBlob sd).length) ++ post)) := by
      rw [← hB]
      simp [sectorTable, sectorEntryBytes, writeSectorEntry, List.append_assoc]
    have hl4 : (pre ++ u8 sd.sectorNumber ++ u16le sd.units.length ++ u24le off0).length = pre.length + 6 := by
      simp [u8, u16le, u24le, i24le]
    have h4 : readI24LE B (pre.length + 6) = .ok (sd.latMin - gLat) := by
      rw [hb4, ← hl4]
      exact readI24LE_at _ _ _ ⟨by omega, hlat1⟩
    have hb5 : B = (pre ++ u8 sd.sectorNumber ++ u16le sd.units.length ++ u24le off0 ++ i24le (sd.latMin - gLat)) ++
        i24le (sd.lonMin - gLon) ++
        (u16le (packedFlags (chooseSectorMode sd).1 (sectorBitsLat sd) (sectorBitsLon sd)) ++
        (sectorTable gLat gLon rest (off0 + (sdBlob sd).length) ++ post)) := by
      rw [← hB]
      simp [sectorTable, sectorEntryBytes, writeSectorEntry, List.append_assoc]
    have hl5 : (pre ++ u8 sd.sectorNumber ++ u16le sd.units.length ++ u24le off0 ++ i24le (sd.latMin - gLat)).length = pre.length + 9 := by
      simp [u8, u16le, u24le, i24le]
    have h5 : readI24LE B (pre.length + 9) = .ok (sd.lonMin - gLon) := by
      rw [hb5, ← hl5]
      exact readI24LE_at _ _ _ ⟨by omega, hlon1⟩
    have hb6 : B = (pre ++ u8 sd.sectorNumber ++ u16le sd.units.length ++ u24le off0 ++ i24le (sd.latMin - gLat) ++ i24le (sd.lonMin - gLon)) ++
        u16le (packedFlags (chooseSectorMode sd).1 (sectorBitsLat sd) (sectorBitsLon sd)) ++
        ((sectorTable gLat gLon rest (off0 + (sdBlob sd).length) ++ post)) := by
      rw [← hB]
      simp [sectorTable, sectorEntryBytes, writeSectorEntry, List.append_assoc]
    have hl6 : (pre ++ u8 sd.sectorNumber ++ u16le sd.units.length ++ u24le off0 ++ i24le (sd.latMin - gLat) ++ i24le (sd.lonMin - gLon)).length = pre.length + 12 := by
      simp [u8, u16le, u24le, i24le]
    have h6 : readU16LE B (pre.length + 12) = .ok (packedFlags (chooseSectorMode sd).1 (sectorBitsLat sd) (sectorBitsLon sd)) := by
      rw [hb6, ← hl6]
      exact readU16LE_at _ _ _ hpk16
    have hb7 : B = (pre ++ u8 sd.sectorNumber ++ u16le sd.units.length ++ u24le off0 ++ i24le (sd.latMin - gLat) ++ i24le (sd.lonMin - gLon) ++ u16le (packedFlags (chooseSectorMode sd).1 (sectorBitsLat sd) (sectorBitsLon sd))) ++
        sectorTable gLat gLon rest (off0 + (sdBlob sd).length) ++ post := by
      rw [← hB]
      simp [sectorTable, sectorEntryBytes, writeSectorEntry, List.append_assoc]
    have hl7 : (pre ++ u8 sd.sectorNumber ++ u16le sd.units.length ++ u24le off0 ++ i24le (sd.latMin - gLat) ++ i24le (sd.lonMin - gLon) ++ u16le (packedFlags (chooseSectorMode sd).1 (sectorBitsLat sd) (sectorBitsLon sd))).length = pre.length + 14 := by
      simp [u8, u16le, u24le, i24le]
    have h7 : readSectorTableAux B rest.length (pre.length + 14) =
        .ok (sectorEntriesOf gLat gLon rest (off0 + (sdBlob sd).length)) := by
      rw [hb7, ← hl7]
      exact ih _ _ hwfr (by omega)
    show readSectorTableAux B (rest.length + 1) pre.length = _
    rw [readSectorTableAux]
    rw [h1, bindE_ok, h2, bindE_ok, h3, bindE_ok, h4, bindE_ok, h5, bindE_ok,
      h6, bindE_ok, h7, bindE_ok, pureE]
    rw [sectorEntriesOf]
    rw [hand3, hshr2, hshr7]

/-! ## Blob length equals the size-pass accounting -/

theorem foldl_max_le (l : List Int) : ∀ a : Int,
    a ≤ l.foldl max a ∧ ∀ x ∈ l, x ≤ l.foldl max a := by
  induction l with
  | nil => intro a; simp
  | cons y ys ih =>
    intro a
    obtain ⟨h1, h2⟩ := ih (max a y)
    refine ⟨le_trans (le_max_left a y) h1, ?_⟩
    intro x hx
    rcases List.mem_cons.1 hx with rfl | hx
    · exact le_trans (le_max_right a x) h1
    · exact h2 x hx

theorem toNat_lt_pow_calculateBitWidth (m v : Int) (h0 : 0 ≤ v) (hv : v ≤ m) :
    v.toNat < 2 ^ calculateBitWidth m := by
  rw [calculateBitWidth]
  by_cases hm : m = 0
  · subst hm
    rw [if_pos rfl, pow_zero]
    omega
  · rw [if_neg hm]
    have h2 : m.toNat + 1 ≤ 2 ^ Nat.clog 2 (m.toNat + 1) :=
      Nat.le_pow_clog (by norm_num) _
    omega

theorem encodeDeltaSequence_length_eq (sd : SectorData) (hne : sd.units ≠ [])
    (h : ∀ u ∈ sd.units, u.unitIndex < 2 ^ 32) :
    (VarintUtils.encodeDeltaSequence (sd.units.map (fun u => u.unitIndex))).length =
      (chooseSectorMode sd).2 := by
  have hmem : ∀ i ∈ sd.units.map (fun u => u.unitIndex), i < 2 ^ 32 := by
    intro i hi
    obtain ⟨u, hu', rfl⟩ := List.mem_map.1 hi
    exact h u hu'
  cases hu : sd.units.map (fun u => u.unitIndex) with
  | nil => exact absurd (List.map_eq_nil.1 hu) hne
  | cons first rest =>
    rw [hu] at hmem
    simp only [chooseSectorMode, hu]
    rw [VarintUtils.encodeDeltaSequence, List.length_append,
      VarintUtils.encode_length (hmem first (by simp)),
      deltaSeqRest_length rest first (fun i hi => hmem i (by simp [hi]))]

theorem interleave_snd_sum (bl bo : Nat) (ps : List (Int × Int)) :
    ((ps.flatMap (fun p => [(p.1.toNat, bl), (p.2.toNat, bo)])).map Prod.snd).sum =
      ps.length * (bl + bo) := by
  induction ps with
  | nil => simp
  | cons p ps ih =>
    rw [List.flatMap_cons, List.map_append, List.sum_append, ih]
    simp [Nat.succ_mul]
    omega

theorem length_coordStream (lats lons : List Int) (bl bo : Nat)
    (hbl : bl ≤ 32) (hbo : bo ≤ 32)
    (hl : ∀ x ∈ lats, 0 ≤ x ∧ x.toNat < 2 ^ bl)
    (ho : ∀ x ∈ lons, 0 ≤ x ∧ x.toNat < 2 ^ bo)
    (hlen : lons.length = lats.length) :
    (coordStream lats lons bl bo).length = (lats.length * (bl + bo) + 7) / 8 := by
  rw [coordStream_eq_writeAll lats lons bl bo (fun x hx => (hl x hx).1)
    (fun x hx => (ho x hx).1)]
  rw [length_getBuffer_writeAll]
  · rw [interleave, interleave_snd_sum, List.length_zip, hlen, Nat.min_self]
  · intro p hp
    rw [interleave] at hp
    obtain ⟨q, hq, hpq⟩ := List.mem_flatMap.1 hp
    have hq1 := List.of_mem_zip hq
    rcases List.mem_cons.1 hpq with rfl | hpq2
    · exact ⟨hbl, (hl q.1 hq1.1).2⟩
    · rcases List.mem_cons.1 hpq2 with rfl | h3
      · exact ⟨hbo, (ho q.2 hq1.2).2⟩
      · exact absurd h3 (List.not_mem_nil _)

theorem length_sdBlob (sd : SectorData) (hne : sd.units ≠ [])
    (hu : ∀ u ∈ sd.units, u.unitIndex < 2 ^ 32 ∧ sd.latMin ≤ u.latInt ∧ sd.lonMin ≤ u.lonInt)
    (hbl : sectorBitsLat sd ≤ 32) (hbo : sectorBitsLon sd ≤ 32) :
    (sdBlob sd).length = sectorBlobSize sd := by
  have hlat : ∀ x ∈ sectorLatDeltas sd, 0 ≤ x ∧ x.toNat < 2 ^ sectorBitsLat sd := by
    intro x hx
    obtain ⟨u, hu', rfl⟩ := List.mem_map.1 hx
    have h1 := (hu u hu').2.1
    refine ⟨by omega, toNat_lt_pow_calculateBitWidth _ _ (by omega) ?_⟩
    exact (foldl_max_le (sectorLatDeltas sd) 0).2 _ (List.mem_map.2 ⟨u, hu', rfl⟩)
  have hlon : ∀ x ∈ sectorLonDeltas sd, 0 ≤ x ∧ x.toNat < 2 ^ sectorBitsLon sd := by
    intro x hx
    obtain ⟨u, hu', rfl⟩ := List.mem_map.1 hx
    have h1 := (hu u hu').2.2
    refine ⟨by omega, toNat_lt_pow_calculateBitWidth _ _ (by omega) ?_⟩
    exact (foldl_max_le (sectorLonDeltas sd) 0).2 _ (List.mem_map.2 ⟨u, hu', rfl⟩)
  rw [sdBlob, writeUnitDataBlob, List.length_append, sectorBlobSize]
  rw [length_coordStream _ _ _ _ hbl hbo hlat hlon
    (by simp [sectorLatDeltas, sectorLonDeltas])]
  congr 1
  · by_cases hmode : (chooseSectorMode sd).1
    · rw [if_pos hmode, if_pos hmode,
        encodeDeltaSequence_length_eq sd hne (fun u hu' => (hu u hu').1)]
    · rw [if_neg hmode, if_neg hmode, bitmapOf_length]
  · rw [show (sectorLatDeltas sd).length = sd.units.length by simp [sectorLatDeltas]]

/-! ## The outward index: assembly and parse-back -/

theorem index_flatMap_eq (m : List (Str × OutwardData)) (ks : List Str) :
    ∀ (j : Nat) (rest : List Str), rest = ks.drop j →
      (List.range rest.length).flatMap (fun i =>
        match (ks.drop (i + j)).head? with
        | none => []
        | some k =>
          match assocGet m k with
          | none => []
          | some od => writeOutwardIndexEntry k od.sectors.length (outwardBlockOffset m (i + j))) =
      indexBytesAux m rest j := by
  intro j rest
  induction rest generalizing j with
  | nil =>
    intro _
    simp [indexBytesAux]
  | cons k rest ih =>
    intro h
    have hhead : (ks.drop j).head? = some k := by rw [← h]; rfl
    have hrest : rest = ks.drop (j + 1) := by
      rw [← List.tail_drop, ← h]
      rfl
    rw [List.length_cons, List.range_succ_eq_map, List.flatMap_cons, List.flatMap_map]
    have hfun : (fun a => (fun i =>
        match (ks.drop (i + j)).head? with
        | none => ([] : List Nat)
        | some k =>
          match assocGet m k with
          | none => []
          | some od =>
            writeOutwardIndexEntry k od.sectors.length (outwardBlockOffset m (i + j)))
          (Nat.succ a)) = (fun i =>
        match (ks.drop (i + (j + 1))).head? with
        | none => ([] : List Nat)
        | some k =>
          match assocGet m k with
          | none => []
          | some od =>
            writeOutwardIndexEntry k od.sectors.length (outwardBlockOffset m (i + (j + 1)))) := by
      funext a
      simp only [Nat.succ_eq_add_one]
      rw [show a + 1 + j = a + (j + 1) by omega]
    rw [hfun, ih (j + 1) hrest, indexBytesAux]
    simp only [Nat.zero_add, hhead]

theorem dropWhile_replicate_nul (n : Nat) :
    List.dropWhile (fun c => c.toNat == 0) (List.replicate n (Char.ofNat 0)) = [] := by
  induction n with
  | zero => rfl
  | succ n ih => simp [List.replicate, List.dropWhile, ih]

theorem map_ascii_roundtrip (k : Str) (hc : ∀ c ∈ k, c.toNat < 128) :
    k.map ((fun b => Char.ofNat (b % 128)) ∘ fun c => c.toNat % 128) = k := by
  have h2 : ∀ c ∈ k, Char.ofNat ((c.toNat % 128) % 128) = c := by
    intro c hcm
    rw [Nat.mod_eq_of_lt (hc c hcm), Nat.mod_eq_of_lt (hc c hcm), Char.ofNat_toNat]
  calc k.map ((fun b => Char.ofNat (b % 128)) ∘ fun c => c.toNat % 128)
      = k.map id := List.map_congr_left h2
    _ = k := List.map_id k

theorem dropTrailingNulls_pad (k : Str) (hne : k ≠ []) (hlen : k.length ≤ 4)
    (hc : ∀ c ∈ k, 0 < c.toNat ∧ c.toNat < 128) :
    dropTrailingNulls ((asciiBytes (padOutwardCode k)).map (fun b => Char.ofNat (b % 128))) =
      k := by
  have hpad : padOutwardCode k = k ++ List.replicate (4 - k.length) (Char.ofNat 0) := by
    rw [padOutwardCode]
    apply List.take_of_length_le
    simp
    omega
  rw [hpad, asciiBytes, List.map_append, List.map_append, List.map_map, List.map_map,
    map_ascii_roundtrip k (fun c hcm => (hc c hcm).2)]
  have hrep : (List.replicate (4 - k.length) (Char.ofNat 0)).map
      ((fun b => Char.ofNat (b % 128)) ∘ fun c => c.toNat % 128) =
      List.replicate (4 - k.length) (Char.ofNat 0) := by
    have hval : ((fun b => Char.ofNat (b % 128)) ∘ fun c : Char => c.toNat % 128)
        (Char.ofNat 0) = Char.ofNat 0 := by decide
    rw [List.map_replicate, hval]
  rw [hrep, dropTrailingNulls, List.reverse_append, List.reverse_replicate,
    List.dropWhile_append, dropWhile_replicate_nul]
  simp only [List.isEmpty_nil, if_true]
  cases hk : k.reverse with
  | nil => exact absurd (List.reverse_eq_nil_iff.1 hk) hne
  | cons c t =>
    have hcm : c ∈ k := by
      rw [← List.mem_reverse, hk]
      simp
    have hfalse : (c.toNat == 0) = false := by
      simp only [beq_eq_false_iff_ne, ne_eq]
      have := (hc c hcm).1
      omega
    simp only [List.dropWhile_cons, hfalse]
    simp only [Bool.false_eq_true, if_false]
    rw [← hk, List.reverse_reverse]

theorem parseOutwardIndexAux_at (m : List (Str × OutwardData)) (ks : List Str)
    (pre post : List Nat) (j : Nat)
    (hks : ∀ k ∈ ks, (∃ od, assocGet m k = some od ∧ od.sectors.length < 2 ^ 8) ∧
      k ≠ [] ∧ k.length ≤ 4 ∧ ∀ c ∈ k, 0 < c.toNat ∧ c.toNat < 128)
    (hoffb : ∀ i, outwardBlockOffset m i < 2 ^ 32) :
    parseOutwardIndexAux (pre ++ indexBytesAux m ks j ++ post) ks.length pre.length =
      .ok (indexEntriesAux m ks j) := by
  induction ks generalizing pre j with
  | nil =>
    simp [indexBytesAux, indexEntriesAux, parseOutwardIndexAux]
  | cons k rest ih =>
    obtain ⟨⟨od, hod, hodlen⟩, hkne, hklen, hkc⟩ := hks k (by simp)
    have hksr : ∀ x ∈ rest, (∃ od, assocGet m x = some od ∧ od.sectors.length < 2 ^ 8) ∧
        x ≠ [] ∧ x.length ≤ 4 ∧ ∀ c ∈ x, 0 < c.toNat ∧ c.toNat < 128 :=
      fun x hx => hks x (by simp [hx])
    have hlen4 : (asciiBytes (padOutwardCode k)).length = 4 := by
      simp [asciiBytes, padOutwardCode]
      omega
    have hIB : indexBytesAux m (k :: rest) j =
        asciiBytes (padOutwardCode k) ++ (u8 od.sectors.length ++
          (u32le (outwardBlockOffset m j) ++ indexBytesAux m rest (j + 1))) := by
      simp only [indexBytesAux, hod]
      rw [writeOutwardIndexEntry]
      simp [List.append_assoc]
    generalize hB : pre ++ indexBytesAux m (k :: rest) j ++ post = B
    have hcode : ((B.drop pre.length).take 4) = asciiBytes (padOutwardCode k) := by
      have hb0 : B = pre ++ (asciiBytes (padOutwardCode k) ++ (u8 od.sectors.length ++
          (u32le (outwardBlockOffset m j) ++ (indexBytesAux m rest (j + 1) ++ post)))) := by
        rw [← hB, hIB]
        simp [List.append_assoc]
      rw [hb0, List.drop_left, List.take_left' hlen4]
    have hb1 : B = (pre ++ asciiBytes (padOutwardCode k)) ++ u8 od.sectors.length ++
        (u32le (outwardBlockOffset m j) ++ indexBytesAux m rest (j + 1) ++ post) := by
      rw [← hB, hIB]
      simp [List.append_assoc]
    have hl1 : (pre ++ asciiBytes (padOutwardCode k)).length = pre.length + 4 := by
      rw [List.length_append, hlen4]
    have h1 : readU8 B (pre.length + 4) = .ok od.sectors.length := by
      rw [hb1, ← hl1]
      exact readU8_at _ _ _ hodlen
    have hb2 : B = (pre ++ asciiBytes (padOutwardCode k) ++ u8 od.sectors.length) ++
        u32le (outwardBlockOffset m j) ++ (indexBytesAux m rest (j + 1) ++ post) := by
      rw [← hB, hIB]
      simp [List.append_assoc]
    have hl2 : (pre ++ asciiBytes (padOutwardCode k) ++ u8 od.sectors.length).length =
        pre.length + 5 := by
      simp [List.length_append, hlen4, u8]
    have h2 : readU32LE B (pre.length + 5) = .ok (outwardBlockOffset m j) := by
      rw [hb2, ← hl2]
      exact readU32LE_at _ _ _ (hoffb j)
    have hb3 : B = (pre ++ asciiBytes (padOutwardCode k) ++ u8 od.sectors.length ++
        u32le (outwardBlockOffset m j)) ++ indexBytesAux m rest (j + 1) ++ post := by
      rw [← hB, hIB]
      simp [List.append_assoc]
    have hl3 : (pre ++ asciiBytes (padOutwardCode k) ++ u8 od.sectors.length ++
        u32le (outwardBlockOffset m j)).length = pre.length + 9 := by
      simp [List.length_append, hlen4, u8, u32le]
    have h3 : parseOutwardIndexAux B rest.length (pre.length + 9) =
        .ok (indexEntriesAux m rest (j + 1)) := by
      rw [hb3, ← hl3]
      exact ih _ _ hksr
    show parseOutwardIndexAux B (rest.length + 1) pre.length = _
    rw [parseOutwardIndexAux]
    simp only [hcode, dropTrailingNulls_pad k hkne hklen hkc, h1, bindE_ok, h2, bindE_ok,
      h3, bindE_ok, pureE]
    rw [indexEntriesAux, hod]
    rfl

theorem length_writeHeader (oc tc : Nat) (gLat gLon : Int) :
    (writeHeader oc tc gLat gLon).length = 32 := by
  rw [writeHeader]
  simp [u8, u16le, u32le, i32le]

theorem generateBinaryBuffer_eq (m : List (Str × OutwardData)) (gLat gLon : Int) :
    generateBinaryBuffer m gLat gLon =
      writeHeader (sortedOutwardKeys m).length (totalUnitCountOf m) gLat gLon ++
        indexBytesAux m (sortedOutwardKeys m) 0 ++ blocksOf m gLat gLon := by
  rw [generateBinaryBuffer]
  have hidx := index_flatMap_eq m (sortedOutwardKeys m) 0 (sortedOutwardKeys m)
    (List.drop_zero _).symm
  simp only [Nat.add_zero] at hidx
  rw [hidx, totalUnitCountOf, blocksOf]

theorem parseHeader_writeHeader (oc tc : Nat) (gLat gLon : Int) (rest : List Nat)
    (hoc : oc < 2 ^ 16) (htc : tc < 2 ^ 32)
    (hglat : -(2 ^ 31) ≤ gLat ∧ gLat < 2 ^ 31) (hglon : -(2 ^ 31) ≤ gLon ∧ gLon < 2 ^ 31) :
    parseHeader (writeHeader oc tc gLat gLon ++ rest) =
      .ok ⟨[80, 67, 68, 66], 3, 0, oc, tc, gLat, gLon⟩ := by
  generalize hB : writeHeader oc tc gLat gLon ++ rest = B
  have hlenB : B.length = 32 + rest.length := by
    rw [← hB, List.length_append, length_writeHeader]
  have hmagic : (B.take 4).map (fun b => b % 128) = [80, 67, 68, 66] := by
    rw [← hB, writeHeader]
    simp only [List.append_assoc]
    rw [List.take_left' (by rfl)]
    rfl
  have hb4 : B = ([80, 67, 68, 66] : List Nat) ++ u8 3 ++ (u8 0 ++ (u16le oc ++ (u32le tc ++
      (i32le gLat ++ (i32le gLon ++ (List.replicate 12 0 ++ rest)))))) := by
    rw [← hB, writeHeader]
    simp [List.append_assoc]
  have h4 : readU8 B 4 = .ok 3 := by
    rw [hb4, show (4 : Nat) = (([80, 67, 68, 66] : List Nat)).length by rfl]
    exact readU8_at _ _ _ (by norm_num)
  have hb5 : B = (([80, 67, 68, 66] : List Nat) ++ u8 3) ++ u8 0 ++ (u16le oc ++ (u32le tc ++
      (i32le gLat ++ (i32le gLon ++ (List.replicate 12 0 ++ rest))))) := by
    rw [← hB, writeHeader]
    simp [List.append_assoc]
  have h5 : readU8 B 5 = .ok 0 := by
    rw [hb5, show (5 : Nat) = (([80, 67, 68, 66] : List Nat) ++ u8 3).length by rfl]
    exact readU8_at _ _ _ (by norm_num)
  have hb6 : B = (([80, 67, 68, 66] : List Nat) ++ u8 3 ++ u8 0) ++ u16le oc ++ (u32le tc ++
      (i32le gLat ++ (i32le gLon ++ (List.replicate 12 0 ++ rest)))) := by
    rw [← hB, writeHeader]
    simp [List.append_assoc]
  have h6 : readU16LE B 6 = .ok oc := by
    rw [hb6, show (6 : Nat) = (([80, 67, 68, 66] : List Nat) ++ u8 3 ++ u8 0).length by rfl]
    exact readU16LE_at _ _ _ hoc
  have hb8 : B = (([80, 67, 68, 66] : List Nat) ++ u8 3 ++ u8 0 ++ u16le oc) ++ u32le tc ++
      (i32le gLat ++ (i32le gLon ++ (List.replicate 12 0 ++ rest))) := by
    rw [← hB, writeHeader]
    simp [List.append_assoc]
  have h8 : readU32LE B 8 = .ok tc := by
    rw [hb8, show (8 : Nat) =
      (([80, 67, 68, 66] : List Nat) ++ u8 3 ++ u8 0 ++ u16le oc).length by rfl]
    exact readU32LE_at _ _ _ htc
  have hb12 : B = (([80, 67, 68, 66] : List Nat) ++ u8 3 ++ u8 0 ++ u16le oc ++ u32le tc) ++
      i32le gLat ++ (i32le gLon ++ (List.replicate 12 0 ++ rest)) := by
    rw [← hB, writeHeader]
    simp [List.append_assoc]
  have h12 : readI32LE B 12 = .ok gLat := by
    rw [hb12, show (12 : Nat) =
      (([80, 67, 68, 66] : List Nat) ++ u8 3 ++ u8 0 ++ u16le oc ++ u32le tc).length by
        simp [u8, u16le, u32le]]
    exact readI32LE_at _ _ _ hglat
  have hb16 : B = (([80, 67, 68, 66] : List Nat) ++ u8 3 ++ u8 0 ++ u16le oc ++ u32le tc ++
      i32le gLat) ++ i32le gLon ++ (List.replicate 12 0 ++ rest) := by
    rw [← hB, writeHeader]
    simp [List.append_assoc]
  have h16 : readI32LE B 16 = .ok gLon := by
    rw [hb16, show (16 : Nat) =
      (([80, 67, 68, 66] : List Nat) ++ u8 3 ++ u8 0 ++ u16le oc ++ u32le tc ++
        i32le gLat).length by simp [u8, u16le, u32le, i32le]]
    exact readI32LE_at _ _ _ hglon
  rw [parseHeader, if_neg (by omega)]
  rw [show B.take 4 = List.take 4 B from rfl] at hmagic
  simp only [hmagic, h4, bindE_ok, h5, bindE_ok, h6, bindE_ok, h8, bindE_ok,
    h12, bindE_ok, h16, bindE_ok, pureE]

/-- Constructing a client on an encoder buffer succeeds and recovers the
header fields and the outward index. -/
theorem mkClient_generateBinaryBuffer (m : List (Str × OutwardData)) (gLat gLon : Int)
    (hne : sortedOutwardKeys m ≠ [])
    (hcnt : (sortedOutwardKeys m).length < 2 ^ 16)
    (htc : totalUnitCountOf m < 2 ^ 32)
    (hglat : -(2 ^ 31) ≤ gLat ∧ gLat < 2 ^ 31) (hglon : -(2 ^ 31) ≤ gLon ∧ gLon < 2 ^ 31)
    (hks : ∀ k ∈ sortedOutwardKeys m,
      (∃ od, assocGet m k = some od ∧ od.sectors.length < 2 ^ 8) ∧
      k ≠ [] ∧ k.length ≤ 4 ∧ ∀ c ∈ k, 0 < c.toNat ∧ c.toNat < 128)
    (hoffb : ∀ i, outwardBlockOffset m i < 2 ^ 32) :
    mkClient (generateBinaryBuffer m gLat gLon) =
      .ok ⟨generateBinaryBuffer m gLat gLon,
        ⟨[80, 67, 68, 66], 3, 0, (sortedOutwardKeys m).length, totalUnitCountOf m, gLat, gLon⟩,
        indexEntriesAux m (sortedOutwardKeys m) 0⟩ := by
  have hdec := generateBinaryBuffer_eq m gLat gLon
  have hhdr : parseHeader (generateBinaryBuffer m gLat gLon) =
      .ok ⟨[80, 67, 68, 66], 3, 0, (sortedOutwardKeys m).length, totalUnitCountOf m,
        gLat, gLon⟩ := by
    rw [hdec, List.append_assoc]
    exact parseHeader_writeHeader _ _ _ _ _ hcnt htc hglat hglon
  have hval : validateHeader ⟨[80, 67, 68, 66], 3, 0, (sortedOutwardKeys m).length,
      totalUnitCountOf m, gLat, gLon⟩ = .ok () := by
    rw [validateHeader]
    dsimp only
    rw [if_neg (by simp), if_neg (by simp), if_neg (by
      push_neg
      exact ⟨by simpa [List.length_eq_zero] using hne, by omega⟩)]
  have hidx : parseOutwardIndex (generateBinaryBuffer m gLat gLon)
      (sortedOutwardKeys m).length = .ok (indexEntriesAux m (sortedOutwardKeys m) 0) := by
    rw [parseOutwardIndex, hdec]
    rw [show (32 : Nat) =
      (writeHeader (sortedOutwardKeys m).length (totalUnitCountOf m) gLat gLon).length from
      (length_writeHeader _ _ _ _).symm]
    exact parseOutwardIndexAux_at m (sortedOutwardKeys m) _ _ 0 hks hoffb
  rw [mkClient]
  rw [hhdr, bindE_ok]
  dsimp only
  rw [hval, bindE_ok, hidx, bindE_ok, pureE]

/-! ## Association-map lemmas (JS `Map` get/set) -/

theorem find?_cons_pos {α : Type} (p : α → Bool) (a : α) (l : List α) (h : p a = true) :
    (a :: l).find? p = some a := List.find?_cons_of_pos l h

theorem find?_cons_neg {α : Type} (p : α → Bool) (a : α) (l : List α) (h : p a = false) :
    (a :: l).find? p = l.find? p := List.find?_cons_of_neg l (by simp [h])

theorem assocGet_map_set {α β : Type} [BEq α] [LawfulBEq α] (m : List (α × β)) (k : α) (v : β)
    (h : (m.find? (fun e => e.1 == k)).isSome) :
    assocGet (m.map (fun e => if e.1 == k then (k, v) else e)) k = some v := by
  revert h
  induction m with
  | nil => intro h; simp [List.find?] at h
  | cons e es ih =>
    intro h
    rw [List.map_cons]
    by_cases he : e.1 == k
    · rw [if_pos he, assocGet, find?_cons_pos (fun e : α × β => e.1 == k) _ _ (by simp)]
      rfl
    · rw [if_neg he, assocGet,
        find?_cons_neg (fun e : α × β => e.1 == k) _ _ (by simpa using he), ← assocGet]
      apply ih
      rw [List.find?, show (e.1 == k) = false by simpa using he] at h
      exact h

theorem assocGet_map_ne {α β : Type} [BEq α] [LawfulBEq α] (m : List (α × β)) (k k' : α) (v : β)
    (hne : k' ≠ k) :
    assocGet (m.map (fun e => if e.1 == k then (k, v) else e)) k' = assocGet m k' := by
  induction m with
  | nil => rfl
  | cons e es ih =>
    rw [List.map_cons]
    by_cases he' : e.1 == k'
    · have hek : ¬(e.1 == k) := by
        simp only [beq_iff_eq] at he' ⊢
        rw [he']
        exact hne
      rw [if_neg hek, assocGet, assocGet, find?_cons_pos (fun e : α × β => e.1 == k') _ _ he',
        find?_cons_pos (fun e : α × β => e.1 == k') _ _ he']
    · by_cases hek : e.1 == k
      · rw [if_pos hek, assocGet, assocGet,
          find?_cons_neg (fun e : α × β => e.1 == k') _ _ (by simp [beq_iff_eq]; exact Ne.symm hne),
          find?_cons_neg (fun e : α × β => e.1 == k') _ _ (by simpa using he')]
        exact ih
      · rw [if_neg hek, assocGet, assocGet,
          find?_cons_neg (fun e : α × β => e.1 == k') _ _ (by simpa using he'),
          find?_cons_neg (fun e : α × β => e.1 == k') _ _ (by simpa using he')]
        exact ih

theorem assocGet_set_self {α β : Type} [BEq α] [LawfulBEq α] (m : List (α × β)) (k : α) (v : β) :
    assocGet (assocSet m k v) k = some v := by
  rw [assocSet]
  by_cases h : (m.find? (fun e => e.1 == k)).isSome
  · rw [if_pos h]
    exact assocGet_map_set m k v h
  · rw [if_neg h, assocGet, List.find?_append]
    rw [Option.not_isSome_iff_eq_none] at h
    rw [h]
    simp [List.find?]

theorem assocGet_set_ne {α β : Type} [BEq α] [LawfulBEq α] (m : List (α × β)) (k k' : α) (v : β)
    (hne : k' ≠ k) :
    assocGet (assocSet m k v) k' = assocGet m k' := by
  rw [assocSet]
  by_cases h : (m.find? (fun e => e.1 == k)).isSome
  · rw [if_pos h]
    exact assocGet_map_ne m k k' v hne
  · rw [if_neg h, assocGet, assocGet, List.find?_append]
    have hkk : (k == k') = false := by
      simp only [beq_eq_false_iff_ne, ne_eq]
      exact Ne.symm hne
    have hnone : List.find? (fun e : α × β => e.1 == k') [(k, v)] = none := by
      simp [List.find?, hkk]
    rw [hnone]
    cases hf : List.find? (fun e : α × β => e.1 == k') m <;> rfl

theorem keys_assocSet {α β : Type} [BEq α] [LawfulBEq α] (m : List (α × β)) (k : α) (v : β) :
    (assocSet m k v).map Prod.fst =
      if (m.find? (fun e => e.1 == k)).isSome then m.map Prod.fst
      else m.map Prod.fst ++ [k] := by
  rw [assocSet]
  by_cases h : (m.find? (fun e => e.1 == k)).isSome
  · rw [if_pos h, if_pos h, List.map_map]
    apply List.map_congr_left
    intro e _
    by_cases he : e.1 == k
    · simp only [Function.comp, if_pos he]
      simp only [beq_iff_eq] at he
      exact he.symm
    · simp only [Function.comp, if_neg he]
  · rw [if_neg h, if_neg h, List.map_append]
    rfl

theorem mem_assocSet {α β : Type} [BEq α] [LawfulBEq α] (m : List (α × β)) (k : α) (v : β)
    (p : α × β) (hp : p ∈ assocSet m k v) : p = (k, v) ∨ p ∈ m := by
  rw [assocSet] at hp
  by_cases h : (m.find? (fun e => e.1 == k)).isSome
  · rw [if_pos h] at hp
    obtain ⟨e, he, hpe⟩ := List.mem_map.1 hp
    by_cases hek : e.1 == k
    · rw [if_pos hek] at hpe
      exact Or.inl hpe.symm
    · rw [if_neg hek] at hpe
      exact Or.inr (hpe ▸ he)
  · rw [if_neg h] at hp
    rcases List.mem_append.1 hp with hm | hs
    · exact Or.inr hm
    · exact Or.inl (by simpa using hs)

theorem assocGet_mem {α β : Type} [BEq α] [LawfulBEq α] (m : List (α × β)) (k : α) (v : β)
    (h : assocGet m k = some v) : (k, v) ∈ m := by
  rw [assocGet] at h
  cases hf : m.find? (fun e => e.1 == k) with
  | none => rw [hf] at h; exact absurd h (by simp)
  | some e =>
    rw [hf] at h
    have hke := List.find?_some hf
    have hm := List.mem_of_find?_eq_some hf
    simp at h
    simp only [beq_iff_eq] at hke
    rw [← h, ← hke]
    exact hm

/-! ## What `processRecords` stores for each triple: first record wins -/

theorem unitOf_insert (m : List (Str × OutwardData)) (p : ParsedPostcode) (od : OutwardData)
    (sd : SectorData) (lat lon : Int) (o : Str) (s u : Nat)
    (hfound : sd.units.find? (fun x => x.unitIndex == p.unitIndex) = none) :
    unitOf (assocSet m p.outward ⟨od.outward, assocSet od.sectors p.sector
      ⟨sd.sectorNumber, sd.units ++ [⟨p.unitIndex, lat, lon⟩],
        min sd.latMin lat, max sd.latMax lat,
        min sd.lonMin lon, max sd.lonMax lon⟩⟩) o s u =
      if p.outward = o then
        if p.sector = s then
          if p.unitIndex = u then some (lat, lon)
          else (sd.units.find? (fun x => x.unitIndex == u)).map
            (fun x => (x.latInt, x.lonInt))
        else
          match assocGet od.sectors s with
          | none => none
          | some sd2 => (sd2.units.find? (fun x => x.unitIndex == u)).map
              (fun x => (x.latInt, x.lonInt))
      else unitOf m o s u := by
  by_cases ho : p.outward = o
  · subst ho
    rw [if_pos rfl, unitOf, assocGet_set_self]
    dsimp only
    by_cases hs : p.sector = s
    · subst hs
      rw [if_pos rfl, assocGet_set_self]
      dsimp only
      by_cases hu : p.unitIndex = u
      · subst hu
        rw [if_pos rfl, List.find?_append, hfound]
        simp [List.find?]
      · rw [if_neg hu, List.find?_append]
        have hbe : (p.unitIndex == u) = false := by
          simp only [beq_eq_false_iff_ne, ne_eq]
          exact hu
        have hnew : List.find? (fun x : UnitData => x.unitIndex == u)
            [⟨p.unitIndex, lat, lon⟩] = none := by
          simp [List.find?, hbe]
        rw [hnew]
        cases List.find? (fun x : UnitData => x.unitIndex == u) sd.units <;> rfl
    · rw [if_neg hs, assocGet_set_ne _ _ _ _ (Ne.symm hs)]
  · rw [if_neg ho, unitOf, unitOf, assocGet_set_ne _ _ _ _ (Ne.symm ho)]

theorem unitOf_processRecord (m : List (Str × OutwardData)) (r : PostcodeRecord)
    (o : Str) (s u : Nat) :
    unitOf (processRecord m r) o s u =
      match PostcodeNormalizer.parsePostcode r.postcode with
      | none => unitOf m o s u
      | some p =>
        if p.outward = o ∧ p.sector = s ∧ p.unitIndex = u then
          some ((unitOf m o s u).getD (round (r.lat * 100000), round (r.lon * 100000)))
        else unitOf m o s u := by
  rw [processRecord]
  cases hparse : PostcodeNormalizer.parsePostcode r.postcode with
  | none => rfl
  | some p =>
    dsimp only
    cases hod : assocGet m p.outward with
    | none =>
      rw [if_neg (by simp [List.find?])]
      have hnone : ∀ s' u', unitOf m p.outward s' u' = none := by
        intro s' u'
        rw [unitOf, hod]
      refine Eq.trans (unitOf_insert m p ⟨p.outward, []⟩ (⟨p.sector, [], round (r.lat * 100000), round (r.lat * 100000), round (r.lon * 100000), round (r.lon * 100000)⟩ : SectorData)
        (round (r.lat * 100000)) (round (r.lon * 100000)) o s u rfl) ?_
      by_cases ho : p.outward = o
      · subst ho
        rw [if_pos rfl]
        by_cases hs : p.sector = s
        · subst hs
          rw [if_pos rfl]
          by_cases hu : p.unitIndex = u
          · subst hu
            have htr : p.outward = p.outward ∧ p.sector = p.sector ∧
                p.unitIndex = p.unitIndex := ⟨rfl, rfl, rfl⟩
            rw [if_pos rfl, if_pos htr, hnone]
            rfl
          · have hnm : ¬(p.outward = p.outward ∧ p.sector = p.sector ∧ p.unitIndex = u) :=
              fun hh => hu hh.2.2
            rw [if_neg hu, if_neg hnm, hnone]
            simp [List.find?]
        · have hnm : ¬(p.outward = p.outward ∧ p.sector = s ∧ p.unitIndex = u) :=
            fun hh => hs hh.2.1
          rw [if_neg hs, if_neg hnm, hnone]
          rfl
      · have hnm : ¬(p.outward = o ∧ p.sector = s ∧ p.unitIndex = u) := fun hh => ho hh.1
        rw [if_neg ho, if_neg hnm]
    | some od =>
      dsimp only
      cases hsd : assocGet od.sectors p.sector with
      | none =>
        dsimp only
        rw [if_neg (by simp [List.find?])]
        have hnone2 : ∀ u', unitOf m p.outward p.sector u' = none := by
          intro u'
          rw [unitOf, hod]
          dsimp only
          rw [hsd]
        refine Eq.trans (unitOf_insert m p od (⟨p.sector, [], round (r.lat * 100000), round (r.lat * 100000), round (r.lon * 100000), round (r.lon * 100000)⟩ : SectorData)
          (round (r.lat * 100000)) (round (r.lon * 100000)) o s u rfl) ?_
        by_cases ho : p.outward = o
        · subst ho
          rw [if_pos rfl]
          by_cases hs : p.sector = s
          · subst hs
            rw [if_pos rfl]
            by_cases hu : p.unitIndex = u
            · subst hu
              have htr : p.outward = p.outward ∧ p.sector = p.sector ∧
                  p.unitIndex = p.unitIndex := ⟨rfl, rfl, rfl⟩
              rw [if_pos rfl, if_pos htr, hnone2]
              rfl
            · have hnm : ¬(p.outward = p.outward ∧ p.sector = p.sector ∧ p.unitIndex = u) :=
                fun hh => hu hh.2.2
              rw [if_neg hu, if_neg hnm, hnone2]
              simp [List.find?]
          · have hnm : ¬(p.outward = p.outward ∧ p.sector = s ∧ p.unitIndex = u) :=
              fun hh => hs hh.2.1
            rw [if_neg hs, if_neg hnm, unitOf, hod]
        · have hnm : ¬(p.outward = o ∧ p.sector = s ∧ p.unitIndex = u) := fun hh => ho hh.1
          rw [if_neg ho, if_neg hnm]
      | some sd =>
        dsimp only
        by_cases hdup : (sd.units.find? (fun x => x.unitIndex == p.unitIndex)).isSome
        · rw [if_pos hdup]
          by_cases hm : p.outward = o ∧ p.sector = s ∧ p.unitIndex = u
          · obtain ⟨ho, hs, hu⟩ := hm
            subst ho
            subst hs
            subst hu
            have htr : p.outward = p.outward ∧ p.sector = p.sector ∧
                p.unitIndex = p.unitIndex := ⟨rfl, rfl, rfl⟩
            rw [if_pos htr]
            obtain ⟨x, hx⟩ := Option.isSome_iff_exists.1 hdup
            have hval : unitOf m p.outward p.sector p.unitIndex =
                some (x.latInt, x.lonInt) := by
              rw [unitOf, hod]
              dsimp only
              rw [hsd]
              dsimp only
              rw [hx]
              rfl
            rw [hval]
            rfl
          · rw [if_neg hm]
        · rw [if_neg hdup]
          rw [Option.not_isSome_iff_eq_none] at hdup
          have hget : ∀ u', unitOf m p.outward p.sector u' =
              (sd.units.find? (fun x => x.unitIndex == u')).map
                (fun x => (x.latInt, x.lonInt)) := by
            intro u'
            rw [unitOf, hod]
            dsimp only
            rw [hsd]
          refine Eq.trans (unitOf_insert m p od sd
            (round (r.lat * 100000)) (round (r.lon * 100000)) o s u hdup) ?_
          by_cases ho : p.outward = o
          · subst ho
            rw [if_pos rfl]
            by_cases hs : p.sector = s
            · subst hs
              rw [if_pos rfl]
              by_cases hu : p.unitIndex = u
              · subst hu
                have htr : p.outward = p.outward ∧ p.sector = p.sector ∧
                    p.unitIndex = p.unitIndex := ⟨rfl, rfl, rfl⟩
                rw [if_pos rfl, if_pos htr, hget, hdup]
                rfl
              · have hnm : ¬(p.outward = p.outward ∧ p.sector = p.sector ∧ p.unitIndex = u) :=
                  fun hh => hu hh.2.2
                rw [if_neg hu, if_neg hnm, hget]
            · have hnm : ¬(p.outward = p.outward ∧ p.sector = s ∧ p.unitIndex = u) :=
                fun hh => hs hh.2.1
              rw [if_neg hs, if_neg hnm, unitOf, hod]
          · have hnm : ¬(p.outward = o ∧ p.sector = s ∧ p.unitIndex = u) := fun hh => ho hh.1
            rw [if_neg ho, if_neg hnm]

theorem unitOf_foldl (records : List PostcodeRecord) :
    ∀ (m : List (Str × OutwardData)) (o : Str) (s u : Nat),
      unitOf (records.foldl processRecord m) o s u =
        ((unitOf m o s u).orElse (fun _ =>
          (records.find? (recMatches o s u)).map
            (fun r => (round (r.lat * 100000), round (r.lon * 100000))))) := by
  induction records with
  | nil =>
    intro m o s u
    rw [List.foldl_nil, List.find?_nil]
    cases unitOf m o s u <;> rfl
  | cons r rs ih =>
    intro m o s u
    rw [List.foldl_cons, ih, unitOf_processRecord]
    cases hparse : PostcodeNormalizer.parsePostcode r.postcode with
    | none =>
      have hpr : recMatches o s u r = false := by
        rw [recMatches, hparse]
      rw [find?_cons_neg (recMatches o s u) _ _ hpr]
    | some p =>
      dsimp only
      by_cases hm : p.outward = o ∧ p.sector = s ∧ p.unitIndex = u
      · obtain ⟨ho, hs, hu⟩ := hm
        have htr : p.outward = o ∧ p.sector = s ∧ p.unitIndex = u := ⟨ho, hs, hu⟩
        rw [if_pos htr]
        have hpr : recMatches o s u r = true := by
          rw [recMatches, hparse]
          simp [ho, hs, hu]
        rw [find?_cons_pos (recMatches o s u) _ _ hpr]
        cases unitOf m o s u <;> rfl
      · rw [if_neg hm]
        have hpr : recMatches o s u r = false := by
          rw [recMatches, hparse]
          simp only [Bool.and_eq_true, beq_iff_eq, Bool.and_eq_false_iff,
            beq_eq_false_iff_ne, ne_eq]
          by_cases ho : p.outward = o
          · by_cases hs : p.sector = s
            · have hu : ¬p.unitIndex = u := fun hu => hm ⟨ho, hs, hu⟩
              exact Or.inr hu
            · exact Or.inl (Or.inr hs)
          · exact Or.inl (Or.inl ho)
        rw [find?_cons_neg (recMatches o s u) _ _ hpr]

/-- The grouping map stores, for each `(outward, sector, unit_index)`
triple, the quantized coordinates of the FIRST input record that parses to
that triple. -/
theorem unitOf_processRecords (records : List PostcodeRecord) (o : Str) (s u : Nat) :
    unitOf (processRecords records) o s u =
      (records.find? (recMatches o s u)).map
        (fun r => (round (r.lat * 100000), round (r.lon * 100000))) := by
  rw [processRecords, unitOf_foldl]
  rfl

/-! ## The `processRecords` well-formedness invariant -/

theorem parse_bounds (s : Str) (p : ParsedPostcode)
    (h : PostcodeNormalizer.parsePostcode s = some p) :
    p.sector ≤ 9 ∧ p.unitIndex ≤ 675 ∧ p.outward ≠ [] := by
  rw [PostcodeNormalizer.parsePostcode] at h
  split at h
  · simp at h
  · dsimp only at h
    split at h
    · simp at h
    · split at h
      · simp at h
      · rename_i houtw
        rw [PostcodeNormalizer.parseComponents.eq_def] at h
        split at h
        · rename_i sectorChar unit
          split at h
          · rename_i hdig
            split at h
            · rename_i ui hui
              rw [Option.some_inj] at h
              subst h
              dsimp only
              exact ⟨by omega, PostcodeNormalizer.unitToIndex_le hui,
                fun hemp => houtw (Or.inl hemp)⟩
            · simp at h
          · simp at h
        · simp at h

theorem assocGet_eq_none_iff {α β : Type} [BEq α] [LawfulBEq α] (m : List (α × β)) (k : α) :
    assocGet m k = none ↔ k ∉ m.map Prod.fst := by
  rw [assocGet]
  constructor
  · intro h hk
    have hf : List.find? (fun e : α × β => e.1 == k) m = none := Option.map_eq_none'.1 h
    rw [List.find?_eq_none] at hf
    obtain ⟨e, he, hek⟩ := List.mem_map.1 hk
    exact absurd (by simp [hek] : (fun e : α × β => e.1 == k) e = true) (by simp [hf e he])
  · intro hk
    have hf : List.find? (fun e : α × β => e.1 == k) m = none := by
      rw [List.find?_eq_none]
      intro e he hek
      simp only [beq_iff_eq] at hek
      exact hk (List.mem_map.2 ⟨e, he, hek⟩)
    rw [hf]
    rfl

theorem nodup_append_singleton {α : Type} (l : List α) (a : α)
    (hl : l.Nodup) (ha : a ∉ l) : (l ++ [a]).Nodup := by
  rw [List.nodup_append]
  refine ⟨hl, List.nodup_singleton a, ?_⟩
  intro x hx
  rw [List.mem_singleton]
  intro hxa
  exact ha (hxa ▸ hx)

theorem WFSector_insert (s : Nat) (sd : SectorData) (ui : Nat) (lat lon : Int)
    (hwf : WFSector s sd) (hui : ui ≤ 675)
    (hnodup : ∀ x ∈ sd.units, x.unitIndex ≠ ui) :
    WFSector s ⟨sd.sectorNumber, sd.units ++ [⟨ui, lat, lon⟩],
      min sd.latMin lat, max sd.latMax lat, min sd.lonMin lon, max sd.lonMax lon⟩ := by
  obtain ⟨hsn, hs9, hne, hnd, hbound, ⟨xlat, hxlat, hxlatv⟩, ⟨xlon, hxlon, hxlonv⟩⟩ := hwf
  refine ⟨hsn, hs9, by simp, ?_, ?_, ?_, ?_⟩
  · rw [List.map_append]
    apply nodup_append_singleton _ _ hnd
    intro hmem
    obtain ⟨x, hx, hxv⟩ := List.mem_map.1 hmem
    exact hnodup x hx hxv
  · intro x hx
    rcases List.mem_append.1 hx with hold | hnew
    · obtain ⟨h1, h2, h3⟩ := hbound x hold
      exact ⟨h1, le_trans (min_le_left _ _) h2, le_trans (min_le_left _ _) h3⟩
    · rw [List.mem_singleton] at hnew
      subst hnew
      exact ⟨hui, min_le_right _ _, min_le_right _ _⟩
  · rcases le_total sd.latMin lat with hc | hc
    · exact ⟨xlat, List.mem_append_left _ hxlat, by rw [hxlatv, min_eq_left hc]⟩
    · exact ⟨⟨ui, lat, lon⟩, List.mem_append_right _ (by simp), by
        show lat = min sd.latMin lat
        rw [min_eq_right hc]⟩
  · rcases le_total sd.lonMin lon with hc | hc
    · exact ⟨xlon, List.mem_append_left _ hxlon, by rw [hxlonv, min_eq_left hc]⟩
    · exact ⟨⟨ui, lat, lon⟩, List.mem_append_right _ (by simp), by
        show lon = min sd.lonMin lon
        rw [min_eq_right hc]⟩

theorem WFSector_fresh (s ui : Nat) (lat lon : Int) (hs : s ≤ 9) (hui : ui ≤ 675) :
    WFSector s ⟨s, ([] : List UnitData) ++ [⟨ui, lat, lon⟩],
      min lat lat, max lat lat, min lon lon, max lon lon⟩ := by
  refine ⟨rfl, hs, by simp, by simp, ?_, ?_, ?_⟩
  · intro x hx
    rw [List.nil_append, List.mem_singleton] at hx
    subst hx
    exact ⟨hui, by simp, by simp⟩
  · exact ⟨⟨ui, lat, lon⟩, by simp, by simp⟩
  · exact ⟨⟨ui, lat, lon⟩, by simp, by simp⟩

theorem WFInv_processRecord (records : List PostcodeRecord) (m : List (Str × OutwardData))
    (r : PostcodeRecord) (hr : r ∈ records) (h : WFInv records m) :
    WFInv records (processRecord m r) := by
  obtain ⟨hkeys, hent⟩ := h
  rw [processRecord]
  cases hparse : PostcodeNormalizer.parsePostcode r.postcode with
  | none => exact ⟨hkeys, hent⟩
  | some p =>
    dsimp only
    obtain ⟨hsec9, hui675, hone⟩ := parse_bounds _ _ hparse
    have hprovnew : UnitFromRecords records
        ⟨p.unitIndex, round (r.lat * 100000), round (r.lon * 100000)⟩ :=
      ⟨r, hr, by rw [hparse]; rfl, rfl, rfl⟩
    cases hod : assocGet m p.outward with
    | none =>
      dsimp only
      rw [show assocGet ([] : List (Nat × SectorData)) p.sector =
        (none : Option SectorData) from rfl]
      dsimp only
      rw [if_neg (by simp [List.find?])]
      have hfind : m.find? (fun e => e.1 == p.outward) = none := Option.map_eq_none'.1 hod
      have hnotin : p.outward ∉ m.map Prod.fst := (assocGet_eq_none_iff m p.outward).1 hod
      constructor
      · rw [keys_assocSet, if_neg (by rw [hfind]; simp)]
        exact nodup_append_singleton _ _ hkeys hnotin
      · intro pr hpr
        rcases mem_assocSet _ _ _ _ hpr with rfl | hold
        · refine ⟨⟨r, hr, p, hparse, rfl⟩, ⟨rfl, ?_, ?_⟩, ?_⟩
          · dsimp only
            rw [keys_assocSet, if_neg (by simp [List.find?])]
            simp
          · intro e he
            dsimp only at he
            rcases mem_assocSet _ _ _ _ he with rfl | habs
            · exact WFSector_fresh p.sector p.unitIndex _ _ hsec9 hui675
            · exact absurd habs (List.not_mem_nil e)
          · intro e he x hx
            dsimp only at he
            rcases mem_assocSet _ _ _ _ he with rfl | habs
            · dsimp only at hx
              rcases List.mem_append.1 hx with habs2 | hnew
              · exact absurd habs2 (List.not_mem_nil x)
              · rw [List.mem_singleton] at hnew
                subst hnew
                exact hprovnew
            · exact absurd habs (List.not_mem_nil e)
        · exact hent pr hold
    | some od =>
      dsimp only
      obtain ⟨hprov_od, ⟨hodk, hsk, hsecs⟩, hunits_prov⟩ :=
        hent (p.outward, od) (assocGet_mem _ _ _ hod)
      have hfindS : (m.find? (fun e => e.1 == p.outward)).isSome := by
        rw [assocGet] at hod
        cases hf : m.find? (fun e => e.1 == p.outward) with
        | none => rw [hf] at hod; exact absurd hod (by simp)
        | some e => simp
      cases hsd : assocGet od.sectors p.sector with
      | none =>
        dsimp only
        rw [if_neg (by simp [List.find?])]
        have hsnotin : p.sector ∉ od.sectors.map Prod.fst :=
          (assocGet_eq_none_iff od.sectors p.sector).1 hsd
        have hsfind : od.sectors.find? (fun e => e.1 == p.sector) = none :=
          Option.map_eq_none'.1 hsd
        constructor
        · rw [keys_assocSet, if_pos hfindS]
          exact hkeys
        · intro pr hpr
          rcases mem_assocSet _ _ _ _ hpr with rfl | hold
          · refine ⟨⟨r, hr, p, hparse, rfl⟩, ⟨hodk, ?_, ?_⟩, ?_⟩
            · dsimp only
              rw [keys_assocSet, if_neg (by rw [hsfind]; simp)]
              exact nodup_append_singleton _ _ hsk hsnotin
            · intro e he
              dsimp only at he
              rcases mem_assocSet _ _ _ _ he with rfl | holds
              · exact WFSector_fresh p.sector p.unitIndex _ _ hsec9 hui675
              · exact hsecs e holds
            · intro e he x hx
              dsimp only at he
              rcases mem_assocSet _ _ _ _ he with rfl | holds
              · dsimp only at hx
                rcases List.mem_append.1 hx with habs2 | hnew
                · exact absurd habs2 (List.not_mem_nil x)
                · rw [List.mem_singleton] at hnew
                  subst hnew
                  exact hprovnew
              · exact hunits_prov e holds x hx
          · exact hent pr hold
      | some sd =>
        dsimp only
        obtain hsd_wf := hsecs (p.sector, sd) (assocGet_mem _ _ _ hsd)
        by_cases hdup : (sd.units.find? (fun x => x.unitIndex == p.unitIndex)).isSome
        · rw [if_pos hdup]
          exact ⟨hkeys, hent⟩
        · rw [if_neg hdup]
          rw [Option.not_isSome_iff_eq_none] at hdup
          have hnotinu : ∀ x ∈ sd.units, x.unitIndex ≠ p.unitIndex := by
            intro x hx
            have := List.find?_eq_none.1 hdup x hx
            simpa using this
          have hsfindS : (od.sectors.find? (fun e => e.1 == p.sector)).isSome := by
            rw [assocGet] at hsd
            cases hf : od.sectors.find? (fun e => e.1 == p.sector) with
            | none => rw [hf] at hsd; exact absurd hsd (by simp)
            | some e => simp
          constructor
          · rw [keys_assocSet, if_pos hfindS]
            exact hkeys
          · intro pr hpr
            rcases mem_assocSet _ _ _ _ hpr with rfl | hold
            · refine ⟨⟨r, hr, p, hparse, rfl⟩, ⟨hodk, ?_, ?_⟩, ?_⟩
              · dsimp only
                rw [keys_assocSet, if_pos hsfindS]
                exact hsk
              · intro e he
                dsimp only at he
                rcases mem_assocSet _ _ _ _ he with rfl | holds
                · exact WFSector_insert p.sector sd p.unitIndex _ _ hsd_wf hui675 hnotinu
                · exact hsecs e holds
              · intro e he x hx
                dsimp only at he
                rcases mem_assocSet _ _ _ _ he with rfl | holds
                · dsimp only at hx
                  rcases List.mem_append.1 hx with hxold | hnew
                  · exact hunits_prov (p.sector, sd) (assocGet_mem _ _ _ hsd) x hxold
                  · rw [List.mem_singleton] at hnew
                    subst hnew
                    exact hprovnew
                · exact hunits_prov e holds x hx
            · exact hent pr hold

theorem WFInv_foldl (records : List PostcodeRecord) :
    ∀ (rs : List PostcodeRecord), (∀ r ∈ rs, r ∈ records) →
      ∀ m, WFInv records m → WFInv records (rs.foldl processRecord m) := by
  intro rs
  induction rs with
  | nil => intro _ m hm; exact hm
  | cons r rs ih =>
    intro hsub m hm
    rw [List.foldl_cons]
    exact ih (fun x hx => hsub x (by simp [hx]))
      _ (WFInv_processRecord records m r (hsub r (by simp)) hm)

/-- The grouping map built by `processRecords` is well-formed. -/
theorem WFInv_processRecords (records : List PostcodeRecord) :
    WFInv records (processRecords records) := by
  rw [processRecords]
  exact WFInv_foldl records records (fun _ hx => hx) [] ⟨by simp, by simp⟩

/-! ## Small order and cardinality lemmas -/

theorem foldl_min_le (l : List Int) : ∀ a : Int,
    l.foldl min a ≤ a ∧ ∀ x ∈ l, l.foldl min a ≤ x := by
  induction l with
  | nil => intro a; simp
  | cons y ys ih =>
    intro a
    obtain ⟨h1, h2⟩ := ih (min a y)
    refine ⟨le_trans h1 (min_le_left a y), ?_⟩
    intro x hx
    rcases List.mem_cons.1 hx with rfl | hx
    · exact le_trans h1 (min_le_right a x)
    · exact h2 x hx

theorem foldl_min_mem (l : List Int) : ∀ a : Int,
    l.foldl min a = a ∨ l.foldl min a ∈ l := by
  induction l with
  | nil => intro a; exact Or.inl rfl
  | cons y ys ih =>
    intro a
    rcases ih (min a y) with h | h
    · rw [List.foldl_cons, h]
      rcases le_total a y with hc | hc
      · exact Or.inl (min_eq_left hc)
      · exact Or.inr (by rw [min_eq_right hc]; simp)
    · exact Or.inr (by rw [List.foldl_cons]; exact List.mem_cons_of_mem y h)

theorem foldl_max_mem (l : List Int) : ∀ a : Int,
    l.foldl max a = a ∨ l.foldl max a ∈ l := by
  induction l with
  | nil => intro a; exact Or.inl rfl
  | cons y ys ih =>
    intro a
    rcases ih (max a y) with h | h
    · rw [List.foldl_cons, h]
      rcases le_total a y with hc | hc
      · exact Or.inr (by rw [max_eq_right hc]; simp)
      · exact Or.inl (max_eq_left hc)
    · exact Or.inr (by rw [List.foldl_cons]; exact List.mem_cons_of_mem y h)

theorem nodup_lt_length_le (l : List Nat) (n : Nat) (hl : l.Nodup)
    (hb : ∀ x ∈ l, x < n) : l.length ≤ n := by
  have hsub : l.toFinset ⊆ Finset.range n := by
    intro x hx
    rw [Finset.mem_range]
    exact hb x (List.mem_toFinset.1 hx)
  have := Finset.card_le_card hsub
  rw [List.toFinset_card_of_nodup hl, Finset.card_range] at this
  exact this

theorem calculateBitWidth_le (mv : Int) (n : Nat) (h0 : 0 ≤ mv) (hv : mv < 2 ^ n) :
    calculateBitWidth mv ≤ n := by
  rw [calculateBitWidth]
  by_cases hm : mv = 0
  · rw [if_pos hm]
    exact Nat.zero_le n
  · rw [if_neg hm]
    have hv2 : mv.toNat < 2 ^ n := by
      zify
      rw [Int.toNat_of_nonneg h0]
      exact hv
    have h1 : mv.toNat + 1 ≤ 2 ^ n := by omega
    calc Nat.clog 2 (mv.toNat + 1) ≤ Nat.clog 2 (2 ^ n) := Nat.clog_mono_right 2 h1
      _ = n := Nat.clog_pow 2 n (by norm_num)

theorem sum_le_card_mul (l : List Nat) (B : Nat) (h : ∀ x ∈ l, x ≤ B) :
    l.sum ≤ l.length * B := by
  induction l with
  | nil => simp
  | cons x xs ih =>
    rw [List.sum_cons, List.length_cons, Nat.succ_mul]
    have h1 := h x (by simp)
    have h2 := ih (fun y hy => h y (by simp [hy]))
    omega

theorem pairwise_lt_of_le_nodup (l : List UnitData)
    (hle : List.Pairwise (fun a b => b.unitIndex < a.unitIndex → False) l)
    (hnd : (l.map (fun x => x.unitIndex)).Nodup) :
    List.Pairwise (fun a b => a.unitIndex < b.unitIndex) l := by
  have hnd2 : List.Pairwise (fun a b : UnitData => a.unitIndex ≠ b.unitIndex) l :=
    (List.pairwise_map).1 hnd
  have hboth := List.Pairwise.and hle hnd2
  exact hboth.imp (fun h => lt_of_le_of_ne (not_lt.1 h.1) h.2)

theorem assocGet_isSome_of_mem_keys {α β : Type} [BEq α] [LawfulBEq α]
    (m : List (α × β)) (k : α) (hk : k ∈ m.map Prod.fst) :
    ∃ v, assocGet m k = some v := by
  cases hv : assocGet m k with
  | none => exact absurd ((assocGet_eq_none_iff m k).1 hv) (by simp [hk])
  | some v => exact ⟨v, rfl⟩

/-! ## `processSectors`: sorting the units preserves the map structure -/

theorem processSectors_eq (m : List (Str × OutwardData)) :
    processSectors m = m.map (fun o => (o.1, sortOD o.2)) := rfl

theorem assocGet_map_pair {α β γ : Type} [BEq α] (m : List (α × β)) (g : β → γ) (k : α) :
    assocGet (m.map (fun o => (o.1, g o.2))) k = (assocGet m k).map g := by
  induction m with
  | nil => rfl
  | cons e es ih =>
    rw [List.map_cons, assocGet, assocGet]
    by_cases he : e.1 == k
    · rw [find?_cons_pos (fun x : α × γ => x.1 == k) _ _ (by simpa using he),
        find?_cons_pos (fun x : α × β => x.1 == k) _ _ he]
      rfl
    · rw [find?_cons_neg (fun x : α × γ => x.1 == k) _ _ (by simpa using he),
        find?_cons_neg (fun x : α × β => x.1 == k) _ _ (by simpa using he)]
      exact ih

theorem keys_processSectors (m : List (Str × OutwardData)) :
    (processSectors m).map Prod.fst = m.map Prod.fst := by
  rw [processSectors_eq, List.map_map]
  rfl

theorem assocGet_processSectors (m : List (Str × OutwardData)) (k : Str) :
    assocGet (processSectors m) k = (assocGet m k).map sortOD := by
  rw [processSectors_eq]
  exact assocGet_map_pair m sortOD k

theorem find?_eq_of_perm_unique {α : Type} (p : α → Bool) (l l' : List α)
    (hperm : l.Perm l')
    (huniq : ∀ a ∈ l, ∀ b ∈ l, p a = true → p b = true → a = b) :
    l.find? p = l'.find? p := by
  cases hf : l.find? p with
  | none =>
    rw [List.find?_eq_none] at hf
    symm
    rw [List.find?_eq_none]
    intro x hx
    exact hf x (hperm.mem_iff.2 hx)
  | some a =>
    have ha := List.mem_of_find?_eq_some hf
    have hpa := List.find?_some hf
    cases hf' : l'.find? p with
    | none =>
      rw [List.find?_eq_none] at hf'
      exact absurd hpa (by simpa using hf' a (hperm.mem_iff.1 ha))
    | some b =>
      have hb := hperm.mem_iff.2 (List.mem_of_find?_eq_some hf')
      have hpb := List.find?_some hf'
      rw [huniq a ha b hb hpa hpb]

theorem unitOf_processSectors (m : List (Str × OutwardData)) (o : Str) (s u : Nat)
    (hwf : ∀ pr ∈ m, ∀ e ∈ pr.2.sectors, (e.2.units.map (fun x => x.unitIndex)).Nodup) :
    unitOf (processSectors m) o s u = unitOf m o s u := by
  rw [unitOf, unitOf, assocGet_processSectors]
  cases hod : assocGet m o with
  | none => rfl
  | some od =>
    dsimp only [Option.map_some']
    have h1 : assocGet (sortOD od).sectors s =
        (assocGet od.sectors s).map (fun sd => (⟨sd.sectorNumber,
          sortBy (fun a b => a.unitIndex < b.unitIndex) sd.units,
          sd.latMin, sd.latMax, sd.lonMin, sd.lonMax⟩ : SectorData)) :=
      assocGet_map_pair od.sectors (fun sd => (⟨sd.sectorNumber,
        sortBy (fun a b => a.unitIndex < b.unitIndex) sd.units,
        sd.latMin, sd.latMax, sd.lonMin, sd.lonMax⟩ : SectorData)) s
    rw [h1]
    cases hsd : assocGet od.sectors s with
    | none => rfl
    | some sd =>
      dsimp only [Option.map_some']
      have hnd : (sd.units.map (fun x => x.unitIndex)).Nodup :=
        hwf (o, od) (assocGet_mem _ _ _ hod) (s, sd) (assocGet_mem _ _ _ hsd)
      have hperm : (sortBy (fun a b => a.unitIndex < b.unitIndex) sd.units).Perm sd.units :=
        perm_sortBy _ _
      rw [find?_eq_of_perm_unique (fun x => x.unitIndex == u) _ _ hperm ?_]
      intro a ha b hb hpa hpb
      simp only [beq_iff_eq] at hpa hpb
      exact List.inj_on_of_nodup_map hnd (hperm.mem_iff.1 ha) (hperm.mem_iff.1 hb)
        (by rw [hpa, hpb])

/-! ## Finding a sector in the parsed table -/

theorem find?_sectorEntriesOf (gLat gLon : Int) (t : Nat) :
    ∀ (ss : List SectorData) (off : Nat),
      (sectorEntriesOf gLat gLon ss off).find? (fun e => e.sectorNumber == t) =
        (sectorFind ss off t).map (fun p =>
          ⟨p.1.sectorNumber, p.1.units.length, p.2, p.1.latMin - gLat, p.1.lonMin - gLon,
            if (chooseSectorMode p.1).1 then 3 else 1, sectorBitsLat p.1, sectorBitsLon p.1⟩) := by
  intro ss
  induction ss with
  | nil => intro off; rfl
  | cons sd rest ih =>
    intro off
    rw [sectorEntriesOf, sectorFind]
    by_cases h : sd.sectorNumber = t
    · rw [if_pos h]
      rw [find?_cons_pos (fun e : SectorEntry => e.sectorNumber == t) _ _ (by simp [h])]
      rfl
    · rw [if_neg h]
      rw [find?_cons_neg (fun e : SectorEntry => e.sectorNumber == t) _ _ (by simp [h])]
      exact ih _

theorem sectorFind_none (t : Nat) :
    ∀ (ss : List SectorData), (∀ sd ∈ ss, sd.sectorNumber ≠ t) →
      ∀ off, sectorFind ss off t = none := by
  intro ss
  induction ss with
  | nil => intro _ _; rfl
  | cons sd rest ih =>
    intro h off
    rw [sectorFind, if_neg (h sd (by simp))]
    exact ih (fun x hx => h x (by simp [hx])) _

theorem sectorFind_isSome (t : Nat) :
    ∀ (ss : List SectorData), (∃ sd0 ∈ ss, sd0.sectorNumber = t) →
      ∀ off, (sectorFind ss off t).isSome := by
  intro ss
  induction ss with
  | nil => intro h _; obtain ⟨sd0, h0, _⟩ := h; exact absurd h0 (List.not_mem_nil sd0)
  | cons sd rest ih =>
    intro h off
    rw [sectorFind]
    by_cases hc : sd.sectorNumber = t
    · rw [if_pos hc]; rfl
    · rw [if_neg hc]
      obtain ⟨sd0, h0, ht⟩ := h
      rcases List.mem_cons.1 h0 with rfl | h0r
      · exact absurd ht hc
      · exact ih ⟨sd0, h0r, ht⟩ _

theorem sectorFind_blob (t : Nat) :
    ∀ (ss : List SectorData) (off : Nat) (sd' : SectorData) (off' : Nat),
      sectorFind ss off t = some (sd', off') →
      sd' ∈ ss ∧ sd'.sectorNumber = t ∧
      ∃ preB postB, sectorBlobsOf ss = preB ++ sdBlob sd' ++ postB ∧
        off + preB.length = off' := by
  intro ss
  induction ss with
  | nil => intro off sd' off' h; exact absurd h (by rw [sectorFind]; simp)
  | cons sd rest ih =>
    intro off sd' off' h
    rw [sectorFind] at h
    by_cases hc : sd.sectorNumber = t
    · rw [if_pos hc] at h
      rw [Option.some_inj] at h
      injection h with ha hb
      subst ha
      subst hb
      refine ⟨by simp, hc, [], sectorBlobsOf rest, by rw [sectorBlobsOf]; rfl, by simp⟩
    · rw [if_neg hc] at h
      obtain ⟨hmem, ht, preB, postB, hblobs, hoff⟩ := ih _ _ _ h
      refine ⟨List.mem_cons_of_mem sd hmem, ht, sdBlob sd ++ preB, postB, ?_, ?_⟩
      · rw [sectorBlobsOf, hblobs]
        simp [List.append_assoc]
      · rw [List.length_append]
        omega

/-! ## Index entries: length, codes and positions -/

theorem length_indexEntriesAux (m : List (Str × OutwardData)) :
    ∀ (ks : List Str) (j : Nat), (∀ k ∈ ks, (assocGet m k).isSome) →
      (indexEntriesAux m ks j).length = ks.length := by
  intro ks
  induction ks with
  | nil => intro j _; rfl
  | cons k rest ih =>
    intro j hall
    obtain ⟨od, hod⟩ := Option.isSome_iff_exists.1 (hall k (by simp))
    rw [indexEntriesAux, hod]
    simp only [List.length_append, List.length_cons, List.length_nil]
    rw [ih (j + 1) (fun x hx => hall x (by simp [hx]))]
    omega

theorem map_code_indexEntriesAux (m : List (Str × OutwardData)) :
    ∀ (ks : List Str) (j : Nat), (∀ k ∈ ks, (assocGet m k).isSome) →
      (indexEntriesAux m ks j).map (fun e => e.outwardCode) = ks := by
  intro ks
  induction ks with
  | nil => intro j _; rfl
  | cons k rest ih =>
    intro j hall
    obtain ⟨od, hod⟩ := Option.isSome_iff_exists.1 (hall k (by simp))
    rw [indexEntriesAux, hod]
    simp only [List.singleton_append, List.map_cons]
    rw [ih (j + 1) (fun x hx => hall x (by simp [hx]))]

theorem indexEntriesAux_getElem? (m : List (Str × OutwardData)) :
    ∀ (ks : List Str) (j i : Nat) (hi : i < ks.length),
      (∀ k ∈ ks, (assocGet m k).isSome) →
      (indexEntriesAux m ks j)[i]? =
        (assocGet m ks[i]).map (fun od =>
          ⟨ks[i], od.sectors.length, outwardBlockOffset m (j + i)⟩) := by
  intro ks
  induction ks with
  | nil => intro j i hi _; exact absurd hi (by simp)
  | cons k rest ih =>
    intro j i hi hall
    obtain ⟨od, hod⟩ := Option.isSome_iff_exists.1 (hall k (by simp))
    rw [indexEntriesAux, hod]
    cases i with
    | zero =>
      simp only [List.singleton_append, List.getElem?_cons_zero, List.getElem_cons_zero]
      rw [hod, Nat.add_zero]
      rfl
    | succ i2 =>
      simp only [List.singleton_append, List.getElem?_cons_succ, List.getElem_cons_succ]
      rw [ih (j + 1) i2 (by simpa using hi) (fun x hx => hall x (by simp [hx]))]
      rw [show j + 1 + i2 = j + (i2 + 1) by omega]

theorem length_sortedOutwardKeys (m : List (Str × OutwardData)) :
    (sortedOutwardKeys m).length = m.length := by
  rw [sortedOutwardKeys, (perm_sortBy strLt (m.map Prod.fst)).length_eq, List.length_map]

/-! ## Block sizes and the placement of each outward block -/

theorem length_sectorTable (gLat gLon : Int) :
    ∀ (ss : List SectorData) (off : Nat),
      (sectorTable gLat gLon ss off).length = 14 * ss.length := by
  intro ss
  induction ss with
  | nil => intro off; rfl
  | cons sd rest ih =>
    intro off
    rw [sectorTable, List.length_append, sectorEntryBytes, length_writeSectorEntry, ih]
    rw [List.length_cons]
    omega

theorem length_sectorBlobsOf :
    ∀ ss : List SectorData,
      (sectorBlobsOf ss).length = (ss.map (fun sd => (sdBlob sd).length)).sum := by
  intro ss
  induction ss with
  | nil => rfl
  | cons sd rest ih =>
    rw [sectorBlobsOf, List.length_append, ih, List.map_cons, List.sum_cons]

theorem length_writeOutwardBlock (od : OutwardData) (gLat gLon : Int)
    (hsects : ∀ e ∈ od.sectors, e.2.units ≠ [] ∧
      (∀ u ∈ e.2.units, u.unitIndex < 2 ^ 32 ∧ e.2.latMin ≤ u.latInt ∧ e.2.lonMin ≤ u.lonInt) ∧
      sectorBitsLat e.2 ≤ 32 ∧ sectorBitsLon e.2 ≤ 32) :
    (writeOutwardBlock od gLat gLon).length = outwardBlockSize od := by
  rw [writeOutwardBlock_eq, List.length_append, length_sectorTable, length_sectorBlobsOf,
    outwardBlockSize]
  have hperm : (sortedSectorsOf od).Perm (od.sectors.map Prod.snd) := perm_sortBy _ _
  have hlen : (sortedSectorsOf od).length = od.sectors.length := by
    rw [hperm.length_eq, List.length_map]
  have hsum : ((sortedSectorsOf od).map (fun sd => (sdBlob sd).length)).sum =
      ((od.sectors.map Prod.snd).map (fun sd => (sdBlob sd).length)).sum :=
    (hperm.map _).sum_eq
  have hsum2 : ((od.sectors.map Prod.snd).map (fun sd => (sdBlob sd).length)).sum =
      ((od.sectors.map Prod.snd).map sectorBlobSize).sum := by
    apply congrArg
    apply List.map_congr_left
    intro sd hsd
    obtain ⟨e, he, rfl⟩ := List.mem_map.1 hsd
    obtain ⟨h1, h2, h3, h4⟩ := hsects e he
    exact length_sdBlob e.2 h1 h2 h3 h4
  rw [hlen, hsum, hsum2, List.map_map]
  have hcomp : (sectorBlobSize ∘ (Prod.snd : Nat × SectorData → SectorData)) =
      (fun s : Nat × SectorData => sectorBlobSize s.2) := rfl
  rw [hcomp]
  omega

theorem length_writeOutwardIndexEntry (k : Str) (c off : Nat) :
    (writeOutwardIndexEntry k c off).length = 9 := by
  rw [writeOutwardIndexEntry]
  simp [asciiBytes, padOutwardCode, u8, u32le]
  omega

theorem length_indexBytesAux (m : List (Str × OutwardData)) :
    ∀ (ks : List Str) (j : Nat), (∀ k ∈ ks, (assocGet m k).isSome) →
      (indexBytesAux m ks j).length = 9 * ks.length := by
  intro ks
  induction ks with
  | nil => intro j _; rfl
  | cons k rest ih =>
    intro j hall
    obtain ⟨od, hod⟩ := Option.isSome_iff_exists.1 (hall k (by simp))
    rw [indexBytesAux, hod, List.length_append, length_writeOutwardIndexEntry,
      ih (j + 1) (fun x hx => hall x (by simp [hx])), List.length_cons]
    omega

theorem blocksOf_decomp (m : List (Str × OutwardData)) (gLat gLon : Int) (j : Nat)
    (hj : j < (sortedOutwardKeys m).length)
    (hall : ∀ k ∈ sortedOutwardKeys m, (assocGet m k).isSome)
    (hblen : ∀ k ∈ sortedOutwardKeys m, ∀ od, assocGet m k = some od →
      (writeOutwardBlock od gLat gLon).length = outwardBlockSize od)
    (od_j : OutwardData) (hodj : assocGet m (sortedOutwardKeys m)[j] = some od_j) :
    ∃ P S, generateBinaryBuffer m gLat gLon =
        P ++ writeOutwardBlock od_j gLat gLon ++ S ∧
      P.length = outwardBlockOffset m j := by
  have hks : sortedOutwardKeys m =
      (sortedOutwardKeys m).take j ++ ((sortedOutwardKeys m)[j] ::
        (sortedOutwardKeys m).drop (j + 1)) := by
    rw [← List.drop_eq_getElem_cons hj, List.take_append_drop]
  refine ⟨writeHeader (sortedOutwardKeys m).length (totalUnitCountOf m) gLat gLon ++
      indexBytesAux m (sortedOutwardKeys m) 0 ++
      ((sortedOutwardKeys m).take j).flatMap (fun k =>
        match assocGet m k with
        | none => []
        | some od => writeOutwardBlock od gLat gLon),
    ((sortedOutwardKeys m).drop (j + 1)).flatMap (fun k =>
        match assocGet m k with
        | none => []
        | some od => writeOutwardBlock od gLat gLon), ?_, ?_⟩
  · have hsplit : blocksOf m gLat gLon =
        ((sortedOutwardKeys m).take j).flatMap (fun k =>
          match assocGet m k with
          | none => []
          | some od => writeOutwardBlock od gLat gLon) ++
        (writeOutwardBlock od_j gLat gLon ++
          ((sortedOutwardKeys m).drop (j + 1)).flatMap (fun k =>
            match assocGet m k with
            | none => []
            | some od => writeOutwardBlock od gLat gLon)) := by
      rw [blocksOf]
      nth_rewrite 1 [hks]
      rw [List.flatMap_append, List.flatMap_cons, hodj]
    rw [generateBinaryBuffer_eq, hsplit]
    simp [List.append_assoc]
  · rw [List.length_append, List.length_append, length_writeHeader,
      length_indexBytesAux m _ 0 hall, List.length_flatMap, outwardBlockOffset,
      length_sortedOutwardKeys]
    beta_reduce
    have hsum : (((sortedOutwardKeys m).take j).map (fun k =>
        (match assocGet m k with
          | none => []
          | some od => writeOutwardBlock od gLat gLon).length)).sum =
        (((sortedOutwardKeys m).take j).map (fun k =>
          match assocGet m k with
          | none => 0
          | some od => outwardBlockSize od)).sum := by
      apply congrArg
      apply List.map_congr_left
      intro k hk
      have hkm : k ∈ sortedOutwardKeys m := List.mem_of_mem_take hk
      obtain ⟨od, hod⟩ := Option.isSome_iff_exists.1 (hall k hkm)
      rw [hod]
      exact hblen k hkm od hod
    have hcomp : (List.length ∘ fun k =>
        match assocGet m k with
        | none => []
        | some od => writeOutwardBlock od gLat gLon) =
        (fun k => (match assocGet m k with
          | none => ([] : List Nat)
          | some od => writeOutwardBlock od gLat gLon).length) := rfl
    rw [hcomp, hsum]

/-! ## Layout facts for the sectors of the processed map -/

theorem mem_allUnits (m : List (Str × OutwardData)) (pr : Str × OutwardData)
    (hpr : pr ∈ m) (e : Nat × SectorData) (he : e ∈ pr.2.sectors)
    (x : UnitData) (hx : x ∈ e.2.units) : x ∈ allUnits m := by
  rw [allUnits]
  exact List.mem_flatMap.2 ⟨pr, hpr, List.mem_flatMap.2 ⟨e, he, hx⟩⟩

theorem sector_layout_facts (records : List PostcodeRecord)
    (k : Str) (od : OutwardData)
    (hod : assocGet (processSectors (processRecords records)) k = some od)
    (e : Nat × SectorData) (he : e ∈ od.sectors) :
    e.2.sectorNumber = e.1 ∧ e.1 ≤ 9 ∧ e.2.units ≠ [] ∧
    (e.2.units.map (fun x => x.unitIndex)).Nodup ∧
    List.Pairwise (fun a b => a.unitIndex < b.unitIndex) e.2.units ∧
    (∀ x ∈ e.2.units, x.unitIndex ≤ 675 ∧ e.2.latMin ≤ x.latInt ∧ e.2.lonMin ≤ x.lonInt ∧
      UnitFromRecords records x ∧ x ∈ allUnits (processRecords records)) ∧
    (∃ x, x ∈ e.2.units ∧ x.latInt = e.2.latMin) ∧
    (∃ x, x ∈ e.2.units ∧ x.lonInt = e.2.lonMin) := by
  rw [assocGet_processSectors] at hod
  cases hod0 : assocGet (processRecords records) k with
  | none => rw [hod0] at hod; exact absurd hod (by simp)
  | some od0 =>
    rw [hod0] at hod
    simp only [Option.map_some', Option.some_inj] at hod
    subst hod
    rw [sortOD] at he
    dsimp only at he
    obtain ⟨e0, he0, hee⟩ := List.mem_map.1 he
    obtain ⟨hkeys, hent⟩ := WFInv_processRecords records
    obtain ⟨_, ⟨_, _, hsecs⟩, hprov⟩ :=
      hent (k, od0) (assocGet_mem _ _ _ hod0)
    obtain ⟨hsn, hs9, hne, hnd, hbounds, hlatmin, hlonmin⟩ := hsecs e0 he0
    subst hee
    dsimp only
    have hperm : (sortBy (fun a b => a.unitIndex < b.unitIndex) e0.2.units).Perm e0.2.units :=
      perm_sortBy _ _
    have hnd2 : ((sortBy (fun a b => a.unitIndex < b.unitIndex) e0.2.units).map
        (fun x => x.unitIndex)).Nodup := by
      exact ((hperm.map _).nodup_iff).2 hnd
    refine ⟨hsn, hs9, ?_, hnd2, ?_, ?_, ?_, ?_⟩
    · intro hnil
      apply hne
      have hlen0 := congrArg List.length hnil
      rw [hperm.length_eq] at hlen0
      exact List.length_eq_zero.1 hlen0
    · have hple := pairwise_sortBy (fun a b => a.unitIndex < b.unitIndex) ?_ ?_ e0.2.units
      · apply pairwise_lt_of_le_nodup _ _ hnd2
        exact hple.imp (fun hab hlt => by
          simp only [decide_eq_false_iff_not] at hab
          exact hab hlt)
      · intro a b hab
        simp only [decide_eq_true_eq] at hab
        simp only [decide_eq_false_iff_not]
        omega
      · intro a b c h1 h2
        simp only [decide_eq_false_iff_not] at h1 h2 ⊢
        omega
    · intro x hx
      have hx0 : x ∈ e0.2.units := hperm.mem_iff.1 hx
      obtain ⟨h675, hlat, hlon⟩ := hbounds x hx0
      exact ⟨h675, hlat, hlon, hprov e0 he0 x hx0,
        mem_allUnits _ (k, od0) (assocGet_mem _ _ _ hod0) e0 he0 x hx0⟩
    · obtain ⟨x, hx, hxv⟩ := hlatmin
      exact ⟨x, hperm.mem_iff.2 hx, hxv⟩
    · obtain ⟨x, hx, hxv⟩ := hlonmin
      exact ⟨x, hperm.mem_iff.2 hx, hxv⟩

/-! ## Global offsets: minima over all stored units -/

theorem allUnits_prov (records : List PostcodeRecord) :
    ∀ x ∈ allUnits (processRecords records), UnitFromRecords records x := by
  intro x hx
  rw [allUnits] at hx
  obtain ⟨pr, hpr, hx2⟩ := List.mem_flatMap.1 hx
  obtain ⟨e, he, hx3⟩ := List.mem_flatMap.1 hx2
  obtain ⟨_, _, hprov⟩ := (WFInv_processRecords records).2 pr hpr
  exact hprov e he x hx3

theorem globalLatOffset_le (m : List (Str × OutwardData)) (x : UnitData)
    (hx : x ∈ allUnits m) : globalLatOffsetOf m ≤ x.latInt := by
  rw [globalLatOffsetOf]
  cases hm : (allUnits m).map (fun u => u.latInt) with
  | nil =>
    have := List.mem_map_of_mem (fun u => u.latInt) hx
    rw [hm] at this
    exact absurd this (List.not_mem_nil _)
  | cons y ys =>
    dsimp only
    have hx2 : x.latInt ∈ y :: ys := by
      rw [← hm]
      exact List.mem_map_of_mem _ hx
    rcases List.mem_cons.1 hx2 with h | h
    · rw [← h]
      exact (foldl_min_le ys _).1
    · exact (foldl_min_le ys y).2 _ h

theorem globalLonOffset_le (m : List (Str × OutwardData)) (x : UnitData)
    (hx : x ∈ allUnits m) : globalLonOffsetOf m ≤ x.lonInt := by
  rw [globalLonOffsetOf]
  cases hm : (allUnits m).map (fun u => u.lonInt) with
  | nil =>
    have := List.mem_map_of_mem (fun u => u.lonInt) hx
    rw [hm] at this
    exact absurd this (List.not_mem_nil _)
  | cons y ys =>
    dsimp only
    have hx2 : x.lonInt ∈ y :: ys := by
      rw [← hm]
      exact List.mem_map_of_mem _ hx
    rcases List.mem_cons.1 hx2 with h | h
    · rw [← h]
      exact (foldl_min_le ys _).1
    · exact (foldl_min_le ys y).2 _ h

theorem globalLatOffset_mem (m : List (Str × OutwardData)) (hne : allUnits m ≠ []) :
    ∃ x ∈ allUnits m, globalLatOffsetOf m = x.latInt := by
  rw [globalLatOffsetOf]
  cases hm : (allUnits m).map (fun u => u.latInt) with
  | nil => exact absurd (List.map_eq_nil.1 hm) hne
  | cons y ys =>
    dsimp only
    have hsub : ∀ v ∈ y :: ys, ∃ x ∈ allUnits m, v = x.latInt := by
      intro v hv
      rw [← hm] at hv
      obtain ⟨x, hx, hxv⟩ := List.mem_map.1 hv
      exact ⟨x, hx, hxv.symm⟩
    rcases foldl_min_mem ys y with h | h
    · obtain ⟨x, hx, hxv⟩ := hsub y (by simp)
      exact ⟨x, hx, by rw [h, hxv]⟩
    · obtain ⟨x, hx, hxv⟩ := hsub _ (List.mem_cons_of_mem y h)
      exact ⟨x, hx, hxv⟩

theorem globalLonOffset_mem (m : List (Str × OutwardData)) (hne : allUnits m ≠ []) :
    ∃ x ∈ allUnits m, globalLonOffsetOf m = x.lonInt := by
  rw [globalLonOffsetOf]
  cases hm : (allUnits m).map (fun u => u.lonInt) with
  | nil => exact absurd (List.map_eq_nil.1 hm) hne
  | cons y ys =>
    dsimp only
    have hsub : ∀ v ∈ y :: ys, ∃ x ∈ allUnits m, v = x.lonInt := by
      intro v hv
      rw [← hm] at hv
      obtain ⟨x, hx, hxv⟩ := List.mem_map.1 hv
      exact ⟨x, hx, hxv.symm⟩
    rcases foldl_min_mem ys y with h | h
    · obtain ⟨x, hx, hxv⟩ := hsub y (by simp)
      exact ⟨x, hx, by rw [h, hxv]⟩
    · obtain ⟨x, hx, hxv⟩ := hsub _ (List.mem_cons_of_mem y h)
      exact ⟨x, hx, hxv⟩

/-! ## Numeric bounds for stored sectors -/

theorem sector_numeric_facts (records : List PostcodeRecord)
    (hsp : ∀ r1 ∈ records, ∀ r2 ∈ records,
      (PostcodeNormalizer.parsePostcode r1.postcode).isSome →
      (PostcodeNormalizer.parsePostcode r2.postcode).isSome →
        round (r1.lat * 100000) - round (r2.lat * 100000) < 2 ^ 23 ∧
        round (r1.lon * 100000) - round (r2.lon * 100000) < 2 ^ 23)
    (k : Str) (od : OutwardData)
    (hod : assocGet (processSectors (processRecords records)) k = some od)
    (e : Nat × SectorData) (he : e ∈ od.sectors) :
    e.2.sectorNumber < 256 ∧ e.2.units.length < 2 ^ 16 ∧
    0 ≤ e.2.latMin - globalLatOffsetOf (processRecords records) ∧
    e.2.latMin - globalLatOffsetOf (processRecords records) < 2 ^ 23 ∧
    0 ≤ e.2.lonMin - globalLonOffsetOf (processRecords records) ∧
    e.2.lonMin - globalLonOffsetOf (processRecords records) < 2 ^ 23 ∧
    sectorBitsLat e.2 ≤ 23 ∧ sectorBitsLon e.2 ≤ 23 := by
  obtain ⟨hsn, hs9, hne, hnd, _, hbounds, ⟨x0, hx0, hx0v⟩, ⟨y0, hy0, hy0v⟩⟩ :=
    sector_layout_facts records k od hod e he
  have hspread : ∀ x ∈ e.2.units, ∀ y ∈ e.2.units,
      x.latInt - y.latInt < 2 ^ 23 ∧ x.lonInt - y.lonInt < 2 ^ 23 := by
    intro x hx y hy
    obtain ⟨_, _, _, ⟨r1, hr1, hp1, hlat1, hlon1⟩, _⟩ := hbounds x hx
    obtain ⟨_, _, _, ⟨r2, hr2, hp2, hlat2, hlon2⟩, _⟩ := hbounds y hy
    obtain ⟨hla, hlo⟩ := hsp r1 hr1 r2 hr2 hp1 hp2
    rw [hlat1, hlon1, hlat2, hlon2]
    exact ⟨hla, hlo⟩
  refine ⟨by omega, ?_, ?_, ?_, ?_, ?_, ?_, ?_⟩
  · have hlen : (e.2.units.map (fun x => x.unitIndex)).length ≤ 676 := by
      apply nodup_lt_length_le _ 676 hnd
      intro v hv
      obtain ⟨x, hx, hxv⟩ := List.mem_map.1 hv
      have := (hbounds x hx).1
      omega
    rw [List.length_map] at hlen
    omega
  · obtain ⟨_, hlatle, _⟩ := hbounds x0 hx0
    have hg := globalLatOffset_le (processRecords records) x0 (hbounds x0 hx0).2.2.2.2
    omega
  · obtain ⟨gx, hgx, hgxv⟩ := globalLatOffset_mem (processRecords records)
      (by
        intro hnil
        have := (hbounds x0 hx0).2.2.2.2
        rw [hnil] at this
        exact List.not_mem_nil x0 this)
    obtain ⟨r1, hr1, hp1, hlat1, _⟩ := (hbounds x0 hx0).2.2.2.1
    obtain ⟨r2, hr2, hp2, hlat2, _⟩ := allUnits_prov records gx hgx
    have := (hsp r1 hr1 r2 hr2 hp1 hp2).1
    rw [hgxv, ← hx0v, hlat1, hlat2]
    omega
  · obtain ⟨_, _, hlonle, _⟩ := hbounds y0 hy0
    have hg := globalLonOffset_le (processRecords records) y0 (hbounds y0 hy0).2.2.2.2
    omega
  · obtain ⟨gx, hgx, hgxv⟩ := globalLonOffset_mem (processRecords records)
      (by
        intro hnil
        have := (hbounds y0 hy0).2.2.2.2
        rw [hnil] at this
        exact List.not_mem_nil y0 this)
    obtain ⟨r1, hr1, hp1, _, hlon1⟩ := (hbounds y0 hy0).2.2.2.1
    obtain ⟨r2, hr2, hp2, _, hlon2⟩ := allUnits_prov records gx hgx
    have := (hsp r1 hr1 r2 hr2 hp1 hp2).2
    rw [hgxv, ← hy0v, hlon1, hlon2]
    omega
  · apply calculateBitWidth_le _ _ (foldl_max_le _ 0).1
    rcases foldl_max_mem (sectorLatDeltas e.2) 0 with h | h
    · rw [h]
      norm_num
    · rw [sectorLatDeltas] at h
      obtain ⟨x, hx, hxv⟩ := List.mem_map.1 h
      rw [sectorLatDeltas, ← hxv]
      have h1 := (hspread x hx x0 hx0).1
      rw [hx0v] at h1
      exact h1
  · apply calculateBitWidth_le _ _ (foldl_max_le _ 0).1
    rcases foldl_max_mem (sectorLonDeltas e.2) 0 with h | h
    · rw [h]
      norm_num
    · rw [sectorLonDeltas] at h
      obtain ⟨x, hx, hxv⟩ := List.mem_map.1 h
      rw [sectorLonDeltas, ← hxv]
      have h1 := (hspread x hx y0 hy0).2
      rw [hy0v] at h1
      exact h1

/-! ## The sorted outward keys of a well-formed database -/

theorem mem_sortedOutwardKeys (m : List (Str × OutwardData)) (k : Str) :
    k ∈ sortedOutwardKeys m ↔ k ∈ m.map Prod.fst := by
  rw [sortedOutwardKeys]
  exact (perm_sortBy strLt (m.map Prod.fst)).mem_iff

theorem nodup_sortedOutwardKeys (m : List (Str × OutwardData))
    (h : (m.map Prod.fst).Nodup) : (sortedOutwardKeys m).Nodup := by
  rw [sortedOutwardKeys]
  exact ((perm_sortBy strLt (m.map Prod.fst)).nodup_iff).2 h

theorem pairwise_sortedOutwardKeys (m : List (Str × OutwardData))
    (h : (m.map Prod.fst).Nodup) :
    List.Pairwise (fun a b => strCmp a b = Ordering.lt) (sortedOutwardKeys m) := by
  have h1 := pairwise_sortBy strLt strLt_asym strLt_letrans (m.map Prod.fst)
  have h2 : List.Pairwise (fun a b : Str => a ≠ b) (sortedOutwardKeys m) :=
    (nodup_sortedOutwardKeys m h).imp (fun hne => hne)
  rw [← sortedOutwardKeys] at h1
  have h3 := h1.and h2
  apply h3.imp
  intro a b hab
  obtain ⟨hfalse, hne⟩ := hab
  rcases strCmp_total a b with hc | hc | hc
  · exact hc
  · exact absurd ((strCmp_eq_iff a b).1 hc) hne
  · have := strCmp_gt_lt a b hc
    rw [← strLt_iff_strCmp] at this
    rw [this] at hfalse
    exact absurd hfalse (by simp)

theorem keys_facts (records : List PostcodeRecord)
    (hout : ∀ r ∈ records, ∀ p : ParsedPostcode,
      PostcodeNormalizer.parsePostcode r.postcode = some p →
        p.outward.length ≤ 4 ∧
        ∀ c ∈ p.outward, (48 ≤ c.toNat ∧ c.toNat ≤ 57) ∨ (65 ≤ c.toNat ∧ c.toNat ≤ 90)) :
    ∀ k ∈ sortedOutwardKeys (processSectors (processRecords records)),
      (∃ od, assocGet (processSectors (processRecords records)) k = some od ∧
        od.sectors.length < 2 ^ 8) ∧
      k ≠ [] ∧ k.length ≤ 4 ∧ ∀ c ∈ k, 0 < c.toNat ∧ c.toNat < 128 := by
  intro k hk
  have hk2 : k ∈ (processRecords records).map Prod.fst := by
    rw [mem_sortedOutwardKeys, keys_processSectors] at hk
    exact hk
  obtain ⟨od, hod⟩ := assocGet_isSome_of_mem_keys _ k
    (by rw [keys_processSectors]; exact hk2)
  obtain ⟨pr, hpr, hprk⟩ := List.mem_map.1 hk2
  obtain ⟨⟨r, hr, pp, hparse, hpout⟩, _, _⟩ := (WFInv_processRecords records).2 pr hpr
  obtain ⟨hlen4, hchars⟩ := hout r hr pp hparse
  obtain ⟨_, _, hne⟩ := parse_bounds _ _ hparse
  have hkpp : pp.outward = k := by rw [hpout, hprk]
  subst hkpp
  refine ⟨⟨od, hod, ?_⟩, hne, hlen4, ?_⟩
  · -- sector count below 256
    have hcount : od.sectors.length ≤ 10 := by
      have hnd : (od.sectors.map Prod.fst).Nodup := by
        rw [assocGet_processSectors] at hod
        cases hod0 : assocGet (processRecords records) pp.outward with
        | none => rw [hod0] at hod; exact absurd hod (by simp)
        | some od0 =>
          rw [hod0] at hod
          simp only [Option.map_some', Option.some_inj] at hod
          subst hod
          rw [sortOD]
          dsimp only
          rw [List.map_map]
          have hcomp : ((Prod.fst : Nat × SectorData → Nat) ∘ fun s : Nat × SectorData =>
              (s.1, (⟨s.2.sectorNumber, sortBy (fun a b => a.unitIndex < b.unitIndex) s.2.units,
                s.2.latMin, s.2.latMax, s.2.lonMin, s.2.lonMax⟩ : SectorData))) =
              (Prod.fst : Nat × SectorData → Nat) := rfl
          rw [hcomp]
          exact ((WFInv_processRecords records).2 (pp.outward, od0)
            (assocGet_mem _ _ _ hod0)).2.1.2.1
      apply le_trans (by rw [List.length_map] : od.sectors.length ≤
        (od.sectors.map Prod.fst).length) ?_
      apply nodup_lt_length_le _ 10 hnd
      intro v hv
      obtain ⟨e, he, hev⟩ := List.mem_map.1 hv
      have := (sector_layout_facts records pp.outward od hod e he).2.1
      omega
    omega
  · intro c hc
    rcases hchars c hc with ⟨h1, h2⟩ | ⟨h1, h2⟩ <;> omega

/-! ## Size bounds: blobs, blocks, offsets, totals -/

theorem chooseSectorMode_lt (sd : SectorData) (h : (chooseSectorMode sd).1 = true) :
    (chooseSectorMode sd).2 < 85 := by
  rw [chooseSectorMode] at h ⊢
  cases hu : sd.units.map (fun u => u.unitIndex) with
  | nil =>
    rw [hu] at h
    exact absurd h (by simp)
  | cons first rest =>
    rw [hu] at h
    simp only [decide_eq_true_eq] at h
    simpa using h

theorem sectorBlobSize_le_of (sd : SectorData) (hn : sd.units.length ≤ 676)
    (hbl : sectorBitsLat sd ≤ 23) (hbo : sectorBitsLon sd ≤ 23) :
    sectorBlobSize sd ≤ 3972 := by
  rw [sectorBlobSize]
  have hpres : (if (chooseSectorMode sd).1 then (chooseSectorMode sd).2 else 85) ≤ 85 := by
    by_cases h : (chooseSectorMode sd).1
    · rw [if_pos h]
      exact le_of_lt (chooseSectorMode_lt sd h)
    · rw [if_neg h]
  have hcoord : (sd.units.length * (sectorBitsLat sd + sectorBitsLon sd) + 7) / 8 ≤ 3887 := by
    calc (sd.units.length * (sectorBitsLat sd + sectorBitsLon sd) + 7) / 8
        ≤ (676 * 46 + 7) / 8 := Nat.div_le_div_right (by
          have := Nat.mul_le_mul hn (show sectorBitsLat sd + sectorBitsLon sd ≤ 46 by omega)
          omega)
      _ = 3887 := by norm_num
  omega

theorem outwardBlockSize_le_of (od : OutwardData) (hsc : od.sectors.length ≤ 10)
    (hblob : ∀ e ∈ od.sectors, sectorBlobSize e.2 ≤ 3972) :
    outwardBlockSize od ≤ 39860 := by
  rw [outwardBlockSize]
  have hsum : ((od.sectors.map (fun s => sectorBlobSize s.2)).sum) ≤
      od.sectors.length * 3972 := by
    have := sum_le_card_mul (od.sectors.map (fun s => sectorBlobSize s.2)) 3972 ?_
    · rw [List.length_map] at this
      exact this
    · intro x hx
      obtain ⟨e, he, hev⟩ := List.mem_map.1 hx
      rw [← hev]
      exact hblob e he
  have h2 : od.sectors.length * 3972 ≤ 10 * 3972 := Nat.mul_le_mul_right _ hsc
  omega

theorem sectors_count_le (records : List PostcodeRecord) (k : Str) (od : OutwardData)
    (hod : assocGet (processSectors (processRecords records)) k = some od) :
    od.sectors.length ≤ 10 := by
  have hnd : (od.sectors.map Prod.fst).Nodup := by
    rw [assocGet_processSectors] at hod
    cases hod0 : assocGet (processRecords records) k with
    | none => rw [hod0] at hod; exact absurd hod (by simp)
    | some od0 =>
      rw [hod0] at hod
      simp only [Option.map_some', Option.some_inj] at hod
      subst hod
      rw [sortOD]
      dsimp only
      rw [List.map_map]
      have hcomp : ((Prod.fst : Nat × SectorData → Nat) ∘ fun s : Nat × SectorData =>
          (s.1, (⟨s.2.sectorNumber, sortBy (fun a b => a.unitIndex < b.unitIndex) s.2.units,
            s.2.latMin, s.2.latMax, s.2.lonMin, s.2.lonMax⟩ : SectorData))) =
          (Prod.fst : Nat × SectorData → Nat) := rfl
      rw [hcomp]
      exact ((WFInv_processRecords records).2 (k, od0)
        (assocGet_mem _ _ _ hod0)).2.1.2.1
  apply le_trans (by rw [List.length_map] : od.sectors.length ≤
    (od.sectors.map Prod.fst).length) ?_
  apply nodup_lt_length_le _ 10 hnd
  intro v hv
  obtain ⟨e, he, hev⟩ := List.mem_map.1 hv
  have := (sector_layout_facts records k od hod e he).2.1
  omega

theorem offsets_facts (records : List PostcodeRecord)
    (hsp : ∀ r1 ∈ records, ∀ r2 ∈ records,
      (PostcodeNormalizer.parsePostcode r1.postcode).isSome →
      (PostcodeNormalizer.parsePostcode r2.postcode).isSome →
        round (r1.lat * 100000) - round (r2.lat * 100000) < 2 ^ 23 ∧
        round (r1.lon * 100000) - round (r2.lon * 100000) < 2 ^ 23)
    (hcnt : (processRecords records).length ≤ 65535) :
    (∀ k ∈ sortedOutwardKeys (processSectors (processRecords records)),
      ∀ od, assocGet (processSectors (processRecords records)) k = some od →
        outwardBlockSize od ≤ 39860) ∧
    (∀ i, outwardBlockOffset (processSectors (processRecords records)) i < 2 ^ 32) ∧
    totalUnitCountOf (processSectors (processRecords records)) < 2 ^ 32 := by
  have hlen : (processSectors (processRecords records)).length =
      (processRecords records).length := by
    rw [processSectors_eq, List.length_map]
  have hunits676 : ∀ k od, assocGet (processSectors (processRecords records)) k = some od →
      ∀ e ∈ od.sectors, e.2.units.length ≤ 676 := by
    intro k od hod e he
    obtain ⟨_, _, _, hnd, _, hbounds, _, _⟩ := sector_layout_facts records k od hod e he
    have hlen2 : (e.2.units.map (fun x => x.unitIndex)).length ≤ 676 := by
      apply nodup_lt_length_le _ 676 hnd
      intro v hv
      obtain ⟨x, hx, hxv⟩ := List.mem_map.1 hv
      have := (hbounds x hx).1
      omega
    rw [List.length_map] at hlen2
    exact hlen2
  have hbsize : ∀ k od, assocGet (processSectors (processRecords records)) k = some od →
      outwardBlockSize od ≤ 39860 := by
    intro k od hod
    apply outwardBlockSize_le_of od (sectors_count_le records k od hod)
    intro e he
    obtain ⟨_, _, _, _, _, _, hbl, hbo⟩ := sector_numeric_facts records hsp k od hod e he
    exact sectorBlobSize_le_of e.2 (hunits676 k od hod e he) hbl hbo
  refine ⟨fun k _ od hod => hbsize k od hod, ?_, ?_⟩
  · intro i
    rw [outwardBlockOffset]
    have hsum : (((sortedOutwardKeys (processSectors (processRecords records))).take i).map
        (fun k => match assocGet (processSectors (processRecords records)) k with
          | none => 0
          | some od => outwardBlockSize od)).sum ≤ 65535 * 39860 := by
      apply le_trans (sum_le_card_mul _ 39860 ?_) ?_
      · intro x hx
        obtain ⟨kk, hkk, hkv⟩ := List.mem_map.1 hx
        rw [← hkv]
        cases hod : assocGet (processSectors (processRecords records)) kk with
        | none => simp
        | some od =>
          dsimp only
          exact hbsize kk od hod
      · rw [List.length_map]
        have h1 : ((sortedOutwardKeys (processSectors (processRecords records))).take i).length ≤
            (sortedOutwardKeys (processSectors (processRecords records))).length :=
          by simpa using List.length_take_le i _
        rw [length_sortedOutwardKeys, hlen] at h1
        exact Nat.mul_le_mul_right _ (le_trans h1 hcnt)
    rw [hlen]
    have h2 : 9 * (processRecords records).length ≤ 9 * 65535 :=
      Nat.mul_le_mul_left _ hcnt
    omega
  · rw [totalUnitCountOf]
    have hsum : ((sortedOutwardKeys (processSectors (processRecords records))).map
        (fun k => match assocGet (processSectors (processRecords records)) k with
          | none => 0
          | some od => (od.sectors.map (fun s => s.2.units.length)).sum)).sum ≤
        65535 * 6760 := by
      apply le_trans (sum_le_card_mul _ 6760 ?_) ?_
      · intro x hx
        obtain ⟨kk, hkk, hkv⟩ := List.mem_map.1 hx
        rw [← hkv]
        cases hod : assocGet (processSectors (processRecords records)) kk with
        | none => simp
        | some od =>
          dsimp only
          have hsec : (od.sectors.map (fun s => s.2.units.length)).sum ≤
              od.sectors.length * 676 := by
            have := sum_le_card_mul (od.sectors.map (fun s => s.2.units.length)) 676 ?_
            · rw [List.length_map] at this
              exact this
            · intro v hv
              obtain ⟨e, he, hev⟩ := List.mem_map.1 hv
              rw [← hev]
              exact hunits676 kk od hod e he
          have h2 : od.sectors.length * 676 ≤ 10 * 676 :=
            Nat.mul_le_mul_right _ (sectors_count_le records kk od hod)
          omega
      · rw [List.length_map, length_sortedOutwardKeys, hlen]
        exact Nat.mul_le_mul_right _ hcnt
    omega

theorem gOffsets_int32 (records : List PostcodeRecord)
    (habs : ∀ r ∈ records, (PostcodeNormalizer.parsePostcode r.postcode).isSome →
      |round (r.lat * 100000)| < 2 ^ 31 ∧ |round (r.lon * 100000)| < 2 ^ 31) :
    (-(2 ^ 31) ≤ globalLatOffsetOf (processRecords records) ∧
      globalLatOffsetOf (processRecords records) < 2 ^ 31) ∧
    (-(2 ^ 31) ≤ globalLonOffsetOf (processRecords records) ∧
      globalLonOffsetOf (processRecords records) < 2 ^ 31) := by
  by_cases hnil : allUnits (processRecords records) = []
  · constructor
    · rw [globalLatOffsetOf, hnil]
      norm_num
    · rw [globalLonOffsetOf, hnil]
      norm_num
  · constructor
    · obtain ⟨x, hx, hxv⟩ := globalLatOffset_mem _ hnil
      obtain ⟨r, hr, hp, hlat, _⟩ := allUnits_prov records x hx
      have h1 := (habs r hr hp).1
      rw [abs_lt] at h1
      rw [hxv, hlat]
      constructor <;> omega
    · obtain ⟨x, hx, hxv⟩ := globalLonOffset_mem _ hnil
      obtain ⟨r, hr, hp, _, hlon⟩ := allUnits_prov records x hx
      have h1 := (habs r hr hp).2
      rw [abs_lt] at h1
      rw [hxv, hlon]
      constructor <;> omega

/-- Building a client on the encoder output of well-formed records
succeeds, with the expected header and outward index. -/
theorem encodeFromRecords_client (records : List PostcodeRecord)
    (hwf : WFRecords records) (hne : processRecords records ≠ []) :
    mkClient (PostcodeEncoder.encodeFromRecords records) = .ok
      ⟨PostcodeEncoder.encodeFromRecords records,
        ⟨[80, 67, 68, 66], 3, 0,
          (sortedOutwardKeys (processSectors (processRecords records))).length,
          totalUnitCountOf (processSectors (processRecords records)),
          globalLatOffsetOf (processRecords records),
          globalLonOffsetOf (processRecords records)⟩,
        indexEntriesAux (processSectors (processRecords records))
          (sortedOutwardKeys (processSectors (processRecords records))) 0⟩ := by
  obtain ⟨hout, hsp, habs, hcnt⟩ := hwf
  obtain ⟨hbsize, hoffb, htc⟩ := offsets_facts records hsp hcnt
  obtain ⟨hglat, hglon⟩ := gOffsets_int32 records habs
  have hlenM : (processSectors (processRecords records)).length =
      (processRecords records).length := by
    rw [processSectors_eq, List.length_map]
  have hkne : sortedOutwardKeys (processSectors (processRecords records)) ≠ [] := by
    intro hk
    apply hne
    have := congrArg List.length hk
    rw [length_sortedOutwardKeys, hlenM] at this
    exact List.length_eq_zero.1 this
  have hcnt2 : (sortedOutwardKeys (processSectors (processRecords records))).length <
      2 ^ 16 := by
    rw [length_sortedOutwardKeys, hlenM]
    omega
  show mkClient (generateBinaryBuffer (processSectors (processRecords records))
    (globalLatOffsetOf (processRecords records))
    (globalLonOffsetOf (processRecords records))) = _
  exact mkClient_generateBinaryBuffer _ _ _ hkne hcnt2 htc hglat hglon
    (keys_facts records hout) hoffb

/-! ## Uniqueness helpers for assoc lists with distinct keys -/

theorem nodup_keys_unique {α β : Type} (m : List (α × β)) (hnd : (m.map Prod.fst).Nodup)
    (k : α) (a b : β) (ha : (k, a) ∈ m) (hb : (k, b) ∈ m) : a = b := by
  have := List.inj_on_of_nodup_map hnd ha hb rfl
  exact congrArg Prod.snd this

theorem assocGet_eq_of_mem_nodup {α β : Type} [BEq α] [LawfulBEq α]
    (m : List (α × β)) (hnd : (m.map Prod.fst).Nodup) (k : α) (v : β)
    (hm : (k, v) ∈ m) : assocGet m k = some v := by
  cases hg : assocGet m k with
  | none =>
    rw [assocGet_eq_none_iff] at hg
    exact absurd (List.mem_map.2 ⟨(k, v), hm, rfl⟩) hg
  | some w =>
    rw [nodup_keys_unique m hnd k w v (assocGet_mem _ _ _ hg) hm]

theorem find?_beq_of_nodup (l : List UnitData)
    (hnd : (l.map (fun x => x.unitIndex)).Nodup) (r : Nat) (hr : r < l.length) :
    l.find? (fun x => x.unitIndex == l[r].unitIndex) = some l[r] := by
  cases hf : l.find? (fun x => x.unitIndex == l[r].unitIndex) with
  | none =>
    rw [List.find?_eq_none] at hf
    exact absurd (by simp) (hf l[r] (l.getElem_mem hr))
  | some x =>
    have hx := List.mem_of_find?_eq_some hf
    have hpx := List.find?_some hf
    simp only [beq_iff_eq] at hpx
    rw [List.inj_on_of_nodup_map hnd hx (l.getElem_mem hr) hpx]

theorem mem_sortedSectorsOf (od : OutwardData) (sd : SectorData) :
    sd ∈ sortedSectorsOf od ↔ ∃ e ∈ od.sectors, e.2 = sd := by
  rw [sortedSectorsOf, (perm_sortBy _ _).mem_iff]
  constructor
  · intro h
    obtain ⟨e, he, hev⟩ := List.mem_map.1 h
    exact ⟨e, he, hev⟩
  · intro ⟨e, he, hev⟩
    exact List.mem_map.2 ⟨e, he, hev⟩

theorem length_sortedSectorsOf (od : OutwardData) :
    (sortedSectorsOf od).length = od.sectors.length := by
  rw [sortedSectorsOf, (perm_sortBy _ _).length_eq, List.length_map]

end PostcodeDB
